import Mathlib

/-!
Verification of the natural-language specification of the rust-etree
repository against a shallow embedding of its source code
(src/etree.rs, src/etreenode.rs, src/xpath.rs).

Rust strings are modelled as lists of characters (`Str`), vectors as
lists, `HashMap` as association lists, and panics as `Except.error`.
The external tokenizer (quick-xml) is modelled at the event level: the
parser consumes a list of `XEv` events and the serializer produces one,
mirroring `read_namespaced_event` / `write_event`; the byte-level
escaping performed by the external crate is assumed to round-trip.
-/

set_option maxHeartbeats 1000000

namespace RustEtree

/-- Rust `String` / `&str`, modelled as a list of characters. -/
abbrev Str := List Char

instance exceptDecEq {ε α : Type} [DecidableEq ε] [DecidableEq α] : DecidableEq (Except ε α) :=
  fun a b =>
    match a, b with
    | Except.ok x, Except.ok y => decidable_of_iff (x = y) (by simp)
    | Except.error x, Except.error y => decidable_of_iff (x = y) (by simp)
    | Except.ok _, Except.error _ => isFalse (by simp)
    | Except.error _, Except.ok _ => isFalse (by simp)

/-- The `#` character used by route labels. -/
def hashC : Char := '#'

/-- The `'` (apostrophe) character, used when building predicate strings. -/
def quoteC : Char := Char.ofNat 39

/-- The newline character. -/
def nlC : Char := Char.ofNat 10

/-- Decimal digit character (value below ten). -/
def digitChar (n : Nat) : Char := Char.ofNat (48 + n)

/-- Fuel-driven decimal rendering of a natural number (the fuel form keeps
the definition structurally recursive so it evaluates inside the kernel). -/
def natCharsAux : Nat → Nat → Str
  | 0, _ => []
  | fuel+1, n => if n < 10 then [digitChar n] else natCharsAux fuel (n / 10) ++ [digitChar (n % 10)]

/-- Decimal rendering of a natural number, as Rust `format!` renders `usize`. -/
def natChars (n : Nat) : Str := natCharsAux (n + 1) n

/-- Numeric value of a digit string (used to model `str::parse::<usize>`). -/
def charsVal (l : Str) : Nat := l.foldl (fun a c => a * 10 + (c.toNat - 48)) 0

theorem natCharsAux_irrel : ∀ f₁ f₂ n, n < f₁ → n < f₂ →
    natCharsAux f₁ n = natCharsAux f₂ n := by
  intro f₁
  induction f₁ with
  | zero => intro f₂ n h; omega
  | succ f ih =>
    intro f₂ n h₁ h₂
    match f₂, h₂ with
    | f₂+1, h₂ =>
      simp only [natCharsAux]
      by_cases hn : n < 10
      · simp [hn]
      · simp only [hn, if_false]
        have hd : n / 10 < f := by
          have h10 : n / 10 < n := Nat.div_lt_self (by omega) (by omega)
          omega
        have hd₂ : n / 10 < f₂ := by
          have h10 : n / 10 < n := Nat.div_lt_self (by omega) (by omega)
          omega
        rw [ih f₂ (n / 10) hd hd₂]

theorem natChars_ge10 (n : Nat) (h : ¬ n < 10) :
    natChars n = natChars (n / 10) ++ [digitChar (n % 10)] := by
  have hd : n / 10 < n := Nat.div_lt_self (by omega) (by omega)
  unfold natChars
  conv_lhs => rw [natCharsAux]
  simp only [h, if_false]
  rw [natCharsAux_irrel n (n / 10 + 1) (n / 10) hd (Nat.lt_succ_self _)]

theorem natChars_lt10 (n : Nat) (h : n < 10) : natChars n = [digitChar n] := by
  simp [natChars, natCharsAux, h]

theorem digitChar_toNat (d : Nat) (h : d < 10) : (digitChar d).toNat = 48 + d := by
  interval_cases d <;> decide

theorem digitChar_isDigit (d : Nat) (h : d < 10) : (digitChar d).isDigit = true := by
  interval_cases d <;> decide

theorem digitChar_ne_hash (d : Nat) (h : d < 10) : digitChar d ≠ hashC := by
  interval_cases d <;> decide

theorem natChars_digits (n : Nat) : ∀ c ∈ natChars n, ∃ d, d < 10 ∧ c = digitChar d := by
  induction n using Nat.strong_induction_on with
  | _ n ih =>
    intro c hc
    by_cases h : n < 10
    · rw [natChars_lt10 n h] at hc
      simp at hc
      exact ⟨n, h, hc⟩
    · rw [natChars_ge10 n h] at hc
      rcases List.mem_append.1 hc with h1 | h2
      · exact ih (n / 10) (Nat.div_lt_self (by omega) (by omega)) c h1
      · exact ⟨n % 10, Nat.mod_lt _ (by omega), List.mem_singleton.1 h2⟩

theorem natChars_isDigit (n : Nat) : ∀ c ∈ natChars n, c.isDigit = true := by
  intro c hc
  obtain ⟨d, hd, rfl⟩ := natChars_digits n c hc
  exact digitChar_isDigit d hd

theorem natChars_no_hash (n : Nat) : hashC ∉ natChars n := by
  intro hmem
  obtain ⟨d, hd, he⟩ := natChars_digits n hashC hmem
  exact digitChar_ne_hash d hd he.symm

theorem natChars_ne_nil (n : Nat) : natChars n ≠ [] := by
  by_cases h : n < 10
  · rw [natChars_lt10 n h]; simp
  · rw [natChars_ge10 n h]; simp

theorem charsVal_append (l₁ l₂ : Str) :
    charsVal (l₁ ++ l₂) = (l₂.foldl (fun a c => a * 10 + (c.toNat - 48)) (charsVal l₁)) := by
  simp [charsVal, List.foldl_append]

theorem charsVal_natChars (n : Nat) : charsVal (natChars n) = n := by
  induction n using Nat.strong_induction_on with
  | _ n ih =>
    by_cases h : n < 10
    · rw [natChars_lt10 n h]
      simp [charsVal, digitChar_toNat n h]
    · rw [natChars_ge10 n h, charsVal_append]
      have := ih (n / 10) (Nat.div_lt_self (by omega) (by omega))
      simp [this, digitChar_toNat (n % 10) (Nat.mod_lt _ (by omega))]
      omega

theorem natChars_injective : Function.Injective natChars := by
  intro a b h
  have := charsVal_natChars a
  rw [h, charsVal_natChars] at this
  omega

/-- Route label of a stack of ancestor identities: the string
`#id1#id2#...#` built by the parser and the mutation primitives. -/
def mkRoute (s : List Nat) : Str := hashC :: (s.map (fun a => natChars a ++ [hashC])).flatten

theorem mkRoute_nil : mkRoute [] = [hashC] := by simp [mkRoute]

theorem mkRoute_append (s : List Nat) (a : Nat) :
    mkRoute (s ++ [a]) = mkRoute s ++ natChars a ++ [hashC] := by
  simp [mkRoute]

theorem mkRoute_ne_nil (s : List Nat) : mkRoute s ≠ [] := by simp [mkRoute]

theorem mkRoute_head (s : List Nat) : ∃ t, mkRoute s = hashC :: t := ⟨_, rfl⟩

theorem mkRoute_getLast (s : List Nat) : (mkRoute s).getLast? = some hashC := by
  induction s using List.reverseRecOn with
  | nil => simp [mkRoute]
  | append_singleton s a _ =>
    rw [mkRoute_append]
    simp [List.getLast?_append]

theorem mkRoute_length_lt (s : List Nat) (a : Nat) :
    (mkRoute s).length < (mkRoute (s ++ [a])).length := by
  rw [mkRoute_append]
  have hlen : 0 < (natChars a).length := List.length_pos.mpr (natChars_ne_nil a)
  simp only [List.length_append, List.length_cons, List.length_singleton]
  omega

/-- Helper for `splitRouteLast`, operating on the reversed route. -/
def splitRouteLastRev : Str → Option (Str × Str)
  | [] => none
  | cl :: rrest =>
    if cl = hashC then
      let ds := rrest.takeWhile (fun c => c.isDigit)
      if ds = [] then none
      else
        match (rrest.drop ds.length).reverse with
        | [] => none
        | p0 :: prest => if p0 = hashC then some (p0 :: prest, ds.reverse) else none
    else none

/-- The regex `^(?P<parent>#.*?)(?P<current>\d+)#$` used to strip the last
segment of a route: returns the parent route and the digit string of the
last segment when the route matches. -/
def splitRouteLast (r : Str) : Option (Str × Str) := splitRouteLastRev r.reverse

theorem takeWhile_append_of_all {p : Char → Bool} (l₁ l₂ : Str)
    (h₁ : ∀ c ∈ l₁, p c = true) (h₂ : ∀ hd tl, l₂ = hd :: tl → p hd = false) :
    (l₁ ++ l₂).takeWhile p = l₁ := by
  induction l₁ with
  | nil =>
    cases l₂ with
    | nil => simp
    | cons hd tl => simp [List.takeWhile, h₂ hd tl rfl]
  | cons c cs ih =>
    have hc : p c = true := h₁ c (by simp)
    simp only [List.cons_append, List.takeWhile_cons, hc, if_true]
    rw [ih (fun x hx => h₁ x (by simp [hx]))]

theorem splitRouteLast_mkRoute (s : List Nat) (a : Nat) :
    splitRouteLast (mkRoute (s ++ [a])) = some (mkRoute s, natChars a) := by
  rw [mkRoute_append]
  unfold splitRouteLast
  have hrev : (mkRoute s ++ natChars a ++ [hashC]).reverse
      = hashC :: ((natChars a).reverse ++ (mkRoute s).reverse) := by
    simp
  rw [hrev]
  have htw : ((natChars a).reverse ++ (mkRoute s).reverse).takeWhile (fun c => c.isDigit)
      = (natChars a).reverse := by
    apply takeWhile_append_of_all
    · intro c hc
      exact natChars_isDigit a c (List.mem_reverse.1 hc)
    · intro hd tl hl
      have h1 : ((mkRoute s).reverse).head? = some hashC := by
        rw [List.head?_reverse]
        exact mkRoute_getLast s
      rw [hl] at h1
      simp only [List.head?_cons, Option.some.injEq] at h1
      subst h1
      decide
  have hne : (natChars a).reverse ≠ [] := by
    simp [natChars_ne_nil a]
  simp only [splitRouteLastRev, if_pos rfl, htw, hne, if_false]
  have hdrop : (((natChars a).reverse ++ (mkRoute s).reverse).drop ((natChars a).reverse).length).reverse
      = mkRoute s := by
    rw [List.drop_left]
    simp
  rw [hdrop]
  obtain ⟨t, ht⟩ := mkRoute_head s
  rw [ht]
  simp [← ht]

theorem splitRouteLast_root : splitRouteLast (mkRoute []) = none := by
  decide

/-! ## ETreeNode (src/etreenode.rs) -/

/-- One tree node, as in `struct ETreeNode` of src/etreenode.rs. -/
structure ETreeNode where
  idx : Nat
  ns : Str
  ns_abbrev : Str
  local_name : Str
  attr : List (Str × Str)
  text : Option Str
  tail : Str
  route : Str
deriving DecidableEq, Repr

/-- `ETreeNode::new`. -/
def ETreeNode.new (localname : Str) : ETreeNode :=
  ⟨0, [], [], localname, [], none, [], []⟩

/-- `ETreeNode::get_name`: `ns_abbrev` and `local_name` joined by a colon,
or just `local_name` when the abbreviation is empty. -/
def ETreeNode.get_name (n : ETreeNode) : Str :=
  if n.ns_abbrev = [] then n.local_name else n.ns_abbrev ++ ':' :: n.local_name

/-- Index-tracking scan behind `ETreeNode::find_attr`. -/
def findAttrAux : List (Str × Str) → Str → Nat → Option Nat
  | [], _, _ => none
  | kv :: rest, key, i => if kv.1 = key then some i else findAttrAux rest key (i + 1)

/-- `ETreeNode::find_attr`: index of the first attribute with the given key. -/
def ETreeNode.find_attr (n : ETreeNode) (key : Str) : Option Nat :=
  findAttrAux n.attr key 0

/-- `ETreeNode::get_attr`. -/
def ETreeNode.get_attr (n : ETreeNode) (key : Str) : Option Str :=
  (n.find_attr key).map (fun i => ((n.attr.get? i).getD ([], [])).2)

/-- `ETreeNode::set_attr`: update the first attribute with this key in place
and return its index, or append the pair and return the length of the
attribute vector after the push. -/
def ETreeNode.set_attr (n : ETreeNode) (key value : Str) : ETreeNode × Nat :=
  match n.find_attr key with
  | some i => ({ n with attr := n.attr.set i (((n.attr.get? i).getD ([], [])).1, value) }, i)
  | none => ({ n with attr := n.attr ++ [(key, value)] }, n.attr.length + 1)

theorem list_set_self {α : Type} (l : List α) (i : Nat) (a : α)
    (h : l.get? i = some a) : l.set i a = l := by
  induction l generalizing i with
  | nil => simp at h
  | cons x xs ih =>
    cases i with
    | zero => simp at h; simp [h]
    | succ m =>
      simp only [List.get?_cons_succ] at h
      simp [ih m h]

theorem findAttrAux_some (l : List (Str × Str)) (key : Str) (s j : Nat)
    (h : findAttrAux l key s = some j) :
    s ≤ j ∧ ∃ v, l.get? (j - s) = some (key, v) := by
  induction l generalizing s with
  | nil => simp [findAttrAux] at h
  | cons kv rest ih =>
    simp only [findAttrAux] at h
    by_cases hk : kv.1 = key
    · rw [if_pos hk] at h
      injection h with h
      subst h
      refine ⟨le_refl _, kv.2, ?_⟩
      simp only [Nat.sub_self, List.get?_cons_zero, Option.some.injEq]
      exact Prod.ext hk rfl
    · rw [if_neg hk] at h
      obtain ⟨h1, v, h2⟩ := ih (s + 1) h
      refine ⟨by omega, v, ?_⟩
      have : j - s = (j - (s + 1)) + 1 := by omega
      rw [this]
      simpa using h2

theorem findAttrAux_none (l : List (Str × Str)) (key : Str) (s : Nat)
    (h : findAttrAux l key s = none) : ∀ kv ∈ l, kv.1 ≠ key := by
  induction l generalizing s with
  | nil => simp
  | cons kv rest ih =>
    simp only [findAttrAux] at h
    by_cases hk : kv.1 = key
    · rw [if_pos hk] at h; exact absurd h (by simp)
    · rw [if_neg hk] at h
      intro x hx
      rcases List.mem_cons.1 hx with rfl | hx2
      · exact hk
      · exact ih (s + 1) h x hx2

/-- C10: `set_attr` with a present key updates that entry in place and
returns its 0-based index; with an absent key it appends the pair and
returns the new length of the attribute list (the new index plus one);
keys stay unique and the relative order of existing attributes is kept. -/
theorem c10_set_attr (n : ETreeNode) (key value : Str)
    (hnd : (n.attr.map Prod.fst).Nodup) :
    ((n.set_attr key value).1.attr.map Prod.fst).Nodup ∧
    (∀ i, n.find_attr key = some i →
      (n.set_attr key value).2 = i ∧
      (n.set_attr key value).1.attr = n.attr.set i (key, value) ∧
      (n.set_attr key value).1.attr.map Prod.fst = n.attr.map Prod.fst) ∧
    (n.find_attr key = none →
      (n.set_attr key value).1.attr = n.attr ++ [(key, value)] ∧
      (n.set_attr key value).2 = n.attr.length + 1 ∧
      (n.set_attr key value).2 = (n.set_attr key value).1.attr.length) := by
  have hsome : ∀ i, n.find_attr key = some i →
      (n.set_attr key value).2 = i ∧
      (n.set_attr key value).1.attr = n.attr.set i (key, value) ∧
      (n.set_attr key value).1.attr.map Prod.fst = n.attr.map Prod.fst := by
    intro i hi
    obtain ⟨-, v, hv⟩ := findAttrAux_some n.attr key 0 i hi
    have hv0 : n.attr.get? i = some (key, v) := by simpa using hv
    have hattrs : ((n.attr.get? i).getD ([], [])).1 = key := by rw [hv0]; rfl
    have hred : n.set_attr key value = ({ n with attr := n.attr.set i (key, value) }, i) := by
      have hstep : n.set_attr key value
          = ({ n with attr := n.attr.set i (((n.attr.get? i).getD ([], [])).1, value) }, i) := by
        unfold ETreeNode.set_attr
        rw [hi]
      rw [hstep, hattrs]
    refine ⟨by rw [hred], by rw [hred], ?_⟩
    rw [hred]
    show (n.attr.set i (key, value)).map Prod.fst = n.attr.map Prod.fst
    have hmap : (n.attr.set i (key, value)).map Prod.fst = (n.attr.map Prod.fst).set i key := by
      simp [List.map_set]
    rw [hmap]
    apply list_set_self
    rw [List.get?_map, hv0]
    rfl
  by_cases hf : ∃ i, n.find_attr key = some i
  · obtain ⟨i, hi⟩ := hf
    obtain ⟨h1, h2, h3⟩ := hsome i hi
    refine ⟨?_, ?_, ?_⟩
    · rw [h3]; exact hnd
    · intro j hj
      rw [hi] at hj
      injection hj with hj
      subst hj
      exact hsome i hi
    · intro hnone; rw [hi] at hnone; exact absurd hnone (by simp)
  · have hnone : n.find_attr key = none := by
      cases h : n.find_attr key with
      | none => rfl
      | some i => exact absurd ⟨i, h⟩ hf
    have hnotin : key ∉ n.attr.map Prod.fst := by
      intro hmem
      obtain ⟨kv, hkv, hfst⟩ := List.mem_map.1 hmem
      exact findAttrAux_none n.attr key 0 hnone kv hkv hfst
    constructor
    · simp only [ETreeNode.set_attr, hnone]
      simp only [List.map_append, List.map_singleton]
      rw [List.nodup_append]
      exact ⟨hnd, List.nodup_singleton _, by simpa using hnotin⟩
    · refine ⟨fun j hj => by rw [hnone] at hj; exact absurd hj (by simp), fun _ => ?_⟩
      simp [ETreeNode.set_attr, hnone]

/-- Witness for C10 at a concrete node. -/
theorem c10_set_attr_witness :
    (((ETreeNode.new ['a']).attr.map Prod.fst).Nodup) ∧
    ((ETreeNode.new ['a']).set_attr ['k'] ['v']).2 = (ETreeNode.new ['a']).attr.length + 1 :=
  ⟨by decide, ((c10_set_attr (ETreeNode.new ['a']) ['k'] ['v'] (by decide)).2.2 (by decide)).2.1⟩

/-! ## ETree (src/etree.rs): structure and navigation -/

/-- The element tree, as in `struct ETree` of src/etree.rs.  The optional
identity index (`HashMap<usize, usize>`) is modelled as an association
list. -/
structure ETree where
  indent : Str
  count : Nat
  version : Str
  encoding : Option Str
  standalone : Option Str
  data : List ETreeNode
  crlf : Str
  enable_index : Bool
  index : List (Nat × Nat)
deriving DecidableEq, Repr

/-- Association-map lookup (models `HashMap::get`). -/
def amLookup (m : List (Nat × Nat)) (k : Nat) : Option Nat :=
  (m.find? (fun p => p.1 = k)).map Prod.snd

/-- Association-map insert with overwrite (models `HashMap::insert`). -/
def amInsert (m : List (Nat × Nat)) (k v : Nat) : List (Nat × Nat) :=
  (k, v) :: m.filter (fun p => ¬ p.1 = k)

/-- Association-map removal (models `HashMap::remove`). -/
def amRemove (m : List (Nat × Nat)) (k : Nat) : List (Nat × Nat) :=
  m.filter (fun p => ¬ p.1 = k)

/-- Node at a position.  Positions are always bounds-checked in the source
before indexing, so the default is never reached on the verified paths. -/
def ETree.nodeAt (t : ETree) (i : Nat) : ETreeNode := (t.data.get? i).getD (ETreeNode.new [])

def ETree.routeAt (t : ETree) (i : Nat) : Str := (t.nodeAt i).route

def ETree.tailAt (t : ETree) (i : Nat) : Str := (t.nodeAt i).tail

def ETree.textAt (t : ETree) (i : Nat) : Option Str := (t.nodeAt i).text

def ETree.idxAt (t : ETree) (i : Nat) : Nat := (t.nodeAt i).idx

/-- The `starts_with("<") && ends_with(">")` test for synthetic entries
(comment / CDATA / PI / doctype sentinels). -/
def syntheticName (l : Str) : Bool := l.head? = some '<' && l.getLast? = some '>'

/-- Loop body of `ETree::root`. -/
def rootAux : List ETreeNode → Nat → Nat
  | [], i => i
  | n :: rest, i => if syntheticName n.local_name then rootAux rest (i + 1) else i

/-- `ETree::root`: position of the first non-synthetic entry. -/
def ETree.root (t : ETree) : Nat := rootAux t.data 0

/-- Backward scan of `ETree::parent`: first earlier node whose route equals
the stripped route (no break condition in the source loop). -/
def scanEqAux : Str → List ETreeNode → Nat → Option Nat
  | _, [], _ => none
  | r, n :: rest, i => if n.route = r then some i else scanEqAux r rest (i - 1)

/-- `ETree::parent`. -/
def ETree.parent (t : ETree) (pos : Nat) : Option Nat :=
  if pos = 0 ∨ pos ≥ t.data.length then none
  else
    match splitRouteLast (t.routeAt pos) with
    | some (par, _) => scanEqAux par ((t.data.take pos).reverse) (pos - 1)
    | none => none

/-- Backward scan of `ETree::previous`: stop with a hit on an equal route,
keep going while the scanned route still extends the reference route. -/
def scanPrevAux : Str → List ETreeNode → Nat → Option Nat
  | _, [], _ => none
  | r, n :: rest, i =>
    if n.route = r then some i
    else if r.isPrefixOf n.route then scanPrevAux r rest (i - 1)
    else none

/-- `ETree::previous`. -/
def ETree.previous (t : ETree) (pos : Nat) : Option Nat :=
  if pos = 0 ∨ pos ≥ t.data.length then none
  else scanPrevAux (t.routeAt pos) ((t.data.take pos).reverse) (pos - 1)

/-- Forward scan of `ETree::next`. -/
def scanNextAux : Str → List ETreeNode → Nat → Option Nat
  | _, [], _ => none
  | r, n :: rest, i =>
    if n.route = r then some i
    else if r.isPrefixOf n.route then scanNextAux r rest (i + 1)
    else none

/-- `ETree::next` (the `len - 1` guard uses Nat subtraction, as the release
build of the source does on `usize`). -/
def ETree.next (t : ETree) (pos : Nat) : Option Nat :=
  if pos ≥ t.data.length - 1 then none
  else scanNextAux (t.routeAt pos) (t.data.drop (pos + 1)) (pos + 1)

/-- Route that the children of the node at `pos` must carry:
`route ++ idx ++ "#"`. -/
def ETree.childRoute (t : ETree) (pos : Nat) : Str :=
  t.routeAt pos ++ natChars (t.idxAt pos) ++ [hashC]

/-- Forward scan of `ETree::children`: collect equal routes, skip strict
extensions, stop at the first non-extension. -/
def scanChildAux : Str → List ETreeNode → Nat → List Nat
  | _, [], _ => []
  | r, n :: rest, i =>
    if n.route = r then i :: scanChildAux r rest (i + 1)
    else if r.isPrefixOf n.route then scanChildAux r rest (i + 1)
    else []

/-- `ETree::children`. -/
def ETree.children (t : ETree) (pos : Nat) : List Nat :=
  if pos < t.data.length then scanChildAux (t.childRoute pos) (t.data.drop (pos + 1)) (pos + 1)
  else []

/-- `ETree::children_by_name`. -/
def ETree.children_by_name (t : ETree) (pos : Nat) (tagname : Str) : List Nat :=
  (t.children pos).filter (fun i => (t.nodeAt i).get_name = tagname)

/-- Forward scan of `ETree::descendant`: collect while the route extends the
child route, stop at the first that does not. -/
def scanDescAux : Str → List ETreeNode → Nat → List Nat
  | _, [], _ => []
  | r, n :: rest, i => if r.isPrefixOf n.route then i :: scanDescAux r rest (i + 1) else []

/-- `ETree::descendant`. -/
def ETree.descendant (t : ETree) (pos : Nat) : List Nat :=
  if pos < t.data.length then scanDescAux (t.childRoute pos) (t.data.drop (pos + 1)) (pos + 1)
  else []

/-- `ETree::pos`: position by identity, via the optional index or a scan. -/
def ETree.posOf (t : ETree) (idx : Nat) : Option Nat :=
  if t.enable_index then amLookup t.index idx
  else
    (List.range t.data.length).find? (fun i => t.idxAt i = idx)

/-- `ETree::subtree`: clone the node at `pos` and its contiguous descendant
block into a fresh tree, dropping the route prefix above `pos`. -/
def ETree.subtree (t : ETree) (pos : Nat) : ETree :=
  let offspring := t.descendant pos
  let node := t.nodeAt pos
  let base := node.route.length - 1
  { indent := t.indent, count := 0, version := t.version, encoding := t.encoding,
    standalone := t.standalone,
    data := { node with route := node.route.drop base }
      :: offspring.map (fun i => let m := t.nodeAt i; { m with route := m.route.drop base }),
    crlf := t.crlf, enable_index := false, index := [] }

/-! ## ETree mutation (src/etree.rs) -/

/-- `Vec::insert` (all call sites are in range). -/
def insAt {α : Type} : Nat → α → List α → List α
  | 0, a, l => a :: l
  | _+1, a, [] => [a]
  | n+1, a, x :: xs => x :: insAt n a xs

/-- `Vec::remove` (all call sites are in range). -/
def eraseAt {α : Type} : Nat → List α → List α
  | _, [] => []
  | 0, _ :: xs => xs
  | n+1, x :: xs => x :: eraseAt n xs

/-- Update the tail of the node at a position (`self.data[i].set_tail`). -/
def ETree.setTailAt (t : ETree) (i : Nat) (s : Str) : ETree :=
  { t with data := t.data.modifyNth (fun n => { n with tail := s }) i }

/-- Update the text of the node at a position (`self.data[i].set_text`). -/
def ETree.setTextAt (t : ETree) (i : Nat) (s : Str) : ETree :=
  { t with data := t.data.modifyNth (fun n => { n with text := some s }) i }

/-- Map update that only touches existing keys (`HashMap::get_mut`). -/
def amUpdate (m : List (Nat × Nat)) (k v : Nat) : List (Nat × Nat) :=
  m.map (fun p => if p.1 = k then (k, v) else p)

/-- `ETree::update_index`: refresh the identity index for every position
from `pos` on, when the index is enabled. -/
def ETree.update_index (t : ETree) (pos : Nat) : ETree :=
  if t.enable_index then
    { t with
      index := (List.range' pos (t.data.length - pos)).foldl
        (fun m i => amUpdate m (t.idxAt i) i) t.index }
  else t

/-- Tail inheritance step at the start of `ETree::prepare_append_next`:
`pos` takes the tail of its previous sibling, or its parent's text
(`unwrap` panics if that text is absent). -/
def prepNextInherit (t : ETree) (pos : Nat) : Except String ETree :=
  match t.previous pos with
  | some prev => Except.ok (t.setTailAt pos (t.tailAt prev))
  | none =>
    match t.parent pos with
    | some par =>
      match t.textAt par with
      | some s => Except.ok (t.setTailAt pos s)
      | none => Except.error "panic"
    | none => Except.ok t

/-- `ETree::prepare_append_next`.  The returned cell stores the insertion
slot in its `idx` field, as the source does via `set_idx`. -/
def ETree.prepare_append_next (t : ETree) (pos : Nat) : Except String (ETree × Option ETreeNode) :=
  if pos ≥ t.data.length then Except.ok (t, none)
  else
    let cell0 : ETreeNode := { ETreeNode.new [] with tail := t.tailAt pos, route := t.routeAt pos }
    match prepNextInherit t pos with
    | Except.error e => Except.error e
    | Except.ok t1 =>
      let offspring := t1.descendant pos
      let newpos :=
        match offspring.getLast? with
        | none => pos + 1
        | some l => l + 1
      Except.ok (t1, some { cell0 with idx := newpos })

/-- `ETree::prepare_append_previous`. -/
def ETree.prepare_append_previous (t : ETree) (pos : Nat) : Except String (ETree × Option ETreeNode) :=
  if pos ≥ t.data.length then Except.ok (t, none)
  else
    match t.previous pos with
    | some prev => t.prepare_append_next prev
    | none =>
      match t.parent pos with
      | some par =>
        match t.textAt par with
        | some s =>
          Except.ok (t, some { ETreeNode.new [] with
            tail := s, route := t.childRoute par, idx := par + 1 })
        | none => Except.error "panic"
      | none => Except.ok (t, none)

/-- `ETree::prepare_append_child`. -/
def ETree.prepare_append_child (t : ETree) (pos : Nat) : Except String (ETree × Option ETreeNode) :=
  if pos ≥ t.data.length then Except.ok (t, none)
  else
    let cell0 : ETreeNode := { ETreeNode.new [] with route := t.childRoute pos }
    match (t.children pos).getLast? with
    | none =>
      let tail :=
        match t.previous pos with
        | some prev => t.tailAt prev
        | none =>
          match t.parent pos with
          | some par => t.tailAt par
          | none => t.crlf
      let text := tail ++ t.indent
      let t1 :=
        if t.textAt pos = none then t.setTextAt pos text
        else if t.textAt pos = some [] then t.setTextAt pos text
        else t
      Except.ok (t1, some { cell0 with tail := tail, idx := pos + 1 })
    | some lastChild =>
      let cell1 := { cell0 with tail := t.tailAt lastChild }
      match t.previous lastChild with
      | some prev2 =>
        let t1 := t.setTailAt lastChild (t.tailAt prev2)
        let offspring := t1.descendant pos
        Except.ok (t1, some { cell1 with idx := offspring.getLast?.getD 0 + 1 })
      | none =>
        match t.parent lastChild with
        | some par =>
          let t1 := t.setTailAt lastChild (t.tailAt par)
          let offspring := t1.descendant pos
          Except.ok (t1, some { cell1 with idx := offspring.getLast?.getD 0 + 1 })
        | none => Except.error "panic"

/-- Shared commit step of the three `append_*_node` functions. -/
def ETree.commitNode (t1 : ETree) (cell node : ETreeNode) : ETree × Option Nat :=
  let node1 := { node with idx := t1.count, tail := cell.tail, route := cell.route }
  let t2 := { t1 with
    data := insAt cell.idx node1 t1.data,
    index := amInsert t1.index t1.count cell.idx }
  let t3 := t2.update_index (cell.idx + 1)
  ({ t3 with count := t3.count + 1 }, some cell.idx)

/-- `ETree::append_next_node`. -/
def ETree.append_next_node (t : ETree) (pos : Nat) (node : ETreeNode) :
    Except String (ETree × Option Nat) :=
  match t.prepare_append_next pos with
  | Except.error e => Except.error e
  | Except.ok (t1, none) => Except.ok (t1, none)
  | Except.ok (t1, some cell) => Except.ok (t1.commitNode cell node)

/-- `ETree::append_previous_node`. -/
def ETree.append_previous_node (t : ETree) (pos : Nat) (node : ETreeNode) :
    Except String (ETree × Option Nat) :=
  match t.prepare_append_previous pos with
  | Except.error e => Except.error e
  | Except.ok (t1, none) => Except.ok (t1, none)
  | Except.ok (t1, some cell) => Except.ok (t1.commitNode cell node)

/-- `ETree::append_child_node`. -/
def ETree.append_child_node (t : ETree) (pos : Nat) (node : ETreeNode) :
    Except String (ETree × Option Nat) :=
  match t.prepare_append_child pos with
  | Except.error e => Except.error e
  | Except.ok (t1, none) => Except.ok (t1, none)
  | Except.ok (t1, some cell) => Except.ok (t1.commitNode cell node)

/-- `ETree::remove`: whitespace fixups, then deletion of the descendant
block (last first) and of the node itself.  Indexing `self.data[pos]`
without a bounds check panics when `pos` is out of range. -/
def ETree.remove (t : ETree) (pos : Nat) : Except String ETree :=
  let fixup : Except String ETree :=
    match t.previous pos with
    | some prev => Except.ok (t.setTailAt prev (t.tailAt pos))
    | none =>
      match t.next pos with
      | some _ => Except.ok t
      | none =>
        match t.parent pos with
        | some par =>
          match t.textAt par with
          | some txt =>
            if t.indent.isSuffixOf txt then
              Except.ok (t.setTextAt par (txt.take (txt.length - t.indent.length)))
            else Except.ok t
          | none => Except.error "panic"
        | none => Except.ok t
  match fixup with
  | Except.error e => Except.error e
  | Except.ok t1 =>
    let offspring := t1.descendant pos
    let t2 := offspring.reverse.foldl
      (fun acc i => { acc with
        index := amRemove acc.index (acc.idxAt i),
        data := eraseAt i acc.data }) t1
    match t2.data.get? pos with
    | none => Except.error "panic"
    | some nd =>
      let t3 := { t2 with index := amRemove t2.index nd.idx, data := eraseAt pos t2.data }
      Except.ok (t3.update_index pos)

/-- `"#{}#"` segment pattern used by `subtree_reindex` route rewriting. -/
def segPat (a : Nat) : Str := hashC :: (natChars a ++ [hashC])

/-- Fuel-driven model of `str::replace` (left-to-right, non-overlapping). -/
def replaceSubAux : Nat → Str → Str → Str → Str
  | 0, _, _, l => l
  | fuel+1, pat, rep, l =>
    match l with
    | [] => []
    | c :: cs =>
      if pat.isPrefixOf (c :: cs) then rep ++ replaceSubAux fuel pat rep ((c :: cs).drop pat.length)
      else c :: replaceSubAux fuel pat rep cs

/-- `str::replace`. -/
def replaceSub (pat rep l : Str) : Str := replaceSubAux (l.length + 1) pat rep l

/-- One iteration of the outer `subtree_reindex` loop: renumber entry `i`
to `cur` and rewrite the `#old#` references in every route. -/
def reindexStep (d : List ETreeNode) (i cur : Nat) : List ETreeNode :=
  let old := ((d.get? i).getD (ETreeNode.new [])).idx
  let d1 := d.modifyNth (fun n => { n with idx := cur }) i
  d1.map (fun n => { n with route := replaceSub (segPat old) (segPat cur) n.route })

/-- The outer `subtree_reindex` loop over all entries. -/
def reindexGo : Nat → List ETreeNode → Nat → Nat → List ETreeNode
  | 0, d, _, _ => d
  | k+1, d, i, cur => reindexGo k (reindexStep d i cur) (i + 1) (cur + 1)

/-- `ETree::subtree_reindex`: shift all identities to start at `start_idx`
when the target range is disjoint from the current range, otherwise leave
the tree unchanged and propose a disjoint high range. -/
def ETree.subtree_reindex (t : ETree) (start_idx : Nat) : ETree × Nat × Nat :=
  match t.data with
  | [] => (t, 0, 0)
  | first :: _ =>
    let idxs := t.data.map ETreeNode.idx
    let idx_min := idxs.foldl Nat.min first.idx
    let idx_max := idxs.foldl Nat.max first.idx
    let datacnt := t.data.length
    if start_idx + datacnt ≤ idx_min ∨ start_idx > idx_max then
      ({ t with data := reindexGo datacnt t.data 0 start_idx }, start_idx, start_idx + datacnt)
    else
      (t, idx_max + datacnt + 1, idx_max + datacnt * 2 + 1)

/-- The renumbering protocol of the `append_*_tree` functions: one direct
`subtree_reindex` to the destination counter, or a detour through the
proposed disjoint high range when the direct shift was refused. -/
def reindexProto (tree : ETree) (c : Nat) : ETree × Nat :=
  let r1 := tree.subtree_reindex c
  if r1.2.1 = c then (r1.1, r1.2.2)
  else
    let r2 := r1.1.subtree_reindex r1.2.1
    let r3 := r2.1.subtree_reindex c
    (r3.1, r3.2.2)

/-- Shared commit block of the three `append_*_tree` functions: renumber
the incoming tree (twice more via a high range if the direct shift was
refused), rebase every route below the cell, and splice the block in. -/
def ETree.graftCommit (t : ETree) (cell : ETreeNode) (tree : ETree) :
    Except String (ETree × Option Nat) :=
  let step := reindexProto tree t.count
  match step.1.data with
  | [] => Except.error "panic"
  | first :: rest =>
    let nodes := ({ first with tail := cell.tail } :: rest).map
      (fun n => { n with route := cell.route ++ n.route.drop 1 })
    let t1 := { t with count := step.2 }
    let t2 := (nodes.zip (List.range nodes.length)).foldl
      (fun acc p => { acc with
        data := insAt (cell.idx + p.2) p.1 acc.data,
        index := amInsert acc.index p.1.idx (cell.idx + p.2) }) t1
    Except.ok (t2.update_index (cell.idx + nodes.length), some cell.idx)

/-- `ETree::append_previous_tree`. -/
def ETree.append_previous_tree (t : ETree) (pos : Nat) (tree : ETree) :
    Except String (ETree × Option Nat) :=
  match t.prepare_append_previous pos with
  | Except.error e => Except.error e
  | Except.ok (t1, none) => Except.ok (t1, none)
  | Except.ok (t1, some cell) => t1.graftCommit cell tree

/-- `ETree::append_next_tree`. -/
def ETree.append_next_tree (t : ETree) (pos : Nat) (tree : ETree) :
    Except String (ETree × Option Nat) :=
  match t.prepare_append_next pos with
  | Except.error e => Except.error e
  | Except.ok (t1, none) => Except.ok (t1, none)
  | Except.ok (t1, some cell) => t1.graftCommit cell tree

/-- `ETree::append_child_tree`. -/
def ETree.append_child_tree (t : ETree) (pos : Nat) (tree : ETree) :
    Except String (ETree × Option Nat) :=
  match t.prepare_append_child pos with
  | Except.error e => Except.error e
  | Except.ok (t1, none) => Except.ok (t1, none)
  | Except.ok (t1, some cell) => t1.graftCommit cell tree

/-! ## Parser (ETree::read / ETree::parse_str)

The external tokenizer (quick-xml `read_namespaced_event`) is modelled as
a list of events carrying already-unescaped strings; `Err` events abort
the whole parse in the source and are not represented. -/

/-- Tokenizer events consumed by `ETree::read`. -/
inductive XEv where
  | start (ns : Option Str) (name : Str) (attrs : List (Str × Str))
  | endTag (name : Str)
  | empty (ns : Option Str) (name : Str) (attrs : List (Str × Str))
  | text (s : Str)
  | comment (s : Str)
  | cdata (s : Str)
  | pi (s : Str)
  | doctype (s : Str)
  | decl (v : Str) (e : Option Str) (st : Option Str)
deriving DecidableEq, Repr

/-- `"<Comment>"` -/
def cmtName : Str := '<' :: ('C' :: "omment".toList) ++ ['>']

/-- `"<CData>"` -/
def cdName : Str := '<' :: ('C' :: "Data".toList) ++ ['>']

/-- `"<PI>"` -/
def piName : Str := '<' :: ('P' :: "I".toList) ++ ['>']

/-- `"<DocType>"` -/
def dtName : Str := '<' :: ('D' :: "ocType".toList) ++ ['>']

/-- Split a full tag at the first colon, as quick-xml `local_name` does:
returns `(prefix, localname)`, with an empty prefix when there is no
colon. -/
def splitNameAux : Str → Option (Str × Str)
  | [] => none
  | c :: cs => if c = ':' then some ([], cs) else (splitNameAux cs).map (fun p => (c :: p.1, p.2))

def splitName (f : Str) : Str × Str :=
  match splitNameAux f with
  | none => ([], f)
  | some p => p

/-- Fold `set_attr` over an attribute list, as the `for item in
e.attributes()` loops do. -/
def setAttrFold (n : ETreeNode) (attrs : List (Str × Str)) : ETreeNode :=
  attrs.foldl (fun acc kv => (acc.set_attr kv.1 kv.2).1) n

/-- Parser state: the tree under construction plus the local variables
`status`, `route` and `closeidx` of `ETree::read`. -/
structure PSt where
  tree : ETree
  status : Nat
  route : Str
  closeidx : Nat
deriving DecidableEq, Repr

/-- Push a synthetic (comment/CDATA/PI/doctype) leaf entry. -/
def pushSyn (st : PSt) (nm : Str) (s : Str) : PSt :=
  let node := { ETreeNode.new nm with idx := st.tree.count, text := some s, route := st.route }
  { st with
    tree := { st.tree with data := st.tree.data ++ [node], count := st.tree.count + 1 },
    closeidx := st.tree.count, status := 2 }

/-- One arm of the event loop of `ETree::read`. -/
def readStep (st : PSt) (ev : XEv) : PSt :=
  match ev with
  | .start ns name attrs =>
    let pr := splitName name
    let node := { ETreeNode.new pr.2 with
      idx := st.tree.count,
      ns := (match ns with | some x => x | none => []),
      ns_abbrev := pr.1,
      text := some [],
      route := st.route }
    let node := setAttrFold node attrs
    { st with
      tree := { st.tree with data := st.tree.data ++ [node], count := st.tree.count + 1 },
      route := st.route ++ natChars st.tree.count ++ [hashC],
      status := 1 }
  | .endTag _ =>
    match splitRouteLast st.route with
    | some p => { st with status := 2, route := p.1, closeidx := charsVal p.2 }
    | none => { st with status := 2 }
  | .empty ns name attrs =>
    let pr := splitName name
    let node := { ETreeNode.new pr.2 with
      idx := st.tree.count,
      ns := (match ns with | some x => x | none => []),
      ns_abbrev := pr.1,
      route := st.route }
    let node := setAttrFold node attrs
    { st with
      tree := { st.tree with data := st.tree.data ++ [node], count := st.tree.count + 1 },
      closeidx := st.tree.count, status := 2 }
  | .text s =>
    if st.status = 1 then { st with tree := st.tree.setTextAt (st.tree.count - 1) s }
    else if st.status = 2 then { st with tree := st.tree.setTailAt st.closeidx s }
    else st
  | .comment s => pushSyn st cmtName s
  | .cdata s => pushSyn st cdName s
  | .pi s => pushSyn st piName s
  | .doctype s => pushSyn st dtName s
  | .decl v e sa =>
    { st with tree := { st.tree with
        version := v,
        encoding := (match e with | some x => some x | none => st.tree.encoding),
        standalone := (match sa with | some x => some x | none => st.tree.standalone) } }

/-- Backward scan for the last non-synthetic entry (`detect_indent`). -/
def lastNonSynGo : List ETreeNode → Nat → Nat
  | [], i => i
  | n :: rest, i => if syntheticName n.local_name then lastNonSynGo rest (i - 1) else i

/-- `ETree::detect_indent`. -/
def detectIndent (t : ETree) : Except String ETree :=
  let idx := lastNonSynGo t.data.reverse (t.data.length - 1)
  match t.previous idx with
  | some prev =>
    if (t.tailAt idx).isPrefixOf (t.tailAt prev) then
      Except.ok { t with indent := (t.tailAt prev).drop (t.tailAt idx).length }
    else Except.ok t
  | none =>
    match t.parent idx with
    | some par =>
      match t.textAt par with
      | some txt =>
        if (t.tailAt idx).isPrefixOf txt then
          Except.ok { t with indent := txt.drop (t.tailAt idx).length }
        else Except.ok t
      | none => Except.error "panic"
    | none => Except.ok t

/-- Fresh parser state, as built at the start of `ETree::parse_str` (the
newline convention is detected from the raw bytes and passed in here). -/
def pInit (crlf : Str) : PSt :=
  { tree := { indent := [], count := 0, version := [], encoding := none, standalone := none,
              data := [], crlf := crlf, enable_index := false, index := [] },
    status := 0, route := [hashC], closeidx := 0 }

/-- `ETree::read`: fold the event loop. -/
def readEvents (evs : List XEv) (st : PSt) : PSt := evs.foldl readStep st

/-- `ETree::parse_str` at the event level: read, then detect the indent. -/
def parseEvents (crlf : Str) (evs : List XEv) : Except String ETree :=
  detectIndent (readEvents evs (pInit crlf)).tree

/-! ## List and scan lemmas -/

theorem insAt_length {α : Type} (n : Nat) (a : α) (l : List α) :
    (insAt n a l).length = l.length + 1 := by
  induction l generalizing n with
  | nil => cases n <;> simp [insAt]
  | cons x xs ih =>
    cases n with
    | zero => simp [insAt]
    | succ m => simp [insAt, ih]

theorem insAt_get_lt {α : Type} (n : Nat) (a : α) (l : List α) (j : Nat) (h : j < n)
    (hn : n ≤ l.length) :
    (insAt n a l).get? j = l.get? j := by
  induction l generalizing n j with
  | nil => simp at hn; omega
  | cons x xs ih =>
    cases n with
    | zero => omega
    | succ m =>
      cases j with
      | zero => simp [insAt]
      | succ jj =>
        simp only [insAt, List.get?_cons_succ]
        exact ih m jj (by omega) (by simpa using hn)

theorem insAt_get_self {α : Type} (n : Nat) (a : α) (l : List α) (hn : n ≤ l.length) :
    (insAt n a l).get? n = some a := by
  induction l generalizing n with
  | nil =>
    have hz : n = 0 := by simpa using hn
    subst hz
    simp [insAt]
  | cons x xs ih =>
    cases n with
    | zero => simp [insAt]
    | succ m => simpa [insAt] using ih m (by simpa using hn)

theorem insAt_get_gt {α : Type} (n : Nat) (a : α) (l : List α) (j : Nat) (h : n < j) :
    (insAt n a l).get? j = l.get? (j - 1) := by
  induction l generalizing n j with
  | nil =>
    cases n with
    | zero =>
      match j, h with
      | jj+1, _ => simp [insAt]
    | succ m =>
      match j, h with
      | jj+1, h =>
        cases jj with
        | zero => omega
        | succ j2 => simp [insAt]
  | cons x xs ih =>
    cases n with
    | zero =>
      match j, h with
      | jj+1, _ => simp [insAt]
    | succ m =>
      match j, h with
      | jj+1, h =>
        cases jj with
        | zero => omega
        | succ j2 =>
          simp only [insAt, List.get?_cons_succ]
          rw [ih m (j2 + 1) (by omega)]
          simp

theorem insAt_eq_append {α : Type} (n : Nat) (a : α) (l : List α) (hn : n ≤ l.length) :
    insAt n a l = l.take n ++ a :: l.drop n := by
  induction l generalizing n with
  | nil =>
    have hz : n = 0 := by simpa using hn
    subst hz
    simp [insAt]
  | cons x xs ih =>
    cases n with
    | zero => simp [insAt]
    | succ m => simp [insAt, ih m (by simpa using hn)]

theorem eraseAt_eq {α : Type} (n : Nat) (l : List α) (hn : n < l.length) :
    eraseAt n l = l.take n ++ l.drop (n + 1) := by
  induction l generalizing n with
  | nil => simp at hn
  | cons x xs ih =>
    cases n with
    | zero => simp [eraseAt]
    | succ m => simp [eraseAt, ih m (by simpa using hn)]

theorem modifyNth_get? {α : Type} (f : α → α) (i : Nat) (l : List α) (j : Nat) :
    (l.modifyNth f i).get? j = if i = j then (l.get? j).map f else l.get? j := by
  induction l generalizing i j with
  | nil => simp [List.modifyNth]
  | cons x xs ih =>
    cases i with
    | zero =>
      cases j with
      | zero => simp [List.modifyNth]
      | succ jj => simp [List.modifyNth]
    | succ m =>
      cases j with
      | zero => simp [List.modifyNth]
      | succ jj =>
        simp only [List.modifyNth, List.get?_cons_succ, ih m jj]
        by_cases h : m = jj
        · simp [h]
        · simp [h, fun hc => h (Nat.succ_injective hc)]

theorem modifyNth_length {α : Type} (f : α → α) (i : Nat) (l : List α) :
    (l.modifyNth f i).length = l.length := by
  induction l generalizing i with
  | nil => simp [List.modifyNth]
  | cons x xs ih => cases i <;> simp [List.modifyNth, ih]

/-- Scans only look at the `route` field of the nodes they walk. -/
theorem scanDescAux_congr (r : Str) (l l' : List ETreeNode) (i : Nat)
    (h : List.Forall₂ (fun a b => a.route = b.route) l l') :
    scanDescAux r l i = scanDescAux r l' i := by
  induction h generalizing i with
  | nil => rfl
  | cons hr _ ih =>
    simp only [scanDescAux, hr]
    split <;> simp [ih]

theorem scanNextAux_congr (r : Str) (l l' : List ETreeNode) (i : Nat)
    (h : List.Forall₂ (fun a b => a.route = b.route) l l') :
    scanNextAux r l i = scanNextAux r l' i := by
  induction h generalizing i with
  | nil => rfl
  | cons hr _ ih =>
    simp only [scanNextAux, hr]
    split
    · rfl
    · split
      · simp [ih]
      · rfl

theorem scanPrevAux_congr (r : Str) (l l' : List ETreeNode) (i : Nat)
    (h : List.Forall₂ (fun a b => a.route = b.route) l l') :
    scanPrevAux r l i = scanPrevAux r l' i := by
  induction h generalizing i with
  | nil => rfl
  | cons hr _ ih =>
    simp only [scanPrevAux, hr]
    split
    · rfl
    · split
      · simp [ih]
      · rfl

theorem scanChildAux_congr (r : Str) (l l' : List ETreeNode) (i : Nat)
    (h : List.Forall₂ (fun a b => a.route = b.route) l l') :
    scanChildAux r l i = scanChildAux r l' i := by
  induction h generalizing i with
  | nil => rfl
  | cons hr _ ih =>
    simp only [scanChildAux, hr]
    split
    · simp [ih]
    · split
      · simp [ih]
      · rfl

theorem scanEqAux_congr (r : Str) (l l' : List ETreeNode) (i : Nat)
    (h : List.Forall₂ (fun a b => a.route = b.route) l l') :
    scanEqAux r l i = scanEqAux r l' i := by
  induction h generalizing i with
  | nil => rfl
  | cons hr _ ih =>
    simp only [scanEqAux, hr]
    split
    · rfl
    · simp [ih]

theorem scanDescAux_range (r : Str) (l : List ETreeNode) (i : Nat) :
    scanDescAux r l i = List.range' i (scanDescAux r l i).length := by
  induction l generalizing i with
  | nil => simp [scanDescAux]
  | cons n rest ih =>
    simp only [scanDescAux]
    split
    · simp only [List.length_cons, List.range'_succ]
      rw [← ih (i + 1)]
    · simp

theorem scanDescAux_le (r : Str) (l : List ETreeNode) (i : Nat) :
    (scanDescAux r l i).length ≤ l.length := by
  induction l generalizing i with
  | nil => simp [scanDescAux]
  | cons n rest ih =>
    simp only [scanDescAux]
    split
    · simpa using ih (i + 1)
    · simp

theorem scanDescAux_get (r : Str) (l : List ETreeNode) (i m : Nat)
    (hm : m < (scanDescAux r l i).length) :
    ∃ n, l.get? m = some n ∧ r.isPrefixOf n.route = true := by
  induction l generalizing i m with
  | nil => simp [scanDescAux] at hm
  | cons n rest ih =>
    simp only [scanDescAux] at hm
    by_cases hp : r.isPrefixOf n.route
    · rw [if_pos hp] at hm
      cases m with
      | zero => exact ⟨n, rfl, hp⟩
      | succ mm =>
        simp only [List.length_cons] at hm
        simpa using ih (i + 1) mm (by omega)
    · rw [if_neg hp] at hm
      simp at hm

theorem scanDescAux_break (r : Str) (l : List ETreeNode) (i : Nat)
    (hm : (scanDescAux r l i).length < l.length) :
    ∃ n, l.get? (scanDescAux r l i).length = some n ∧ r.isPrefixOf n.route = false := by
  induction l generalizing i with
  | nil => simp at hm
  | cons n rest ih =>
    simp only [scanDescAux] at hm ⊢
    by_cases hp : r.isPrefixOf n.route
    · rw [if_pos hp] at hm ⊢
      simp only [List.length_cons] at hm ⊢
      simpa using ih (i + 1) (by omega)
    · rw [if_neg hp] at hm ⊢
      exact ⟨n, rfl, Bool.eq_false_iff.mpr hp⟩

theorem scanNextAux_hit (r : Str) (l1 l2 : List ETreeNode) (n1 : ETreeNode) (i : Nat)
    (h1 : ∀ x ∈ l1, r.isPrefixOf x.route = true ∧ x.route ≠ r) (h2 : n1.route = r) :
    scanNextAux r (l1 ++ n1 :: l2) i = some (i + l1.length) := by
  induction l1 generalizing i with
  | nil => simp [scanNextAux, h2]
  | cons x xs ih =>
    obtain ⟨hp, hne⟩ := h1 x (by simp)
    simp only [List.cons_append, scanNextAux, if_neg hne, hp, if_true, List.append_eq]
    rw [ih (i + 1) (fun y hy => h1 y (by simp [hy]))]
    congr 1
    simp only [List.length_cons]
    omega

/-! ## C9: out-of-range remove panics -/

/-- C9 evaluation theorem: `remove` with an out-of-range position reaches
the unguarded `self.data[pos]` indexing and panics, instead of reporting
absence as the other navigation and mutation entry points do. -/
theorem c9_remove_out_of_range (t : ETree) (pos : Nat) (h : t.data.length ≤ pos) :
    t.remove pos = Except.error "panic" := by
  have hprev : t.previous pos = none := by
    unfold ETree.previous
    rw [if_pos (Or.inr h)]
  have hnext : t.next pos = none := by
    unfold ETree.next
    rw [if_pos (by omega : pos ≥ t.data.length - 1)]
  have hpar : t.parent pos = none := by
    unfold ETree.parent
    rw [if_pos (Or.inr h)]
  have hdesc : t.descendant pos = [] := by
    unfold ETree.descendant
    rw [if_neg (by omega : ¬ pos < t.data.length)]
  have hget : t.data[pos]? = none := by
    rw [← List.get?_eq_getElem?]
    exact List.get?_eq_none.2 h
  unfold ETree.remove
  simp [hprev, hnext, hpar, hdesc, hget]

/-- Witness: removing position 1 of the single-node tree read from
`<a/>` panics. -/
theorem c9_remove_out_of_range_witness :
    ((readEvents [XEv.empty none ['a'] []] (pInit [nlC])).tree).data.length ≤ 1 ∧
      ((readEvents [XEv.empty none ['a'] []] (pInit [nlC])).tree).remove 1
        = Except.error "panic" :=
  ⟨by decide, c9_remove_out_of_range _ 1 (by decide)⟩

/-! ## Navigation is stable under tail/text updates -/

theorem forall₂_route_refl (l : List ETreeNode) :
    List.Forall₂ (fun (a b : ETreeNode) => a.route = b.route) l l := by
  induction l with
  | nil => constructor
  | cons x xs ih => exact List.Forall₂.cons rfl ih

theorem modifyNth_forall₂ {f : ETreeNode → ETreeNode} (hf : ∀ n, (f n).route = n.route)
    (i : Nat) (l : List ETreeNode) :
    List.Forall₂ (fun a b => a.route = b.route) (l.modifyNth f i) l := by
  induction l generalizing i with
  | nil =>
    have h0 : List.modifyNth f i ([] : List ETreeNode) = [] := by cases i <;> rfl
    rw [h0]
    constructor
  | cons x xs ih =>
    cases i with
    | zero =>
      rw [show List.modifyNth f 0 (x :: xs) = f x :: xs from rfl]
      exact List.Forall₂.cons (hf x) (forall₂_route_refl xs)
    | succ m =>
      rw [show List.modifyNth f (m + 1) (x :: xs) = x :: List.modifyNth f m xs from rfl]
      exact List.Forall₂.cons rfl (ih m)

theorem forall₂_take {R : ETreeNode → ETreeNode → Prop} (k : Nat) {l₁ l₂ : List ETreeNode}
    (h : List.Forall₂ R l₁ l₂) : List.Forall₂ R (l₁.take k) (l₂.take k) := by
  induction h generalizing k with
  | nil => simp
  | cons hr htl ih =>
    cases k with
    | zero => constructor
    | succ m => exact List.Forall₂.cons hr (ih m)

theorem forall₂_drop {R : ETreeNode → ETreeNode → Prop} (k : Nat) {l₁ l₂ : List ETreeNode}
    (h : List.Forall₂ R l₁ l₂) : List.Forall₂ R (l₁.drop k) (l₂.drop k) := by
  induction h generalizing k with
  | nil => simp
  | cons hr htl ih =>
    cases k with
    | zero => exact List.Forall₂.cons hr htl
    | succ m => exact ih m

theorem forall₂_append_single {R : ETreeNode → ETreeNode → Prop} {l₁ l₂ : List ETreeNode}
    {a b : ETreeNode} (h : List.Forall₂ R l₁ l₂) (hab : R a b) :
    List.Forall₂ R (l₁ ++ [a]) (l₂ ++ [b]) := by
  induction h with
  | nil => exact List.Forall₂.cons hab (List.Forall₂.nil)
  | cons hr _ ih => exact List.Forall₂.cons hr ih

theorem forall₂_reverse {R : ETreeNode → ETreeNode → Prop} {l₁ l₂ : List ETreeNode}
    (h : List.Forall₂ R l₁ l₂) : List.Forall₂ R l₁.reverse l₂.reverse := by
  induction h with
  | nil => constructor
  | cons hr _ ih => simpa using forall₂_append_single ih hr

/-- All navigation functions only read routes, identities and the length,
so rewriting one node's tail or text leaves them unchanged. -/
theorem modifyTree_nav (t t' : ETree) (f : ETreeNode → ETreeNode) (i : Nat)
    (ht' : t'.data = t.data.modifyNth f i)
    (hr : ∀ n, (f n).route = n.route) (hi : ∀ n, (f n).idx = n.idx) :
    t'.data.length = t.data.length ∧
    (∀ pos, t'.routeAt pos = t.routeAt pos) ∧
    (∀ pos, t'.idxAt pos = t.idxAt pos) ∧
    (∀ pos, t'.childRoute pos = t.childRoute pos) ∧
    (∀ pos, t'.previous pos = t.previous pos) ∧
    (∀ pos, t'.parent pos = t.parent pos) ∧
    (∀ pos, t'.next pos = t.next pos) ∧
    (∀ pos, t'.children pos = t.children pos) ∧
    (∀ pos, t'.descendant pos = t.descendant pos) := by
  have hlen : t'.data.length = t.data.length := by rw [ht']; exact modifyNth_length f i t.data
  have hroute : ∀ pos, t'.routeAt pos = t.routeAt pos := by
    intro pos
    unfold ETree.routeAt ETree.nodeAt
    rw [ht', modifyNth_get?]
    by_cases h : i = pos
    · subst h
      cases t.data.get? i <;> simp [hr]
    · rw [if_neg h]
  have hidx : ∀ pos, t'.idxAt pos = t.idxAt pos := by
    intro pos
    unfold ETree.idxAt ETree.nodeAt
    rw [ht', modifyNth_get?]
    by_cases h : i = pos
    · subst h
      cases t.data.get? i <;> simp [hi]
    · rw [if_neg h]
  have hchild : ∀ pos, t'.childRoute pos = t.childRoute pos := by
    intro pos
    unfold ETree.childRoute
    rw [hroute, hidx]
  have hfa : List.Forall₂ (fun a b => a.route = b.route) t'.data t.data := by
    rw [ht']; exact modifyNth_forall₂ hr i t.data
  refine ⟨hlen, hroute, hidx, hchild, ?_, ?_, ?_, ?_, ?_⟩
  · intro pos
    unfold ETree.previous
    rw [hlen, hroute]
    by_cases hg : pos = 0 ∨ pos ≥ t.data.length
    · rw [if_pos hg, if_pos hg]
    · rw [if_neg hg, if_neg hg]
      exact scanPrevAux_congr _ _ _ _ (forall₂_reverse (forall₂_take pos hfa))
  · intro pos
    unfold ETree.parent
    rw [hlen, hroute]
    by_cases hg : pos = 0 ∨ pos ≥ t.data.length
    · rw [if_pos hg, if_pos hg]
    · rw [if_neg hg, if_neg hg]
      cases splitRouteLast (t.routeAt pos) with
      | none => rfl
      | some pr =>
        exact scanEqAux_congr _ _ _ _ (forall₂_reverse (forall₂_take pos hfa))
  · intro pos
    unfold ETree.next
    rw [hlen, hroute]
    by_cases hg : pos ≥ t.data.length - 1
    · rw [if_pos hg, if_pos hg]
    · rw [if_neg hg, if_neg hg]
      exact scanNextAux_congr _ _ _ _ (forall₂_drop (pos + 1) hfa)
  · intro pos
    unfold ETree.children
    rw [hlen, hchild]
    by_cases hg : pos < t.data.length
    · rw [if_pos hg, if_pos hg]
      exact scanChildAux_congr _ _ _ _ (forall₂_drop (pos + 1) hfa)
    · rw [if_neg hg, if_neg hg]
  · intro pos
    unfold ETree.descendant
    rw [hlen, hchild]
    by_cases hg : pos < t.data.length
    · rw [if_pos hg, if_pos hg]
      exact scanDescAux_congr _ _ _ _ (forall₂_drop (pos + 1) hfa)
    · rw [if_neg hg, if_neg hg]

theorem setTailAt_nav (t : ETree) (i : Nat) (s : Str) :
    (t.setTailAt i s).data.length = t.data.length ∧
    (∀ pos, (t.setTailAt i s).routeAt pos = t.routeAt pos) ∧
    (∀ pos, (t.setTailAt i s).idxAt pos = t.idxAt pos) ∧
    (∀ pos, (t.setTailAt i s).childRoute pos = t.childRoute pos) ∧
    (∀ pos, (t.setTailAt i s).previous pos = t.previous pos) ∧
    (∀ pos, (t.setTailAt i s).parent pos = t.parent pos) ∧
    (∀ pos, (t.setTailAt i s).next pos = t.next pos) ∧
    (∀ pos, (t.setTailAt i s).children pos = t.children pos) ∧
    (∀ pos, (t.setTailAt i s).descendant pos = t.descendant pos) :=
  modifyTree_nav t _ _ i rfl (fun _ => rfl) (fun _ => rfl)

theorem setTextAt_nav (t : ETree) (i : Nat) (s : Str) :
    (t.setTextAt i s).data.length = t.data.length ∧
    (∀ pos, (t.setTextAt i s).routeAt pos = t.routeAt pos) ∧
    (∀ pos, (t.setTextAt i s).idxAt pos = t.idxAt pos) ∧
    (∀ pos, (t.setTextAt i s).childRoute pos = t.childRoute pos) ∧
    (∀ pos, (t.setTextAt i s).previous pos = t.previous pos) ∧
    (∀ pos, (t.setTextAt i s).parent pos = t.parent pos) ∧
    (∀ pos, (t.setTextAt i s).next pos = t.next pos) ∧
    (∀ pos, (t.setTextAt i s).children pos = t.children pos) ∧
    (∀ pos, (t.setTextAt i s).descendant pos = t.descendant pos) :=
  modifyTree_nav t _ _ i rfl (fun _ => rfl) (fun _ => rfl)

theorem setTailAt_tailAt_self (t : ETree) (i : Nat) (s : Str) (h : i < t.data.length) :
    (t.setTailAt i s).tailAt i = s := by
  unfold ETree.setTailAt ETree.tailAt ETree.nodeAt
  simp only [modifyNth_get?, if_pos rfl]
  cases hg : t.data.get? i with
  | none => rw [List.get?_eq_none] at hg; omega
  | some nd => simp

theorem setTailAt_tailAt_other (t : ETree) (i j : Nat) (s : Str) (h : i ≠ j) :
    (t.setTailAt i s).tailAt j = t.tailAt j := by
  unfold ETree.setTailAt ETree.tailAt ETree.nodeAt
  simp only [modifyNth_get?, if_neg h]

theorem setTailAt_textAt (t : ETree) (i j : Nat) (s : Str) :
    (t.setTailAt i s).textAt j = t.textAt j := by
  unfold ETree.setTailAt ETree.textAt ETree.nodeAt
  simp only [modifyNth_get?]
  by_cases h : i = j
  · subst h; cases t.data.get? i <;> simp
  · rw [if_neg h]

theorem setTextAt_tailAt (t : ETree) (i j : Nat) (s : Str) :
    (t.setTextAt i s).tailAt j = t.tailAt j := by
  unfold ETree.setTextAt ETree.tailAt ETree.nodeAt
  simp only [modifyNth_get?]
  by_cases h : i = j
  · subst h; cases t.data.get? i <;> simp
  · rw [if_neg h]

theorem setTextAt_textAt_self (t : ETree) (i : Nat) (s : Str) (h : i < t.data.length) :
    (t.setTextAt i s).textAt i = some s := by
  unfold ETree.setTextAt ETree.textAt ETree.nodeAt
  simp only [modifyNth_get?, if_pos rfl]
  cases hg : t.data.get? i with
  | none => rw [List.get?_eq_none] at hg; omega
  | some nd => simp

/-! ## C2: append_next_node -/

theorem get?_take' {α : Type} (l : List α) (p m : Nat) (h : m < p) :
    (l.take p).get? m = l.get? m := by
  induction l generalizing p m with
  | nil => simp
  | cons x xs ih =>
    cases p with
    | zero => omega
    | succ q =>
      cases m with
      | zero => simp
      | succ mm => simpa using ih q mm (by omega)

theorem drop_append_left {α : Type} (l₁ l₂ : List α) (m : Nat) (h : m ≤ l₁.length) :
    (l₁ ++ l₂).drop m = l₁.drop m ++ l₂ := by
  induction l₁ generalizing m with
  | nil =>
    have : m = 0 := by simpa using h
    subst this
    simp
  | cons x xs ih =>
    cases m with
    | zero => simp
    | succ mm => simpa using ih mm (by simpa using h)

theorem range'_snoc (s m : Nat) : List.range' s (m + 1) = List.range' s m ++ [s + m] := by
  induction m generalizing s with
  | zero => simp [List.range']
  | succ mm ih =>
    have hstep : s + 1 + mm = s + (mm + 1) := by omega
    rw [List.range'_succ, ih (s + 1), hstep, List.range'_succ]
    simp

theorem getLast?_range' (s n : Nat) :
    (List.range' s n).getLast? = if n = 0 then none else some (s + n - 1) := by
  cases n with
  | zero => simp
  | succ m =>
    rw [range'_snoc, List.getLast?_concat, if_neg (by omega : ¬ m + 1 = 0)]
    have hs : s + (m + 1) - 1 = s + m := by omega
    rw [hs]

theorem update_index_data (t : ETree) (p : Nat) :
    (t.update_index p).data = t.data ∧ (t.update_index p).count = t.count := by
  unfold ETree.update_index
  split <;> exact ⟨rfl, rfl⟩

/-- Characterization of `prepNextInherit` success: navigation, length and
count of the rewritten tree are those of the original. -/
theorem prepNextInherit_ok_nav (t : ETree) (pos : Nat) (t1 : ETree)
    (h : prepNextInherit t pos = Except.ok t1) :
    t1.data.length = t.data.length ∧
    t1.count = t.count ∧
    (∀ q, t1.routeAt q = t.routeAt q) ∧
    (∀ q, t1.idxAt q = t.idxAt q) ∧
    (∀ q, t1.descendant q = t.descendant q) ∧
    (∀ q, t1.children q = t.children q) := by
  unfold prepNextInherit at h
  split at h
  · injection h with h
    subst h
    obtain ⟨h1, h2, h3, -, -, -, -, h8, h9⟩ := setTailAt_nav t pos _
    exact ⟨h1, rfl, h2, h3, h9, h8⟩
  · split at h
    · split at h
      · injection h with h
        subst h
        obtain ⟨h1, h2, h3, -, -, -, -, h8, h9⟩ := setTailAt_nav t pos _
        exact ⟨h1, rfl, h2, h3, h9, h8⟩
      · exact absurd h (by simp)
    · injection h with h
      subst h
      exact ⟨rfl, rfl, fun _ => rfl, fun _ => rfl, fun _ => rfl, fun _ => rfl⟩

/-- Tail inheritance of `prepNextInherit`: after it, `pos` carries the tail
of its previous sibling, or the parent's text, or its own old tail. -/
theorem prepNextInherit_tail (t : ETree) (pos : Nat) (t1 : ETree)
    (h : prepNextInherit t pos = Except.ok t1) (hlt : pos < t.data.length) :
    (∀ q, t.previous pos = some q → t1.tailAt pos = t.tailAt q) ∧
    (t.previous pos = none → ∀ par, t.parent pos = some par →
      t.textAt par = some (t1.tailAt pos)) ∧
    (t.previous pos = none → t.parent pos = none → t1.tailAt pos = t.tailAt pos) := by
  unfold prepNextInherit at h
  split at h
  · rename_i prev hp
    injection h with h
    subst h
    refine ⟨?_, ?_, ?_⟩
    · intro q hq
      rw [hp] at hq
      injection hq with hq
      subst hq
      exact setTailAt_tailAt_self t pos _ hlt
    · intro hnone
      rw [hp] at hnone
      exact absurd hnone (by simp)
    · intro hnone
      rw [hp] at hnone
      exact absurd hnone (by simp)
  · rename_i hp
    split at h
    · rename_i par hpar
      split at h
      · rename_i s htx
        injection h with h
        subst h
        refine ⟨?_, ?_, ?_⟩
        · intro q hq
          rw [hp] at hq
          exact absurd hq (by simp)
        · intro _ par2 hpar2
          rw [hpar] at hpar2
          injection hpar2 with hpar2
          subst hpar2
          rw [setTailAt_tailAt_self t pos s hlt]
          exact htx
        · intro _ hnone
          rw [hpar] at hnone
          exact absurd hnone (by simp)
      · exact absurd h (by simp)
    · rename_i hpar
      injection h with h
      subst h
      refine ⟨?_, ?_, ?_⟩
      · intro q hq
        rw [hp] at hq
        exact absurd hq (by simp)
      · intro _ par2 hpar2
        rw [hpar] at hpar2
        exact absurd hpar2 (by simp)
      · intro _ _
        rfl

/-- After inserting a node with `pos`'s route right behind `pos`'s
descendant block, `next pos` finds exactly the inserted slot. -/
theorem next_after_insert (t1 t2 : ETree) (pos k : Nat) (node1 : ETreeNode)
    (hlen : pos < t1.data.length)
    (hk : pos + 1 + k ≤ t1.data.length)
    (hdesclen : (t1.descendant pos).length = k)
    (ht2 : t2.data = insAt (pos + 1 + k) node1 t1.data)
    (hroute : node1.route = t1.routeAt pos) :
    t2.next pos = some (pos + 1 + k) := by
  have hlen2 : t2.data.length = t1.data.length + 1 := by rw [ht2, insAt_length]
  unfold ETree.next
  rw [if_neg (by omega : ¬ pos ≥ t2.data.length - 1)]
  have hroutepos : t2.routeAt pos = t1.routeAt pos := by
    unfold ETree.routeAt ETree.nodeAt
    rw [ht2, insAt_get_lt _ _ _ _ (by omega) (by omega)]
  rw [hroutepos]
  have happ : t2.data = t1.data.take (pos + 1 + k) ++ node1 :: t1.data.drop (pos + 1 + k) := by
    rw [ht2, insAt_eq_append _ _ _ hk]
  have htakelen : (t1.data.take (pos + 1 + k)).length = pos + 1 + k := by
    simp
    omega
  have hdropeq : t2.data.drop (pos + 1) =
      ((t1.data.take (pos + 1 + k)).drop (pos + 1)) ++ node1 :: t1.data.drop (pos + 1 + k) := by
    rw [happ, drop_append_left _ _ _ (by omega)]
  rw [hdropeq]
  have hmidlen : ((t1.data.take (pos + 1 + k)).drop (pos + 1)).length = k := by
    simp
    omega
  have hscan : (t1.descendant pos) = scanDescAux (t1.childRoute pos) (t1.data.drop (pos + 1)) (pos + 1) := by
    unfold ETree.descendant
    rw [if_pos hlen]
  have hget : ∀ x ∈ (t1.data.take (pos + 1 + k)).drop (pos + 1),
      (t1.routeAt pos).isPrefixOf x.route = true ∧ x.route ≠ t1.routeAt pos := by
    intro x hx
    obtain ⟨m, hm⟩ := List.mem_iff_get?.1 hx
    have hmlt : m < k := by
      by_contra hcon
      rw [List.get?_eq_none.2 (by omega : ((t1.data.take (pos + 1 + k)).drop (pos + 1)).length ≤ m)] at hm
      exact absurd hm (by simp)
    have hx_get : t1.data.get? (pos + 1 + m) = some x := by
      rw [← get?_take' t1.data (pos + 1 + k) (pos + 1 + m) (by omega)]
      rw [← List.get?_drop]
      exact hm
    have hmlt2 : m < (scanDescAux (t1.childRoute pos) (t1.data.drop (pos + 1)) (pos + 1)).length := by
      rw [← hscan, hdesclen]
      exact hmlt
    obtain ⟨nd, hnd, hpre⟩ := scanDescAux_get _ _ _ _ hmlt2
    have hnd2 : t1.data.get? (pos + 1 + m) = some nd := by
      rw [← List.get?_drop]
      exact hnd
    have hx_nd : nd = x := by
      rw [hx_get] at hnd2
      injection hnd2 with hv
      exact hv.symm
    subst hx_nd
    have hprefix : (t1.routeAt pos) <+: nd.route := by
      have h1 : (t1.childRoute pos) <+: nd.route := List.isPrefixOf_iff_prefix.1 hpre
      have h2 : (t1.routeAt pos) <+: (t1.childRoute pos) := by
        unfold ETree.childRoute
        rw [List.append_assoc]
        exact List.prefix_append _ _
      exact h2.trans h1
    constructor
    · exact List.isPrefixOf_iff_prefix.2 hprefix
    · intro hcon
      have hlen1 : (t1.childRoute pos).length ≤ nd.route.length :=
        (List.isPrefixOf_iff_prefix.1 hpre).length_le
      have hlen3 : 0 < (natChars (t1.idxAt pos)).length :=
        List.length_pos.mpr (natChars_ne_nil _)
      have : (t1.childRoute pos).length = (t1.routeAt pos).length + (natChars (t1.idxAt pos)).length + 1 := by
        unfold ETree.childRoute
        simp only [List.length_append, List.length_cons, List.length_nil]
      rw [hcon] at hlen1
      omega
  rw [scanNextAux_hit (t1.routeAt pos) _ _ node1 (pos + 1) hget hroute]
  rw [hmidlen]

/-- C2: after `append_next_node(pos, n)` returns `Some p`: `next(pos)` is
`Some p`; `p` is the slot right after `pos`'s last descendant (so `pos+1`
when childless); the inserted node carries `pos`'s pre-insertion tail and
`pos`'s label; and `pos`'s tail becomes the tail its previous sibling had,
or, lacking one, its parent's text. -/
theorem c2_append_next_node (t : ETree) (pos : Nat) (n : ETreeNode) (t2 : ETree) (p : Nat)
    (h : t.append_next_node pos n = Except.ok (t2, some p)) :
    t2.next pos = some p ∧
    p = pos + (t.descendant pos).length + 1 ∧
    (t.descendant pos = [] → p = pos + 1) ∧
    t2.nodeAt p = { n with idx := t.count, tail := t.tailAt pos, route := t.routeAt pos } ∧
    (∀ q, t.previous pos = some q → t2.tailAt pos = t.tailAt q) ∧
    (t.previous pos = none → ∀ par, t.parent pos = some par →
      t.textAt par = some (t2.tailAt pos)) := by
  unfold ETree.append_next_node at h
  split at h
  · exact absurd h (by simp)
  · simp at h
  rename_i t1x cell heq
  injection h with h
  unfold ETree.prepare_append_next at heq
  split at heq
  · simp at heq
  rename_i hge
  have hlen' : pos < t.data.length := by omega
  split at heq
  · exact absurd heq (by simp)
  rename_i t1 hinh
  rw [Except.ok.injEq, Prod.mk.injEq] at heq
  obtain ⟨heq1, heq2⟩ := heq
  subst heq1
  injection heq2 with heq2
  obtain ⟨hnavlen, hnavcount, hnavroute, hnavidx, hnavdesc, hnavchild⟩ :=
    prepNextInherit_ok_nav t pos t1 hinh
  set k := (t.descendant pos).length with hkdef
  have hscan0 : t.descendant pos
      = scanDescAux (t.childRoute pos) (t.data.drop (pos + 1)) (pos + 1) := by
    unfold ETree.descendant
    rw [if_pos hlen']
  have hrange : t.descendant pos = List.range' (pos + 1) k := by
    rw [hkdef, hscan0]
    exact scanDescAux_range _ _ _
  have hkb : pos + 1 + k ≤ t.data.length := by
    have h1 : (t.descendant pos).length ≤ (t.data.drop (pos + 1)).length := by
      rw [hscan0]
      exact scanDescAux_le _ _ _
    rw [List.length_drop] at h1
    omega
  have hnewpos : (match (t1.descendant pos).getLast? with
      | none => pos + 1
      | some l => l + 1) = pos + 1 + k := by
    rw [hnavdesc pos, hrange, getLast?_range']
    by_cases hk0 : k = 0
    · rw [if_pos hk0]
      show pos + 1 = pos + 1 + k
      omega
    · rw [if_neg hk0]
      show pos + 1 + k - 1 + 1 = pos + 1 + k
      omega
  rw [hnewpos] at heq2
  unfold ETree.commitNode at h
  rw [Prod.mk.injEq] at h
  obtain ⟨ht2, hp⟩ := h
  injection hp with hp
  have hcidx : cell.idx = pos + 1 + k := by rw [← heq2]
  have hctail : cell.tail = t.tailAt pos := by rw [← heq2]
  have hcroute : cell.route = t.routeAt pos := by rw [← heq2]
  have ht2data : t2.data
      = insAt (pos + 1 + k) { n with idx := t1.count, tail := cell.tail, route := cell.route }
        t1.data := by
    have hd := congrArg ETree.data ht2
    rw [← hd]
    show (ETree.update_index _ _).data = _
    rw [(update_index_data _ _).1]
    rw [hcidx]
  have hplast : p = pos + 1 + k := by rw [← hp, hcidx]
  have hnext : t2.next pos = some (pos + 1 + k) := by
    have hdl : (t1.descendant pos).length = k := by rw [hnavdesc pos]
    have hrt : ({ n with idx := t1.count, tail := cell.tail, route := cell.route } : ETreeNode).route
        = t1.routeAt pos := by
      show cell.route = t1.routeAt pos
      rw [hcroute, hnavroute]
    exact next_after_insert t1 t2 pos k _ (by omega) (by omega) hdl ht2data hrt
  refine ⟨?_, by omega, ?_, ?_, ?_, ?_⟩
  · rw [hnext, hplast]
  · intro hnil
    have : k = 0 := by rw [hkdef, hnil]; rfl
    omega
  · unfold ETree.nodeAt
    rw [ht2data, hplast]
    rw [insAt_get_self _ _ _ (by omega)]
    simp only [Option.getD_some]
    rw [hctail, hcroute, hnavcount]
  · intro q hq
    have htl : t2.tailAt pos = t1.tailAt pos := by
      unfold ETree.tailAt ETree.nodeAt
      rw [ht2data, insAt_get_lt _ _ _ _ (by omega) (by omega)]
    rw [htl]
    exact (prepNextInherit_tail t pos t1 hinh hlen').1 q hq
  · intro hnone par hpar
    have htl : t2.tailAt pos = t1.tailAt pos := by
      unfold ETree.tailAt ETree.nodeAt
      rw [ht2data, insAt_get_lt _ _ _ _ (by omega) (by omega)]
    rw [htl]
    exact (prepNextInherit_tail t pos t1 hinh hlen').2.1 hnone par hpar

/-! ## Concrete trees for witnesses and counterexamples -/

/-- The empty tree value (used as the default of result projections). -/
def emptyTree : ETree :=
  { indent := [], count := 0, version := [], encoding := none, standalone := none,
    data := [], crlf := [], enable_index := false, index := [] }

/-- Project the tree out of a `parse` result. -/
def okT (e : Except String ETree) : ETree :=
  match e with
  | Except.ok t => t
  | Except.error _ => emptyTree

/-- Project the tree out of a mutation result. -/
def okTree (e : Except String (ETree × Option Nat)) : ETree :=
  match e with
  | Except.ok pr => pr.1
  | Except.error _ => emptyTree

/-- Events of `<a><c>1</c><c>2</c></a>`. -/
def docCC : List XEv :=
  [XEv.start none ['a'] [], XEv.start none ['c'] [], XEv.text ['1'], XEv.endTag ['c'],
   XEv.start none ['c'] [], XEv.text ['2'], XEv.endTag ['c'], XEv.endTag ['a']]

/-- Events of `<a>x</a>`. -/
def docAX : List XEv := [XEv.start none ['a'] [], XEv.text ['x'], XEv.endTag ['a']]

/-- Witness for C2 at the tree parsed from `<a><c>1</c><c>2</c></a>`:
appending a next sibling to the first `c` inserts at slot 2 and `next 1`
finds it. -/
theorem c2_append_next_node_witness :
    (okTree ((okT (parseEvents [nlC] docCC)).append_next_node 1 (ETreeNode.new ['d']))).next 1
      = some 2 :=
  (c2_append_next_node (okT (parseEvents [nlC] docCC)) 1 (ETreeNode.new ['d'])
    (okTree ((okT (parseEvents [nlC] docCC)).append_next_node 1 (ETreeNode.new ['d']))) 2
    (by decide)).1

/-! ## C3: append_child_node on a childless node -/

theorem scanChild_nil (r : Str) (l : List ETreeNode) (i i' : Nat)
    (h : scanDescAux r l i' = []) : scanChildAux r l i = [] := by
  cases l with
  | nil => rfl
  | cons n rest =>
    simp only [scanDescAux] at h
    by_cases hp : r.isPrefixOf n.route
    · rw [if_pos hp] at h
      exact absurd h (by simp)
    · simp only [scanChildAux]
      have hne : ¬ n.route = r := by
        intro hc
        exact hp (by rw [hc]; exact List.isPrefixOf_iff_prefix.2 (List.prefix_refl r))
      rw [if_neg hne, if_neg hp]

theorem children_nil_of_desc_nil (t : ETree) (pos : Nat) (h : t.descendant pos = []) :
    t.children pos = [] := by
  unfold ETree.children
  by_cases hl : pos < t.data.length
  · rw [if_pos hl]
    unfold ETree.descendant at h
    rw [if_pos hl] at h
    exact scanChild_nil _ _ _ _ h
  · rw [if_neg hl]

/-- Commit-phase core of C3: inserting the prepared cell as first child. -/
theorem appendChild_commit_core (t t1 t2 : ETree) (pos : Nat) (n cell : ETreeNode) (p : Nat)
    (hlen' : pos < t.data.length)
    (hnodesc : t.descendant pos = [])
    (ht1 : t1 = t.setTextAt pos (cell.tail ++ t.indent))
    (hcroute : cell.route = t.childRoute pos)
    (hcidx : cell.idx = pos + 1)
    (hcommit : t1.commitNode cell n = (t2, some p)) :
    t2.children pos = [pos + 1] ∧ p = pos + 1 ∧
    t2.textAt pos = some (cell.tail ++ t.indent) ∧ t2.tailAt p = cell.tail := by
  obtain ⟨hnavlen, hnavroute, hnavidx, hnavchild, hnavprev, hnavpar, hnavnext, hnavchildren, hnavdesc⟩ :=
    ht1 ▸ setTextAt_nav t pos (cell.tail ++ t.indent)
  unfold ETree.commitNode at hcommit
  rw [Prod.mk.injEq] at hcommit
  obtain ⟨ht2, hp⟩ := hcommit
  injection hp with hp
  have hplast : p = pos + 1 := by rw [← hp, hcidx]
  have hlen1 : pos < t1.data.length := by rw [hnavlen]; omega
  have ht2data : t2.data
      = insAt (pos + 1) { n with idx := t1.count, tail := cell.tail, route := cell.route }
        t1.data := by
    have hd := congrArg ETree.data ht2
    rw [← hd]
    show (ETree.update_index _ _).data = _
    rw [(update_index_data _ _).1]
    rw [hcidx]
  have hdrop : t2.data.drop (pos + 1)
      = { n with idx := t1.count, tail := cell.tail, route := cell.route }
        :: t1.data.drop (pos + 1) := by
    rw [ht2data, insAt_eq_append _ _ _ (by omega)]
    rw [drop_append_left _ _ _ (by simp; omega)]
    have hnil : (t1.data.take (pos + 1)).drop (pos + 1) = [] := by
      apply List.drop_eq_nil_of_le
      simp
    rw [hnil]
    rfl
  refine ⟨?_, hplast, ?_, ?_⟩
  · unfold ETree.children
    have hlen2 : t2.data.length = t1.data.length + 1 := by rw [ht2data, insAt_length]
    rw [if_pos (by omega : pos < t2.data.length)]
    have hcr2 : t2.childRoute pos = t.childRoute pos := by
      unfold ETree.childRoute ETree.routeAt ETree.idxAt ETree.nodeAt
      rw [ht2data, insAt_get_lt _ _ _ _ (by omega) (by omega)]
      have h1 := hnavroute pos
      have h2 := hnavidx pos
      unfold ETree.routeAt ETree.nodeAt at h1
      unfold ETree.idxAt ETree.nodeAt at h2
      rw [h1, h2]
    rw [hcr2, hdrop]
    simp only [scanChildAux]
    rw [if_pos (by rw [hcroute] : ({ n with idx := t1.count, tail := cell.tail, route := cell.route } : ETreeNode).route = t.childRoute pos)]
    have hdesc1 : scanDescAux (t1.childRoute pos) (t1.data.drop (pos + 1)) (pos + 1) = [] := by
      have hd1 : t1.descendant pos = [] := by rw [hnavdesc pos]; exact hnodesc
      unfold ETree.descendant at hd1
      rw [if_pos hlen1] at hd1
      exact hd1
    rw [scanChild_nil _ _ _ (pos + 1)]
    rw [← hnavchild pos]
    exact hdesc1
  · have hx : t2.textAt pos = t1.textAt pos := by
      unfold ETree.textAt ETree.nodeAt
      rw [ht2data, insAt_get_lt _ _ _ _ (by omega) (by omega)]
    rw [hx, ht1, setTextAt_textAt_self t pos _ hlen']
  · have hx : t2.tailAt p = cell.tail := by
      unfold ETree.tailAt ETree.nodeAt
      rw [ht2data, hplast, insAt_get_self _ _ _ (by omega)]
      rfl
    exact hx

/-- C3 (amended): inserting a child under a childless node whose text is
absent or empty makes the new node the sole entry of `children(pos)` at
slot `pos+1`, sets `pos`'s text to the inherited tail (previous sibling's
tail, else parent's tail, else the newline string) followed by the indent
unit, and gives the child that inherited tail. -/
theorem c3_append_child_node (t : ETree) (pos : Nat) (n : ETreeNode) (t2 : ETree) (p : Nat)
    (h : t.append_child_node pos n = Except.ok (t2, some p))
    (hnodesc : t.descendant pos = [])
    (htext : t.textAt pos = none ∨ t.textAt pos = some []) :
    t2.children pos = [pos + 1] ∧
    p = pos + 1 ∧
    (∃ inherited : Str,
      (∀ q, t.previous pos = some q → inherited = t.tailAt q) ∧
      (t.previous pos = none → ∀ par, t.parent pos = some par → inherited = t.tailAt par) ∧
      (t.previous pos = none → t.parent pos = none → inherited = t.crlf) ∧
      t2.textAt pos = some (inherited ++ t.indent) ∧
      t2.tailAt p = inherited) := by
  unfold ETree.append_child_node at h
  split at h
  · exact absurd h (by simp)
  · simp at h
  rename_i t1x cell heq
  injection h with h
  unfold ETree.prepare_append_child at heq
  split at heq
  · simp at heq
  rename_i hge
  have hlen' : pos < t.data.length := by omega
  have hchildnil : t.children pos = [] := children_nil_of_desc_nil t pos hnodesc
  split at heq
  · -- no existing child
    rename_i hgl
    split at heq
    · -- previous sibling exists
      rename_i prev hprev
      rw [Except.ok.injEq, Prod.mk.injEq] at heq
      obtain ⟨heq1, heq2⟩ := heq
      injection heq2 with heq2
      have hct : cell.tail = t.tailAt prev := by rw [← heq2]
      have hcore := appendChild_commit_core t t1x t2 pos n cell p hlen' hnodesc ?ht1 ?hcr ?hci h
      case ht1 =>
        rw [← heq1, hct]
        rcases htext with hx | hx
        · rw [if_pos hx]
        · rw [if_neg (by rw [hx]; simp), if_pos hx]
      case hcr => rw [← heq2]
      case hci => rw [← heq2]
      obtain ⟨hc1, hc2, hc3, hc4⟩ := hcore
      refine ⟨hc1, hc2, cell.tail, ?_, ?_, ?_, hc3, hc4⟩
      · intro q hq
        rw [hprev] at hq
        injection hq with hq
        subst hq
        exact hct
      · intro hnone
        rw [hprev] at hnone
        exact absurd hnone (by simp)
      · intro hnone
        rw [hprev] at hnone
        exact absurd hnone (by simp)
    · -- no previous sibling
      rename_i hprev
      split at heq
      · -- parent exists
        rename_i par hpar
        rw [Except.ok.injEq, Prod.mk.injEq] at heq
        obtain ⟨heq1, heq2⟩ := heq
        injection heq2 with heq2
        have hct : cell.tail = t.tailAt par := by rw [← heq2]
        have hcore := appendChild_commit_core t t1x t2 pos n cell p hlen' hnodesc ?ht1 ?hcr ?hci h
        case ht1 =>
          rw [← heq1, hct]
          rcases htext with hx | hx
          · rw [if_pos hx]
          · rw [if_neg (by rw [hx]; simp), if_pos hx]
        case hcr => rw [← heq2]
        case hci => rw [← heq2]
        obtain ⟨hc1, hc2, hc3, hc4⟩ := hcore
        refine ⟨hc1, hc2, cell.tail, ?_, ?_, ?_, hc3, hc4⟩
        · intro q hq
          rw [hprev] at hq
          exact absurd hq (by simp)
        · intro _ par2 hpar2
          rw [hpar] at hpar2
          injection hpar2 with hpar2
          subst hpar2
          exact hct
        · intro _ hnone
          rw [hpar] at hnone
          exact absurd hnone (by simp)
      · -- no parent either
        rename_i hpar
        rw [Except.ok.injEq, Prod.mk.injEq] at heq
        obtain ⟨heq1, heq2⟩ := heq
        injection heq2 with heq2
        have hct : cell.tail = t.crlf := by rw [← heq2]
        have hcore := appendChild_commit_core t t1x t2 pos n cell p hlen' hnodesc ?ht1 ?hcr ?hci h
        case ht1 =>
          rw [← heq1, hct]
          rcases htext with hx | hx
          · rw [if_pos hx]
          · rw [if_neg (by rw [hx]; simp), if_pos hx]
        case hcr => rw [← heq2]
        case hci => rw [← heq2]
        obtain ⟨hc1, hc2, hc3, hc4⟩ := hcore
        refine ⟨hc1, hc2, cell.tail, ?_, ?_, ?_, hc3, hc4⟩
        · intro q hq
          rw [hprev] at hq
          exact absurd hq (by simp)
        · intro _ par2 hpar2
          rw [hpar] at hpar2
          exact absurd hpar2 (by simp)
        · intro _ _
          exact hct
  · -- an existing child contradicts childlessness
    rename_i lastChild hgl
    rw [hchildnil] at hgl
    exact absurd hgl (by simp)

/-- Tree parsed from `<a>x</a>` (childless root with non-empty text). -/
def c3tree : ETree := okT (parseEvents [nlC] docAX)

/-- Result of appending a child to the root of `c3tree`. -/
def c3res : Except String (ETree × Option Nat) :=
  c3tree.append_child_node 0 (ETreeNode.new ['d'])

/-- Counterexample to C3 as stated: on the parsed tree of `<a>x</a>` the
insertion succeeds and the new node is the sole child, but the parent text
stays `"x"` instead of becoming the inherited tail plus the indent unit
(the code only rewrites absent or empty text). -/
theorem c3_counterexample :
    c3tree.children 0 = [] ∧
    c3tree.descendant 0 = [] ∧
    c3res = Except.ok (okTree c3res, some 1) ∧
    (okTree c3res).children 0 = [1] ∧
    (okTree c3res).textAt 0 = some ['x'] ∧
    ['x'] ≠ c3tree.crlf ++ c3tree.indent ∧
    ['x'] ≠ c3tree.indent := by decide

/-- Events of `<a><c/><c>2</c></a>`. -/
def docEC : List XEv :=
  [XEv.start none ['a'] [], XEv.empty none ['c'] [],
   XEv.start none ['c'] [], XEv.text ['2'], XEv.endTag ['c'], XEv.endTag ['a']]

/-- Witness for the amended C3: the self-closing `c` of `<a><c/><c>2</c></a>`
is childless with absent text, and the inserted node becomes its sole
child. -/
theorem c3_append_child_node_witness :
    (okTree ((okT (parseEvents [nlC] docEC)).append_child_node 1 (ETreeNode.new ['d']))).children 1
      = [2] :=
  (c3_append_child_node (okT (parseEvents [nlC] docEC)) 1 (ETreeNode.new ['d'])
    (okTree ((okT (parseEvents [nlC] docEC)).append_child_node 1 (ETreeNode.new ['d']))) 2
    (by decide) (by decide) (by decide)).1

/-! ## C4: remove -/

/-- Boolean infix test (Rust `str::contains` at the level needed here). -/
def isInfixOfB : Str → Str → Bool
  | p, [] => p.isEmpty
  | p, c :: cs => p.isPrefixOf (c :: cs) || isInfixOfB p cs

theorem isInfixOfB_iff (p l : Str) : isInfixOfB p l = true ↔ p <:+: l := by
  induction l with
  | nil =>
    simp only [isInfixOfB, List.isEmpty_iff]
    constructor
    · intro h; rw [h]
    · intro h
      exact List.eq_nil_of_infix_nil h
  | cons c cs ih =>
    simp only [isInfixOfB, Bool.or_eq_true, ih, List.isPrefixOf_iff_prefix]
    rw [List.infix_cons_iff]

/-- The `#id#` segment-containment test on a route. -/
def containsSeg (a : Nat) (r : Str) : Bool := isInfixOfB (segPat a) r

theorem eraseFold_data (g : ETree → Nat → ETree)
    (hg : ∀ acc i, (g acc i).data = eraseAt i acc.data) :
    ∀ (k s : Nat) (tt : ETree), s + k ≤ tt.data.length →
      ((List.range' s k).reverse.foldl g tt).data = tt.data.take s ++ tt.data.drop (s + k) := by
  intro k
  induction k with
  | zero =>
    intro s tt _
    simp
  | succ kk ih =>
    intro s tt hle
    rw [range'_snoc, List.reverse_append]
    simp only [List.reverse_singleton, List.singleton_append, List.foldl_cons]
    have hdata : (g tt (s + kk)).data = eraseAt (s + kk) tt.data := hg tt (s + kk)
    have herase : eraseAt (s + kk) tt.data = tt.data.take (s + kk) ++ tt.data.drop (s + kk + 1) :=
      eraseAt_eq _ _ (by omega)
    have hlen2 : (g tt (s + kk)).data.length = tt.data.length - 1 := by
      rw [hdata, herase]
      simp
      omega
    have hstep : s + kk ≤ (g tt (s + kk)).data.length := by rw [hlen2]; omega
    rw [ih s (g tt (s + kk)) hstep]
    rw [hdata, herase]
    congr 1
    · rw [List.take_append_eq_append_take]
      have h1 : (tt.data.take (s + kk)).take s = tt.data.take s := by
        rw [List.take_take]
        congr 1
        omega
      have h2 : s - (tt.data.take (s + kk)).length = 0 := by
        simp
        omega
      rw [h1, h2]
      simp
    · rw [drop_append_left _ _ _ (by simp; omega)]
      have h3 : (tt.data.take (s + kk)).drop (s + kk) = [] := by
        apply List.drop_eq_nil_of_le
        simp
      rw [h3]
      have hidx : s + kk + 1 = s + (kk + 1) := by omega
      rw [← hidx]
      simp

/-- Data shape after the erase loop and final erase of `ETree::remove`. -/
theorem remove_after_fixup (t1 t' : ETree) (pos k : Nat)
    (hpos : pos < t1.data.length)
    (hk : (t1.descendant pos).length = k)
    (h : (let offspring := t1.descendant pos
          let t2 := offspring.reverse.foldl
            (fun acc i => { acc with
              index := amRemove acc.index (acc.idxAt i),
              data := eraseAt i acc.data }) t1
          match t2.data.get? pos with
          | none => Except.error "panic"
          | some nd =>
            Except.ok (({ t2 with
              index := amRemove t2.index nd.idx,
              data := eraseAt pos t2.data }).update_index pos)) = Except.ok t') :
    t'.data = t1.data.take pos ++ t1.data.drop (pos + 1 + k) := by
  have hscan0 : t1.descendant pos
      = scanDescAux (t1.childRoute pos) (t1.data.drop (pos + 1)) (pos + 1) := by
    unfold ETree.descendant
    rw [if_pos hpos]
  have hrange : t1.descendant pos = List.range' (pos + 1) k := by
    rw [← hk, hscan0]
    exact scanDescAux_range _ _ _
  have hkb : pos + 1 + k ≤ t1.data.length := by
    have h1 : (t1.descendant pos).length ≤ (t1.data.drop (pos + 1)).length := by
      rw [hscan0]
      exact scanDescAux_le _ _ _
    rw [List.length_drop, hk] at h1
    omega
  simp only [hrange] at h
  have hfold := eraseFold_data
    (fun acc i => { acc with
      index := amRemove acc.index (acc.idxAt i),
      data := eraseAt i acc.data })
    (fun _ _ => rfl) k (pos + 1) t1 (by omega)
  set t2 := (List.range' (pos + 1) k).reverse.foldl
    (fun acc i => { acc with
      index := amRemove acc.index (acc.idxAt i),
      data := eraseAt i acc.data }) t1 with ht2def
  have ht2 : t2.data = t1.data.take (pos + 1) ++ t1.data.drop (pos + 1 + k) := hfold
  have hget : t2.data.get? pos = t1.data.get? pos := by
    rw [ht2, List.get?_append (by simp; omega)]
    exact get?_take' _ _ _ (by omega)
  have hsome : ∃ nd, t1.data.get? pos = some nd := by
    cases hx : t1.data.get? pos with
    | none => rw [List.get?_eq_none] at hx; omega
    | some nd => exact ⟨nd, rfl⟩
  obtain ⟨nd, hnd⟩ := hsome
  rw [hget, hnd] at h
  simp only [] at h
  injection h with h
  have hd := congrArg ETree.data h
  rw [(update_index_data _ _).1] at hd
  rw [← hd]
  show eraseAt pos t2.data = _
  rw [eraseAt_eq _ _ (by rw [ht2]; simp; omega), ht2]
  congr 1
  · rw [List.take_append_eq_append_take]
    have h1 : (t1.data.take (pos + 1)).take pos = t1.data.take pos := by
      rw [List.take_take]
      congr 1
      omega
    have h2 : pos - (t1.data.take (pos + 1)).length = 0 := by
      simp
      omega
    rw [h1, h2]
    simp
  · rw [drop_append_left _ _ _ (by simp; omega)]
    have h3 : (t1.data.take (pos + 1)).drop (pos + 1) = [] := by
      apply List.drop_eq_nil_of_le
      simp
    rw [h3]
    simp

theorem scanPrevAux_le (r : Str) (l : List ETreeNode) (i j : Nat)
    (h : scanPrevAux r l i = some j) : j ≤ i := by
  induction l generalizing i with
  | nil => simp [scanPrevAux] at h
  | cons n rest ih =>
    simp only [scanPrevAux] at h
    by_cases h1 : n.route = r
    · rw [if_pos h1] at h
      injection h with h
      omega
    · rw [if_neg h1] at h
      by_cases h2 : r.isPrefixOf n.route
      · rw [if_pos h2] at h
        have := ih (i - 1) h
        omega
      · rw [if_neg h2] at h
        exact absurd h (by simp)

theorem previous_lt (t : ETree) (pos q : Nat) (h : t.previous pos = some q) : q < pos := by
  unfold ETree.previous at h
  by_cases hg : pos = 0 ∨ pos ≥ t.data.length
  · rw [if_pos hg] at h
    exact absurd h (by simp)
  · rw [if_neg hg] at h
    have h1 := scanPrevAux_le _ _ _ _ h
    have h2 : ¬ pos = 0 := fun hc => hg (Or.inl hc)
    omega

/-- Successful `remove` decomposed: a fixup tree `t1` with the same
navigation skeleton, whose `pos`-block is then cut out. -/
theorem remove_ok_upto (t : ETree) (pos : Nat) (t' : ETree)
    (h : t.remove pos = Except.ok t') (hpos : pos < t.data.length) :
    ∃ t1 : ETree,
      t1.data.length = t.data.length ∧
      (∀ q, t1.routeAt q = t.routeAt q) ∧
      (∀ q, t1.idxAt q = t.idxAt q) ∧
      (∀ q, t1.descendant q = t.descendant q) ∧
      t'.data = t1.data.take pos ++ t1.data.drop (pos + 1 + (t.descendant pos).length) ∧
      (∀ q, t.previous pos = some q → t1 = t.setTailAt q (t.tailAt pos)) := by
  unfold ETree.remove at h
  have hfin : ∀ t1 : ETree,
      t1.data.length = t.data.length →
      (∀ q, t1.routeAt q = t.routeAt q) →
      (∀ q, t1.idxAt q = t.idxAt q) →
      (∀ q, t1.descendant q = t.descendant q) →
      (let offspring := t1.descendant pos
       let t2 := offspring.reverse.foldl
         (fun acc i => { acc with
           index := amRemove acc.index (acc.idxAt i),
           data := eraseAt i acc.data }) t1
       match t2.data.get? pos with
       | none => Except.error "panic"
       | some nd =>
         Except.ok (({ t2 with
           index := amRemove t2.index nd.idx,
           data := eraseAt pos t2.data }).update_index pos)) = Except.ok t' →
      t'.data = t1.data.take pos ++ t1.data.drop (pos + 1 + (t.descendant pos).length) := by
    intro t1 hlen hroute hidx hdesc hbody
    have hk : (t1.descendant pos).length = (t.descendant pos).length := by rw [hdesc pos]
    exact remove_after_fixup t1 t' pos (t.descendant pos).length (by omega) hk hbody
  split at h
  · -- previous sibling exists
    rename_i q0 hp
    refine ⟨t.setTailAt q0 (t.tailAt pos), ?_, ?_, ?_, ?_, ?_, ?_⟩
    · exact (setTailAt_nav t q0 _).1
    · exact (setTailAt_nav t q0 _).2.1
    · exact (setTailAt_nav t q0 _).2.2.1
    · exact (setTailAt_nav t q0 _).2.2.2.2.2.2.2.2
    · exact hfin _ (setTailAt_nav t q0 _).1 (setTailAt_nav t q0 _).2.1
        (setTailAt_nav t q0 _).2.2.1 (setTailAt_nav t q0 _).2.2.2.2.2.2.2.2 h
    · intro q hq
      rw [hp] at hq
      injection hq with hq
      subst hq
      rfl
  · -- no previous sibling
    rename_i hp
    split at h
    · -- a next sibling exists, no fixup
      refine ⟨t, rfl, fun _ => rfl, fun _ => rfl, fun _ => rfl, ?_, ?_⟩
      · exact hfin t rfl (fun _ => rfl) (fun _ => rfl) (fun _ => rfl) h
      · intro q hq
        rw [hp] at hq
        exact absurd hq (by simp)
    · -- no next sibling
      split at h
      · -- parent text fixup
        rename_i par hpar
        split at h
        · rename_i txt htxt
          split at h
          · rename_i hsuf
            refine ⟨t.setTextAt par (txt.take (txt.length - t.indent.length)), ?_, ?_, ?_, ?_, ?_, ?_⟩
            · exact (setTextAt_nav t par _).1
            · exact (setTextAt_nav t par _).2.1
            · exact (setTextAt_nav t par _).2.2.1
            · exact (setTextAt_nav t par _).2.2.2.2.2.2.2.2
            · exact hfin _ (setTextAt_nav t par _).1 (setTextAt_nav t par _).2.1
                (setTextAt_nav t par _).2.2.1 (setTextAt_nav t par _).2.2.2.2.2.2.2.2 h
            · intro q hq
              rw [hp] at hq
              exact absurd hq (by simp)
          · refine ⟨t, rfl, fun _ => rfl, fun _ => rfl, fun _ => rfl, ?_, ?_⟩
            · exact hfin t rfl (fun _ => rfl) (fun _ => rfl) (fun _ => rfl) h
            · intro q hq
              rw [hp] at hq
              exact absurd hq (by simp)
        · exact absurd h (by simp)
      · -- no parent either
        refine ⟨t, rfl, fun _ => rfl, fun _ => rfl, fun _ => rfl, ?_, ?_⟩
        · exact hfin t rfl (fun _ => rfl) (fun _ => rfl) (fun _ => rfl) h
        · intro q hq
          rw [hp] at hq
          exact absurd hq (by simp)

/-- C4: after a successful `remove(pos)` on a tree whose labels are
well-nested (H1: a label mentioning an identity extends that node's child
route and lies after it; H2: nodes between a node and one of its
route-descendants are also route-descendants — both hold for parsed
trees), no surviving label contains the identity of the removed node or of
any removed descendant, and a previous sibling inherits the removed
node's tail. -/
theorem c4_remove (t : ETree) (pos : Nat) (t' : ETree)
    (h : t.remove pos = Except.ok t')
    (hpos : pos < t.data.length)
    (H1 : ∀ i, i < t.data.length → ∀ j, j < t.data.length →
      containsSeg (t.idxAt i) (t.routeAt j) = true →
      i < j ∧ (t.childRoute i).isPrefixOf (t.routeAt j) = true)
    (H2 : ∀ kk, kk < t.data.length → ∀ j, j < kk → ∀ i, i < j →
      (t.childRoute i).isPrefixOf (t.routeAt kk) = true →
      (t.childRoute i).isPrefixOf (t.routeAt j) = true) :
    (∀ j, j < t'.data.length → ∀ r, r = pos ∨ r ∈ t.descendant pos →
      containsSeg (t.idxAt r) (t'.routeAt j) = false) ∧
    (∀ q, t.previous pos = some q → t'.tailAt q = t.tailAt pos) := by
  obtain ⟨t1, hlen, hroute, hidx, hdesc, hdata, htail⟩ := remove_ok_upto t pos t' h hpos
  set k := (t.descendant pos).length with hkdef
  have hscan0 : t.descendant pos
      = scanDescAux (t.childRoute pos) (t.data.drop (pos + 1)) (pos + 1) := by
    unfold ETree.descendant
    rw [if_pos hpos]
  have hscanlen : (scanDescAux (t.childRoute pos) (t.data.drop (pos + 1)) (pos + 1)).length = k := by
    rw [← hscan0]
  have hrange : t.descendant pos = List.range' (pos + 1) k := by
    rw [hkdef, hscan0]
    exact scanDescAux_range _ _ _
  have hkb : pos + 1 + k ≤ t.data.length := by
    have h1 : (t.descendant pos).length ≤ (t.data.drop (pos + 1)).length := by
      rw [hscan0]
      exact scanDescAux_le _ _ _
    rw [List.length_drop] at h1
    omega
  have htake_len : (t1.data.take pos).length = pos := by
    rw [List.length_take]
    omega
  have hlen' : t'.data.length = pos + (t.data.length - (pos + 1 + k)) := by
    rw [hdata, List.length_append, htake_len, List.length_drop, hlen]
  have hsurv : ∀ j, j < t'.data.length →
      ∃ oj, (oj < pos ∨ pos + 1 + k ≤ oj) ∧ oj < t.data.length ∧ t'.routeAt j = t.routeAt oj := by
    intro j hj
    by_cases hjp : j < pos
    · refine ⟨j, Or.inl hjp, by omega, ?_⟩
      unfold ETree.routeAt ETree.nodeAt
      rw [hdata, List.get?_append (by rw [htake_len]; omega), get?_take' _ _ _ hjp]
      have := hroute j
      unfold ETree.routeAt ETree.nodeAt at this
      rw [this]
    · refine ⟨j + 1 + k, Or.inr (by omega), by omega, ?_⟩
      unfold ETree.routeAt ETree.nodeAt
      rw [hdata, List.get?_append_right (by rw [htake_len]; omega)]
      rw [htake_len, List.get?_drop]
      have hix : pos + 1 + k + (j - pos) = j + 1 + k := by omega
      rw [hix]
      have := hroute (j + 1 + k)
      unfold ETree.routeAt ETree.nodeAt at this
      rw [this]
  constructor
  · intro j hj r hr
    obtain ⟨oj, hojcase, hojlt, hrt⟩ := hsurv j hj
    rw [hrt]
    cases hcon : containsSeg (t.idxAt r) (t.routeAt oj) with
    | false => rfl
    | true =>
      exfalso
      have hrb : pos ≤ r ∧ r ≤ pos + k ∧ r < t.data.length := by
        rcases hr with rfl | hmem
        · exact ⟨le_refl _, by omega, hpos⟩
        · rw [hrange, List.mem_range'_1] at hmem
          exact ⟨by omega, by omega, by omega⟩
      obtain ⟨h1a, h1b⟩ := H1 r hrb.2.2 oj hojlt hcon
      rcases hojcase with hlt | hge
      · omega
      · have hprefix_pos : (t.childRoute pos).isPrefixOf (t.routeAt oj) = true := by
          rcases hr with rfl | hmem
          · exact h1b
          · rw [hrange, List.mem_range'_1] at hmem
            have hmlt2 : r - (pos + 1)
                < (scanDescAux (t.childRoute pos) (t.data.drop (pos + 1)) (pos + 1)).length := by
              rw [hscanlen]
              omega
            obtain ⟨nd, hnd, hpre⟩ := scanDescAux_get _ _ _ _ hmlt2
            have hnd2 : t.data.get? r = some nd := by
              rw [List.get?_drop] at hnd
              have hix : pos + 1 + (r - (pos + 1)) = r := by omega
              rw [hix] at hnd
              exact hnd
            have hr_route : t.routeAt r = nd.route := by
              unfold ETree.routeAt ETree.nodeAt
              rw [hnd2]
              rfl
            have c1 : t.childRoute pos <+: t.routeAt r := by
              rw [hr_route]
              exact List.isPrefixOf_iff_prefix.1 hpre
            have c2 : t.routeAt r <+: t.childRoute r := by
              unfold ETree.childRoute
              rw [List.append_assoc]
              exact List.prefix_append _ _
            have c3 : t.childRoute r <+: t.routeAt oj := List.isPrefixOf_iff_prefix.1 h1b
            exact List.isPrefixOf_iff_prefix.2 (c1.trans (c2.trans c3))
        have hbrk0 : k < (t.data.drop (pos + 1)).length := by
          rw [List.length_drop]
          omega
        obtain ⟨nb, hnb, hnbpre⟩ := scanDescAux_break (t.childRoute pos)
          (t.data.drop (pos + 1)) (pos + 1) (by rw [hscanlen]; exact hbrk0)
        rw [hscanlen] at hnb
        have hnb2 : t.data.get? (pos + 1 + k) = some nb := by
          rw [List.get?_drop] at hnb
          exact hnb
        have hnbroute : t.routeAt (pos + 1 + k) = nb.route := by
          unfold ETree.routeAt ETree.nodeAt
          rw [hnb2]
          rfl
        have hbreak : (t.childRoute pos).isPrefixOf (t.routeAt (pos + 1 + k)) = false := by
          rw [hnbroute]
          exact hnbpre
        have htruth : (t.childRoute pos).isPrefixOf (t.routeAt (pos + 1 + k)) = true := by
          rcases Nat.eq_or_lt_of_le hge with heq | hlt2
          · rw [heq]
            exact hprefix_pos
          · exact H2 oj hojlt (pos + 1 + k) hlt2 pos (by omega) hprefix_pos
        rw [htruth] at hbreak
        exact absurd hbreak (by decide)
  · intro q hq
    have ht1 := htail q hq
    have hqlt : q < pos := previous_lt t pos q hq
    have hget : t'.data.get? q = t1.data.get? q := by
      rw [hdata, List.get?_append (by rw [htake_len]; omega), get?_take' _ _ _ hqlt]
    unfold ETree.tailAt ETree.nodeAt
    rw [hget, ht1]
    have := setTailAt_tailAt_self t q (t.tailAt pos) (by omega)
    unfold ETree.tailAt ETree.nodeAt at this
    exact this

/-- The tree parsed from `<a><c>1</c><c>2</c></a>`, used to witness C4. -/
def c4T : ETree := okT (parseEvents [nlC] docCC)

theorem c4_remove_witness :
    ((∀ j, j < (okT (c4T.remove 2)).data.length →
        ∀ r, r = 2 ∨ r ∈ c4T.descendant 2 →
          containsSeg (c4T.idxAt r) ((okT (c4T.remove 2)).routeAt j) = false) ∧
      (∀ q, c4T.previous 2 = some q →
        (okT (c4T.remove 2)).tailAt q = c4T.tailAt 2)) :=
  c4_remove c4T 2 (okT (c4T.remove 2)) (by decide) (by decide) (by decide) (by decide)

/-! ## Identity distinctness (C5) -/

/-- The identity invariant: all `idx` fields in the tree are pairwise
distinct and lie below the allocation counter `count`. -/
def idxInv (t : ETree) : Prop :=
  (t.data.map ETreeNode.idx).Nodup ∧ ∀ v ∈ t.data.map ETreeNode.idx, v < t.count

instance idxInvDec (t : ETree) : Decidable (idxInv t) := by
  unfold idxInv
  infer_instance

theorem insAt_map {α β : Type} (g : α → β) (n : Nat) (a : α) (l : List α) :
    (insAt n a l).map g = insAt n (g a) (l.map g) := by
  induction l generalizing n with
  | nil => cases n <;> simp [insAt]
  | cons x xs ih =>
    cases n with
    | zero => simp [insAt]
    | succ m => simp [insAt, ih]

theorem insAt_mem {α : Type} (n : Nat) (a b : α) (l : List α) :
    b ∈ insAt n a l ↔ b = a ∨ b ∈ l := by
  induction l generalizing n with
  | nil => cases n <;> simp [insAt]
  | cons x xs ih =>
    cases n with
    | zero => simp [insAt]
    | succ m =>
      simp only [insAt, List.mem_cons, ih]
      tauto

theorem insAt_nodup {α : Type} (n : Nat) (a : α) (l : List α)
    (ha : a ∉ l) (hl : l.Nodup) : (insAt n a l).Nodup := by
  induction l generalizing n with
  | nil => cases n <;> simp [insAt]
  | cons x xs ih =>
    cases n with
    | zero =>
      rw [show insAt 0 a (x :: xs) = a :: x :: xs from rfl, List.nodup_cons]
      exact ⟨ha, hl⟩
    | succ m =>
      rw [List.nodup_cons] at hl
      have hax : a ∉ xs := fun hm => ha (List.mem_cons_of_mem _ hm)
      have hxa : x ≠ a := fun he => ha (he ▸ List.mem_cons_self _ _)
      simp only [insAt, List.nodup_cons, insAt_mem]
      refine ⟨?_, ih m hax hl.2⟩
      rintro (rfl | hx)
      · exact hxa rfl
      · exact hl.1 hx

theorem eraseAt_sublist {α : Type} (n : Nat) (l : List α) :
    List.Sublist (eraseAt n l) l := by
  induction l generalizing n with
  | nil => simp [eraseAt]
  | cons x xs ih =>
    cases n with
    | zero =>
      exact List.sublist_cons_self x xs
    | succ m =>
      exact List.Sublist.cons₂ x (ih m)

theorem map_modifyNth_const (l : List ETreeNode) (i cur : Nat) :
    ((l.modifyNth (fun n => { n with idx := cur }) i).map ETreeNode.idx)
      = (l.map ETreeNode.idx).set i cur := by
  induction l generalizing i with
  | nil => simp [List.modifyNth]
  | cons x xs ih =>
    cases i with
    | zero => simp [List.modifyNth]
    | succ m =>
      have hmm := ih m
      simp [List.modifyNth] at hmm ⊢
      exact hmm

theorem map_idx_map_route (l : List ETreeNode) (h : ETreeNode → Str) :
    (l.map (fun n => { n with route := h n })).map ETreeNode.idx = l.map ETreeNode.idx := by
  induction l with
  | nil => rfl
  | cons x xs ih => simp [ih]

theorem reindexStep_map_idx (d : List ETreeNode) (i cur : Nat) :
    (reindexStep d i cur).map ETreeNode.idx = (d.map ETreeNode.idx).set i cur := by
  unfold reindexStep
  rw [map_idx_map_route, map_modifyNth_const]

theorem reindexStep_length (d : List ETreeNode) (i cur : Nat) :
    (reindexStep d i cur).length = d.length := by
  unfold reindexStep
  rw [List.length_map, modifyNth_length]

theorem reindexGo_length (k : Nat) (d : List ETreeNode) (i cur : Nat) :
    (reindexGo k d i cur).length = d.length := by
  induction k generalizing d i cur with
  | zero => rfl
  | succ m ih => rw [reindexGo, ih, reindexStep_length]

theorem take_set_succ (l : List Nat) (i a : Nat) (h : i < l.length) :
    (l.set i a).take (i + 1) = l.take i ++ [a] := by
  induction l generalizing i with
  | nil => simp at h
  | cons x xs ih =>
    cases i with
    | zero => simp
    | succ m =>
      simp only [List.length_cons, Nat.succ_lt_succ_iff] at h
      simp [List.set, ih m h]

theorem take_set_self (l : List Nat) (i a : Nat) :
    (l.set i a).take i = l.take i := by
  induction l generalizing i with
  | nil => simp
  | cons x xs ih =>
    cases i with
    | zero => simp
    | succ m => simp [List.set, ih m]

theorem reindexGo_aux (k : Nat) : ∀ (d : List ETreeNode) (i cur : Nat),
    d.length = i + k →
    (reindexGo k d i cur).map ETreeNode.idx
      = (d.map ETreeNode.idx).take i ++ List.range' cur k := by
  induction k with
  | zero =>
    intro d i cur hlen
    simp only [reindexGo, List.range', List.append_nil]
    rw [List.take_of_length_le]
    rw [List.length_map]
    omega
  | succ m ih =>
    intro d i cur hlen
    rw [reindexGo, ih (reindexStep d i cur) (i + 1) (cur + 1)
      (by rw [reindexStep_length]; omega)]
    rw [reindexStep_map_idx]
    have hi : i < (d.map ETreeNode.idx).length := by
      rw [List.length_map]
      omega
    rw [take_set_succ _ _ _ hi]
    have hr : List.range' cur (m + 1) = cur :: List.range' (cur + 1) m := rfl
    rw [hr, List.append_assoc]
    rfl

theorem reindexGo_full (k : Nat) (d : List ETreeNode) (cur : Nat) (hlen : d.length = k) :
    (reindexGo k d 0 cur).map ETreeNode.idx = List.range' cur k := by
  rw [reindexGo_aux k d 0 cur (by omega)]
  rfl

theorem foldl_min_of_le (l : List Nat) : ∀ a, (∀ x ∈ l, a ≤ x) → l.foldl Nat.min a = a := by
  induction l with
  | nil => intro a _; rfl
  | cons x xs ih =>
    intro a h
    rw [List.foldl_cons]
    have hax : Nat.min a x = a := Nat.min_eq_left (h x (List.mem_cons_self _ _))
    rw [hax]
    exact ih a (fun y hy => h y (List.mem_cons_of_mem _ hy))

theorem idxInv_shape (t t' : ETree)
    (hd : t'.data.map ETreeNode.idx = t.data.map ETreeNode.idx)
    (hc : t.count ≤ t'.count) (h : idxInv t) : idxInv t' := by
  obtain ⟨hnd, hbd⟩ := h
  exact ⟨hd ▸ hnd, fun v hv => lt_of_lt_of_le (hbd v (hd ▸ hv)) hc⟩

theorem map_modifyNth_id (l : List ETreeNode) (f : ETreeNode → ETreeNode)
    (hf : ∀ n, (f n).idx = n.idx) : ∀ i,
    (l.modifyNth f i).map ETreeNode.idx = l.map ETreeNode.idx := by
  induction l with
  | nil => intro i; simp [List.modifyNth]
  | cons x xs ih =>
    intro i
    cases i with
    | zero => simp [List.modifyNth, hf]
    | succ m =>
      have hmm := ih m
      simp [List.modifyNth, hf] at hmm ⊢
      exact hmm

theorem setTailAt_idxInv (t : ETree) (i : Nat) (s : Str) (h : idxInv t) :
    idxInv (t.setTailAt i s) := by
  refine idxInv_shape t _ ?_ (le_refl _) h
  exact map_modifyNth_id t.data (fun n => { n with tail := s }) (fun n => rfl) i

theorem setTextAt_idxInv (t : ETree) (i : Nat) (s : Str) (h : idxInv t) :
    idxInv (t.setTextAt i s) := by
  refine idxInv_shape t _ ?_ (le_refl _) h
  exact map_modifyNth_id t.data (fun n => { n with text := some s }) (fun n => rfl) i

theorem eraseETree_idxInv (t : ETree) (i : Nat) (ix : List (Nat × Nat)) (h : idxInv t) :
    idxInv { t with data := eraseAt i t.data, index := ix } := by
  obtain ⟨hnd, hbd⟩ := h
  have hsub : List.Sublist ((eraseAt i t.data).map ETreeNode.idx) (t.data.map ETreeNode.idx) :=
    List.Sublist.map _ (eraseAt_sublist i t.data)
  exact ⟨hnd.sublist hsub, fun v hv => hbd v (hsub.mem hv)⟩

theorem commitNode_idxInv (t1 : ETree) (cell node : ETreeNode) (h : idxInv t1) :
    idxInv (t1.commitNode cell node).1 := by
  obtain ⟨hnd, hbd⟩ := h
  have hui := update_index_data { t1 with
    data := insAt cell.idx { node with idx := t1.count, tail := cell.tail, route := cell.route } t1.data,
    index := amInsert t1.index t1.count cell.idx } (cell.idx + 1)
  have hdata : (t1.commitNode cell node).1.data
      = insAt cell.idx { node with idx := t1.count, tail := cell.tail, route := cell.route }
          t1.data := hui.1
  have hcnt : (t1.commitNode cell node).1.count = t1.count + 1 :=
    congrArg (fun x => x + 1) hui.2
  constructor
  · rw [hdata, insAt_map]
    refine insAt_nodup _ _ _ ?_ hnd
    intro hm
    exact absurd (hbd _ hm) (by simp)
  · intro v hv
    rw [hcnt]
    rw [hdata, insAt_map] at hv
    rcases (insAt_mem _ _ _ _).1 hv with rfl | hv2
    · simp
    · exact Nat.lt_succ_of_lt (hbd v hv2)

theorem updateIndex_idxInv (t : ETree) (p : Nat) (h : idxInv t) : idxInv (t.update_index p) :=
  idxInv_shape t _ (by rw [(update_index_data t p).1])
    (le_of_eq (update_index_data t p).2.symm) h

theorem prepNextInherit_idxInv (t : ETree) (pos : Nat) (t1 : ETree)
    (h : prepNextInherit t pos = Except.ok t1) (hinv : idxInv t) : idxInv t1 := by
  unfold prepNextInherit at h
  split at h
  · injection h with h
    exact h ▸ setTailAt_idxInv t pos _ hinv
  · split at h
    · split at h
      · injection h with h
        exact h ▸ setTailAt_idxInv t pos _ hinv
      · exact absurd h (by simp)
    · injection h with h
      exact h ▸ hinv

theorem prepNext_idxInv (t : ETree) (pos : Nat) (t1 : ETree) (c : Option ETreeNode)
    (h : t.prepare_append_next pos = Except.ok (t1, c)) (hinv : idxInv t) : idxInv t1 := by
  unfold ETree.prepare_append_next at h
  split at h
  · injection h with h
    rw [Prod.mk.injEq] at h
    exact h.1 ▸ hinv
  · split at h
    · exact absurd h (by simp)
    · rename_i t1x hinh
      injection h with h
      rw [Prod.mk.injEq] at h
      exact h.1 ▸ prepNextInherit_idxInv t pos t1x hinh hinv

theorem prepPrev_idxInv (t : ETree) (pos : Nat) (t1 : ETree) (c : Option ETreeNode)
    (h : t.prepare_append_previous pos = Except.ok (t1, c)) (hinv : idxInv t) : idxInv t1 := by
  unfold ETree.prepare_append_previous at h
  split at h
  · injection h with h
    rw [Prod.mk.injEq] at h
    exact h.1 ▸ hinv
  · split at h
    · rename_i prev hprev
      exact prepNext_idxInv t prev t1 c h hinv
    · split at h
      · split at h
        · injection h with h
          rw [Prod.mk.injEq] at h
          exact h.1 ▸ hinv
        · exact absurd h (by simp)
      · injection h with h
        rw [Prod.mk.injEq] at h
        exact h.1 ▸ hinv

theorem prepChild_idxInv (t : ETree) (pos : Nat) (t1 : ETree) (c : Option ETreeNode)
    (h : t.prepare_append_child pos = Except.ok (t1, c)) (hinv : idxInv t) : idxInv t1 := by
  unfold ETree.prepare_append_child at h
  split at h
  · injection h with h
    rw [Prod.mk.injEq] at h
    exact h.1 ▸ hinv
  · have hifinv : ∀ s : Str, idxInv (if t.textAt pos = none then t.setTextAt pos s
        else if t.textAt pos = some [] then t.setTextAt pos s else t) := by
      intro s
      split
      · exact setTextAt_idxInv t pos s hinv
      · split
        · exact setTextAt_idxInv t pos s hinv
        · exact hinv
    split at h
    · split at h
      · injection h with h
        rw [Prod.mk.injEq] at h
        exact h.1 ▸ hifinv _
      · split at h
        · injection h with h
          rw [Prod.mk.injEq] at h
          exact h.1 ▸ hifinv _
        · injection h with h
          rw [Prod.mk.injEq] at h
          exact h.1 ▸ hifinv _
    · rename_i lastChild hlast
      split at h
      · injection h with h
        rw [Prod.mk.injEq] at h
        exact h.1 ▸ setTailAt_idxInv t lastChild _ hinv
      · split at h
        · injection h with h
          rw [Prod.mk.injEq] at h
          exact h.1 ▸ setTailAt_idxInv t lastChild _ hinv
        · exact absurd h (by simp)

theorem appendNextNode_idxInv (t : ETree) (pos : Nat) (node : ETreeNode)
    (t2 : ETree) (r : Option Nat)
    (h : t.append_next_node pos node = Except.ok (t2, r)) (hinv : idxInv t) : idxInv t2 := by
  unfold ETree.append_next_node at h
  split at h
  · exact absurd h (by simp)
  · rename_i t1 hprep
    injection h with h
    rw [Prod.mk.injEq] at h
    exact h.1 ▸ prepNext_idxInv t pos t1 none hprep hinv
  · rename_i t1 cell hprep
    injection h with h
    have ht2 : t2 = (t1.commitNode cell node).1 := congrArg Prod.fst h.symm
    exact ht2 ▸ commitNode_idxInv t1 cell node (prepNext_idxInv t pos t1 (some cell) hprep hinv)

theorem appendPrevNode_idxInv (t : ETree) (pos : Nat) (node : ETreeNode)
    (t2 : ETree) (r : Option Nat)
    (h : t.append_previous_node pos node = Except.ok (t2, r)) (hinv : idxInv t) : idxInv t2 := by
  unfold ETree.append_previous_node at h
  split at h
  · exact absurd h (by simp)
  · rename_i t1 hprep
    injection h with h
    rw [Prod.mk.injEq] at h
    exact h.1 ▸ prepPrev_idxInv t pos t1 none hprep hinv
  · rename_i t1 cell hprep
    injection h with h
    have ht2 : t2 = (t1.commitNode cell node).1 := congrArg Prod.fst h.symm
    exact ht2 ▸ commitNode_idxInv t1 cell node (prepPrev_idxInv t pos t1 (some cell) hprep hinv)

theorem appendChildNode_idxInv (t : ETree) (pos : Nat) (node : ETreeNode)
    (t2 : ETree) (r : Option Nat)
    (h : t.append_child_node pos node = Except.ok (t2, r)) (hinv : idxInv t) : idxInv t2 := by
  unfold ETree.append_child_node at h
  split at h
  · exact absurd h (by simp)
  · rename_i t1 hprep
    injection h with h
    rw [Prod.mk.injEq] at h
    exact h.1 ▸ prepChild_idxInv t pos t1 none hprep hinv
  · rename_i t1 cell hprep
    injection h with h
    have ht2 : t2 = (t1.commitNode cell node).1 := congrArg Prod.fst h.symm
    exact ht2 ▸ commitNode_idxInv t1 cell node (prepChild_idxInv t pos t1 (some cell) hprep hinv)

theorem eraseFold_idxInv (l : List Nat) : ∀ (acc : ETree), idxInv acc →
    idxInv (l.foldl (fun acc i => { acc with
      index := amRemove acc.index (acc.idxAt i),
      data := eraseAt i acc.data }) acc) := by
  induction l with
  | nil => intro acc h; exact h
  | cons x xs ih =>
    intro acc h
    rw [List.foldl_cons]
    exact ih _ (eraseETree_idxInv acc x _ h)

theorem remove_idxInv (t : ETree) (pos : Nat) (t' : ETree)
    (h : t.remove pos = Except.ok t') (hinv : idxInv t) : idxInv t' := by
  unfold ETree.remove at h
  have hfin : ∀ t1 : ETree, idxInv t1 →
      (let offspring := t1.descendant pos
       let t2 := offspring.reverse.foldl
         (fun acc i => { acc with
           index := amRemove acc.index (acc.idxAt i),
           data := eraseAt i acc.data }) t1
       match t2.data.get? pos with
       | none => Except.error "panic"
       | some nd =>
         Except.ok (({ t2 with
           index := amRemove t2.index nd.idx,
           data := eraseAt pos t2.data }).update_index pos)) = Except.ok t' →
      idxInv t' := by
    intro t1 hi1 hbody
    have h2 := eraseFold_idxInv (t1.descendant pos).reverse t1 hi1
    simp only [] at hbody
    cases hx : ((t1.descendant pos).reverse.foldl (fun acc i => { acc with
        index := amRemove acc.index (acc.idxAt i),
        data := eraseAt i acc.data }) t1).data.get? pos with
    | none =>
      rw [hx] at hbody
      exact absurd hbody (by simp)
    | some nd =>
      rw [hx] at hbody
      simp only [] at hbody
      injection hbody with hbody
      rw [← hbody]
      exact updateIndex_idxInv _ pos (eraseETree_idxInv _ pos _ h2)
  split at h
  · rename_i q0 hp
    exact hfin _ (setTailAt_idxInv t q0 _ hinv) h
  · split at h
    · exact hfin t hinv h
    · split at h
      · rename_i par hpar
        split at h
        · rename_i txt htxt
          split at h
          · exact hfin _ (setTextAt_idxInv t par _ hinv) h
          · exact hfin t hinv h
        · exact absurd h (by simp)
      · exact hfin t hinv h

theorem set_attr_idx (n : ETreeNode) (k v : Str) : ((n.set_attr k v).1).idx = n.idx := by
  unfold ETreeNode.set_attr
  split <;> rfl

theorem setAttrFold_idx (attrs : List (Str × Str)) : ∀ n : ETreeNode,
    (setAttrFold n attrs).idx = n.idx := by
  induction attrs with
  | nil => intro n; rfl
  | cons kv rest ih =>
    intro n
    calc (setAttrFold n (kv :: rest)).idx
        = (setAttrFold ((n.set_attr kv.1 kv.2).1) rest).idx := rfl
      _ = ((n.set_attr kv.1 kv.2).1).idx := ih _
      _ = n.idx := set_attr_idx n kv.1 kv.2

theorem snoc_nodup (l : List Nat) (a : Nat) (h : l.Nodup) (ha : a ∉ l) :
    (l ++ [a]).Nodup := by
  rw [List.nodup_append]
  refine ⟨h, List.nodup_singleton a, ?_⟩
  intro x hx hxa
  rw [List.mem_singleton] at hxa
  exact ha (hxa ▸ hx)

theorem appendCell_idxInv (t : ETree) (n : ETreeNode) (hn : n.idx = t.count) (h : idxInv t) :
    idxInv { t with data := t.data ++ [n], count := t.count + 1 } := by
  obtain ⟨hnd, hbd⟩ := h
  constructor
  · simp only [List.map_append, List.map_cons, List.map_nil]
    refine snoc_nodup _ _ hnd ?_
    rw [hn]
    intro hm
    exact absurd (hbd _ hm) (lt_irrefl _)
  · intro v hv
    simp only [List.map_append, List.map_cons, List.map_nil, List.mem_append,
      List.mem_singleton] at hv
    rcases hv with hv | rfl
    · exact Nat.lt_succ_of_lt (hbd v hv)
    · show n.idx < t.count + 1
      rw [hn]
      omega

theorem readStep_idxInv (st : PSt) (ev : XEv) (h : idxInv st.tree) :
    idxInv (readStep st ev).tree := by
  cases ev with
  | start ns name attrs =>
    refine appendCell_idxInv _ _ ?_ h
    rw [setAttrFold_idx]
  | endTag name =>
    show idxInv (match splitRouteLast st.route with
      | some p => { st with status := 2, route := p.1, closeidx := charsVal p.2 }
      | none => { st with status := 2 }).tree
    split <;> exact h
  | empty ns name attrs =>
    refine appendCell_idxInv _ _ ?_ h
    rw [setAttrFold_idx]
  | text s =>
    show idxInv (if st.status = 1 then { st with tree := st.tree.setTextAt (st.tree.count - 1) s }
      else if st.status = 2 then { st with tree := st.tree.setTailAt st.closeidx s } else st).tree
    split
    · exact setTextAt_idxInv _ _ _ h
    · split
      · exact setTailAt_idxInv _ _ _ h
      · exact h
  | comment s => exact appendCell_idxInv _ _ rfl h
  | cdata s => exact appendCell_idxInv _ _ rfl h
  | pi s => exact appendCell_idxInv _ _ rfl h
  | doctype s => exact appendCell_idxInv _ _ rfl h
  | decl v e sa =>
    exact idxInv_shape st.tree _ rfl (le_refl _) h

theorem readEvents_idxInv (evs : List XEv) : ∀ st : PSt, idxInv st.tree →
    idxInv (readEvents evs st).tree := by
  induction evs with
  | nil => intro st h; exact h
  | cons e rest ih =>
    intro st h
    exact ih (readStep st e) (readStep_idxInv st e h)

theorem detectIndent_shape (t t' : ETree) (h : detectIndent t = Except.ok t') :
    t'.data = t.data ∧ t'.count = t.count := by
  unfold detectIndent at h
  simp only [] at h
  split at h
  · split at h
    · injection h with h
      exact ⟨by rw [← h], by rw [← h]⟩
    · injection h with h
      exact ⟨by rw [← h], by rw [← h]⟩
  · split at h
    · split at h
      · split at h
        · injection h with h
          exact ⟨by rw [← h], by rw [← h]⟩
        · injection h with h
          exact ⟨by rw [← h], by rw [← h]⟩
      · exact absurd h (by simp)
    · injection h with h
      exact ⟨by rw [← h], by rw [← h]⟩

theorem parse_idxInv (crlf : Str) (evs : List XEv) (t : ETree)
    (h : parseEvents crlf evs = Except.ok t) : idxInv t := by
  unfold parseEvents at h
  have h0 : idxInv (readEvents evs (pInit crlf)).tree :=
    readEvents_idxInv evs (pInit crlf) ⟨List.Pairwise.nil, by simp [pInit]⟩
  obtain ⟨hd, hc⟩ := detectIndent_shape _ _ h
  exact idxInv_shape _ _ (by rw [hd]) (le_of_eq hc.symm) h0

theorem subtree_reindex_empty (t : ETree) (c : Nat) (h : t.data = []) :
    t.subtree_reindex c = (t, 0, 0) := by
  unfold ETree.subtree_reindex
  rw [h]

theorem reindexProto_empty (t : ETree) (c : Nat) (h : t.data = []) :
    (reindexProto t c).1.data = [] := by
  unfold reindexProto
  simp only [show ∀ cc, t.subtree_reindex cc = (t, 0, 0) from
    fun cc => subtree_reindex_empty t cc h]
  split <;> exact h

theorem subtree_reindex_shift (tree : ETree) (c : Nat) (first : ETreeNode)
    (rest : List ETreeNode) (hfr : tree.data = first :: rest)
    (hcond : c + tree.data.length ≤ (tree.data.map ETreeNode.idx).foldl Nat.min first.idx
      ∨ c > (tree.data.map ETreeNode.idx).foldl Nat.max first.idx) :
    tree.subtree_reindex c
      = ({ tree with data := reindexGo tree.data.length tree.data 0 c },
         c, c + tree.data.length) := by
  unfold ETree.subtree_reindex
  rw [hfr] at hcond ⊢
  simp only []
  rw [if_pos hcond]

theorem subtree_reindex_stay (tree : ETree) (c : Nat) (first : ETreeNode)
    (rest : List ETreeNode) (hfr : tree.data = first :: rest)
    (hcond : ¬(c + tree.data.length ≤ (tree.data.map ETreeNode.idx).foldl Nat.min first.idx
      ∨ c > (tree.data.map ETreeNode.idx).foldl Nat.max first.idx)) :
    tree.subtree_reindex c
      = (tree, (tree.data.map ETreeNode.idx).foldl Nat.max first.idx + tree.data.length + 1,
         (tree.data.map ETreeNode.idx).foldl Nat.max first.idx + tree.data.length * 2 + 1) := by
  unfold ETree.subtree_reindex
  rw [hfr] at hcond ⊢
  simp only []
  rw [if_neg hcond]

theorem reindexProto_spec (tree : ETree) (c : Nat) (hne : tree.data ≠ []) :
    (reindexProto tree c).1.data.map ETreeNode.idx = List.range' c tree.data.length ∧
    (reindexProto tree c).2 = c + tree.data.length := by
  obtain ⟨first, rest, hfr⟩ := List.exists_cons_of_ne_nil hne
  by_cases hcond : c + tree.data.length ≤ (tree.data.map ETreeNode.idx).foldl Nat.min first.idx
      ∨ c > (tree.data.map ETreeNode.idx).foldl Nat.max first.idx
  · unfold reindexProto
    rw [subtree_reindex_shift tree c first rest hfr hcond]
    simp only [if_true]
    exact ⟨reindexGo_full _ _ _ rfl, trivial⟩
  · have hcle : c ≤ (tree.data.map ETreeNode.idx).foldl Nat.max first.idx := by
      rcases not_or.1 hcond with ⟨h1, h2⟩
      omega
    unfold reindexProto
    rw [subtree_reindex_stay tree c first rest hfr hcond]
    simp only []
    set M := (tree.data.map ETreeNode.idx).foldl Nat.max first.idx with hM
    set L := tree.data.length with hL
    have hlt : c < M + L + 1 := Nat.lt_succ_of_le (le_trans hcle (Nat.le_add_right M L))
    have hne2 : ¬(M + L + 1 = c) := fun heq => absurd (heq ▸ hlt) (lt_irrefl _)
    rw [if_neg hne2]
    have hr2 := subtree_reindex_shift tree (M + L + 1) first rest hfr (Or.inr (by omega))
    rw [hr2]
    simp only []
    set tr2 : ETree := { tree with data := reindexGo L tree.data 0 (M + L + 1) } with htr2
    have hlen2 : tr2.data.length = L := by
      show (reindexGo L tree.data 0 (M + L + 1)).length = L
      rw [reindexGo_length]
    have hmap2 : tr2.data.map ETreeNode.idx = List.range' (M + L + 1) L :=
      reindexGo_full L tree.data (M + L + 1) rfl
    have hLpos : 0 < L := by
      rw [hL, hfr]
      simp
    obtain ⟨f2, r2, hd2⟩ := List.exists_cons_of_ne_nil
      (show tr2.data ≠ [] from fun hx => by
        rw [hx, List.length_nil] at hlen2
        omega)
    have hf2 : f2.idx = M + L + 1 := by
      rw [hd2] at hmap2
      have : L = (L - 1) + 1 := by omega
      rw [this, List.range'_succ] at hmap2
      injection hmap2 with h1 _
      omega
    have hmin2 : (tr2.data.map ETreeNode.idx).foldl Nat.min f2.idx = M + L + 1 := by
      rw [hmap2, hf2]
      refine foldl_min_of_le _ _ ?_
      intro x hx
      rw [List.mem_range'_1] at hx
      omega
    have hcond3 : c + tr2.data.length ≤ (tr2.data.map ETreeNode.idx).foldl Nat.min f2.idx
        ∨ c > (tr2.data.map ETreeNode.idx).foldl Nat.max f2.idx := by
      left
      rw [hmin2, hlen2]
      omega
    rw [subtree_reindex_shift tr2 c f2 r2 hd2 hcond3]
    simp only []
    rw [hlen2]
    constructor
    · have := reindexGo_full L tr2.data c hlen2
      exact this
    · rfl

theorem graftFold_inv (B ci : Nat) : ∀ (ps : List (ETreeNode × Nat)) (acc : ETree),
    (acc.data.map ETreeNode.idx).Nodup →
    (∀ v ∈ acc.data.map ETreeNode.idx, v < B) →
    (ps.map (fun p => p.1.idx)).Nodup →
    (∀ p ∈ ps, p.1.idx < B) →
    (∀ v ∈ acc.data.map ETreeNode.idx, ∀ p ∈ ps, v ≠ p.1.idx) →
    (((ps.foldl (fun acc p => { acc with
        data := insAt (ci + p.2) p.1 acc.data,
        index := amInsert acc.index p.1.idx (ci + p.2) }) acc).data.map ETreeNode.idx).Nodup ∧
      (∀ v ∈ (ps.foldl (fun acc p => { acc with
        data := insAt (ci + p.2) p.1 acc.data,
        index := amInsert acc.index p.1.idx (ci + p.2) }) acc).data.map ETreeNode.idx, v < B) ∧
      (ps.foldl (fun acc p => { acc with
        data := insAt (ci + p.2) p.1 acc.data,
        index := amInsert acc.index p.1.idx (ci + p.2) }) acc).count = acc.count) := by
  intro ps
  induction ps with
  | nil =>
    intro acc h1 h2 _ _ _
    exact ⟨h1, h2, rfl⟩
  | cons p ps' ih =>
    intro acc h1 h2 h3 h4 h5
    rw [List.foldl_cons]
    have hmem : ∀ v ∈ (insAt (ci + p.2) p.1 acc.data).map ETreeNode.idx,
        v = p.1.idx ∨ v ∈ acc.data.map ETreeNode.idx := by
      intro v hv
      rw [insAt_map] at hv
      exact (insAt_mem _ _ _ _).1 hv
    have h3' : (ps'.map (fun p => p.1.idx)).Nodup := (List.nodup_cons.1 h3).2
    have hph : p.1.idx ∉ ps'.map (fun p => p.1.idx) := (List.nodup_cons.1 h3).1
    obtain ⟨ha, hb, hc⟩ := ih { acc with
        data := insAt (ci + p.2) p.1 acc.data,
        index := amInsert acc.index p.1.idx (ci + p.2) }
      (by
        show ((insAt (ci + p.2) p.1 acc.data).map ETreeNode.idx).Nodup
        rw [insAt_map]
        refine insAt_nodup _ _ _ ?_ h1
        intro hm
        exact (h5 _ hm p (List.mem_cons_self _ _)) rfl)
      (by
        intro v hv
        rcases hmem v hv with rfl | hv2
        · exact h4 p (List.mem_cons_self _ _)
        · exact h2 v hv2)
      h3'
      (fun q hq => h4 q (List.mem_cons_of_mem _ hq))
      (by
        intro v hv q hq
        rcases hmem v hv with rfl | hv2
        · intro hctr
          exact hph (hctr ▸ List.mem_map_of_mem (fun p => p.1.idx) hq)
        · exact h5 v hv2 q (List.mem_cons_of_mem _ hq))
    exact ⟨ha, hb, by rw [hc]⟩

theorem graftCommit_idxInv (t : ETree) (cell : ETreeNode) (tree : ETree)
    (t2 : ETree) (r : Option Nat)
    (h : t.graftCommit cell tree = Except.ok (t2, r)) (hinv : idxInv t) : idxInv t2 := by
  by_cases hne : tree.data = []
  · exfalso
    have hempty := reindexProto_empty tree t.count hne
    unfold ETree.graftCommit at h
    simp only [] at h
    rw [hempty] at h
    exact absurd h (by simp)
  · obtain ⟨hmap, hcnt⟩ := reindexProto_spec tree t.count hne
    unfold ETree.graftCommit at h
    simp only [] at h
    have hlenmap : (reindexProto tree t.count).1.data.length = tree.data.length := by
      have := congrArg List.length hmap
      rw [List.length_map, List.length_range'] at this
      exact this
    have hLpos : 0 < tree.data.length := by
      cases hx : tree.data with
      | nil => exact absurd hx hne
      | cons a l => simp [hx]
    obtain ⟨f1, r1, hd1⟩ := List.exists_cons_of_ne_nil
      (show (reindexProto tree t.count).1.data ≠ [] from fun hx => by
        rw [hx, List.length_nil] at hlenmap
        omega)
    rw [hd1] at h
    simp only [] at h
    injection h with h
    rw [Prod.mk.injEq] at h
    rw [← h.1]
    set nodes := (({ f1 with tail := cell.tail } :: r1).map
      (fun n => { n with route := cell.route ++ n.route.drop 1 })) with hnodes
    have hnodesmap : nodes.map ETreeNode.idx = List.range' t.count tree.data.length := by
      rw [hnodes, map_idx_map_route]
      rw [hd1] at hmap
      exact hmap
    have hnodeslen : nodes.length = tree.data.length := by
      have := congrArg List.length hnodesmap
      rw [List.length_map, List.length_range'] at this
      exact this
    set ps := nodes.zip (List.range nodes.length) with hps
    have hpsmap : ps.map (fun p => p.1.idx) = List.range' t.count tree.data.length := by
      rw [hps]
      have hfst : (nodes.zip (List.range nodes.length)).map Prod.fst = nodes :=
        List.map_fst_zip _ _ (by rw [List.length_range])
      calc (nodes.zip (List.range nodes.length)).map (fun p => p.1.idx)
          = ((nodes.zip (List.range nodes.length)).map Prod.fst).map ETreeNode.idx := by
            rw [List.map_map]
            rfl
        _ = nodes.map ETreeNode.idx := by rw [hfst]
        _ = List.range' t.count tree.data.length := hnodesmap
    have hmemps : ∀ p ∈ ps, p.1.idx ∈ List.range' t.count tree.data.length := by
      intro p hp
      rw [← hpsmap]
      exact List.mem_map_of_mem (fun p => p.1.idx) hp
    obtain ⟨ha, hb, hc⟩ := graftFold_inv (t.count + tree.data.length) cell.idx ps
      { t with count := (reindexProto tree t.count).2 }
      hinv.1
      (fun v hv => lt_of_lt_of_le (hinv.2 v hv) (Nat.le_add_right _ _))
      (by rw [hpsmap]; exact List.nodup_range' ..)
      (by
        intro p hp
        have := hmemps p hp
        rw [List.mem_range'_1] at this
        omega)
      (by
        intro v hv p hp
        have h2 := hmemps p hp
        rw [List.mem_range'_1] at h2
        have h3 := hinv.2 v hv
        omega)
    refine updateIndex_idxInv _ _ ⟨ha, ?_⟩
    intro v hv
    exact lt_of_lt_of_le (hb v hv) (le_of_eq (by rw [hc]; exact hcnt.symm))

theorem appendNextTree_idxInv (t : ETree) (pos : Nat) (tree : ETree)
    (t2 : ETree) (r : Option Nat)
    (h : t.append_next_tree pos tree = Except.ok (t2, r)) (hinv : idxInv t) : idxInv t2 := by
  unfold ETree.append_next_tree at h
  split at h
  · exact absurd h (by simp)
  · rename_i t1 hprep
    injection h with h
    rw [Prod.mk.injEq] at h
    exact h.1 ▸ prepNext_idxInv t pos t1 none hprep hinv
  · rename_i t1 cell hprep
    exact graftCommit_idxInv t1 cell tree t2 r h (prepNext_idxInv t pos t1 (some cell) hprep hinv)

theorem appendPrevTree_idxInv (t : ETree) (pos : Nat) (tree : ETree)
    (t2 : ETree) (r : Option Nat)
    (h : t.append_previous_tree pos tree = Except.ok (t2, r)) (hinv : idxInv t) : idxInv t2 := by
  unfold ETree.append_previous_tree at h
  split at h
  · exact absurd h (by simp)
  · rename_i t1 hprep
    injection h with h
    rw [Prod.mk.injEq] at h
    exact h.1 ▸ prepPrev_idxInv t pos t1 none hprep hinv
  · rename_i t1 cell hprep
    exact graftCommit_idxInv t1 cell tree t2 r h (prepPrev_idxInv t pos t1 (some cell) hprep hinv)

theorem appendChildTree_idxInv (t : ETree) (pos : Nat) (tree : ETree)
    (t2 : ETree) (r : Option Nat)
    (h : t.append_child_tree pos tree = Except.ok (t2, r)) (hinv : idxInv t) : idxInv t2 := by
  unfold ETree.append_child_tree at h
  split at h
  · exact absurd h (by simp)
  · rename_i t1 hprep
    injection h with h
    rw [Prod.mk.injEq] at h
    exact h.1 ▸ prepChild_idxInv t pos t1 none hprep hinv
  · rename_i t1 cell hprep
    exact graftCommit_idxInv t1 cell tree t2 r h (prepChild_idxInv t pos t1 (some cell) hprep hinv)

/-- C5: the identity-distinctness invariant `idxInv` — all `idx` fields
pairwise distinct and below the allocation counter — holds for every tree
produced by parsing, and is preserved by every mutation: the three
single-node insertions, removal, and the three whole-subtree graftings
(whose `subtree_reindex` protocol renumbers the incoming identities to the
range `[count, count + n)`, directly or via a disjoint high range). -/
theorem c5_identity_distinct (t tree : ETree) (pos : Nat) (node : ETreeNode)
    (crlf : Str) (evs : List XEv) (hinv : idxInv t) :
    (∀ t0, parseEvents crlf evs = Except.ok t0 → idxInv t0) ∧
    (∀ t2 r, t.append_next_node pos node = Except.ok (t2, r) → idxInv t2) ∧
    (∀ t2 r, t.append_previous_node pos node = Except.ok (t2, r) → idxInv t2) ∧
    (∀ t2 r, t.append_child_node pos node = Except.ok (t2, r) → idxInv t2) ∧
    (∀ t', t.remove pos = Except.ok t' → idxInv t') ∧
    (∀ t2 r, t.append_next_tree pos tree = Except.ok (t2, r) → idxInv t2) ∧
    (∀ t2 r, t.append_previous_tree pos tree = Except.ok (t2, r) → idxInv t2) ∧
    (∀ t2 r, t.append_child_tree pos tree = Except.ok (t2, r) → idxInv t2) :=
  ⟨fun t0 h => parse_idxInv crlf evs t0 h,
   fun t2 r h => appendNextNode_idxInv t pos node t2 r h hinv,
   fun t2 r h => appendPrevNode_idxInv t pos node t2 r h hinv,
   fun t2 r h => appendChildNode_idxInv t pos node t2 r h hinv,
   fun t' h => remove_idxInv t pos t' h hinv,
   fun t2 r h => appendNextTree_idxInv t pos tree t2 r h hinv,
   fun t2 r h => appendPrevTree_idxInv t pos tree t2 r h hinv,
   fun t2 r h => appendChildTree_idxInv t pos tree t2 r h hinv⟩

theorem c5_identity_distinct_witness :
    ((∀ t0, parseEvents [nlC] docCC = Except.ok t0 → idxInv t0) ∧
     (∀ t2 r, (okT (parseEvents [nlC] docCC)).append_next_node 1
        (ETreeNode.new ['d']) = Except.ok (t2, r) → idxInv t2) ∧
     (∀ t2 r, (okT (parseEvents [nlC] docCC)).append_previous_node 1
        (ETreeNode.new ['d']) = Except.ok (t2, r) → idxInv t2) ∧
     (∀ t2 r, (okT (parseEvents [nlC] docCC)).append_child_node 1
        (ETreeNode.new ['d']) = Except.ok (t2, r) → idxInv t2) ∧
     (∀ t', (okT (parseEvents [nlC] docCC)).remove 1 = Except.ok t' → idxInv t') ∧
     (∀ t2 r, (okT (parseEvents [nlC] docCC)).append_next_tree 1
        (okT (parseEvents [nlC] docAX)) = Except.ok (t2, r) → idxInv t2) ∧
     (∀ t2 r, (okT (parseEvents [nlC] docCC)).append_previous_tree 1
        (okT (parseEvents [nlC] docAX)) = Except.ok (t2, r) → idxInv t2) ∧
     (∀ t2 r, (okT (parseEvents [nlC] docCC)).append_child_tree 1
        (okT (parseEvents [nlC] docAX)) = Except.ok (t2, r) → idxInv t2)) :=
  c5_identity_distinct (okT (parseEvents [nlC] docCC)) (okT (parseEvents [nlC] docAX))
    1 (ETreeNode.new ['d']) [nlC] docCC (by decide)

/-! ## XPath engine (XPathIterator) -/

/-- Word characters of the regex `\b` boundary (ASCII fragment). -/
def isWordChar (c : Char) : Bool := c.isAlphanum || c = '_'

/-- `Regex::replace_all` for a pattern `\bw\b` with `w` made of word
characters: replace every occurrence of `w` delimited by word boundaries,
scanning the original text left to right.  `prev` is the character right
before the current suffix. -/
def replaceWordAux : Nat → Str → Str → Option Char → Str → Str
  | 0, _, _, _, l => l
  | fuel+1, w, rep, prev, l =>
    match l with
    | [] => []
    | c :: cs =>
      if w.isPrefixOf (c :: cs)
          && (match prev with | none => true | some pc => !isWordChar pc)
          && (match (c :: cs).drop w.length with
              | [] => true
              | nc :: _ => !isWordChar nc) then
        rep ++ replaceWordAux fuel w rep w.getLast? ((c :: cs).drop w.length)
      else
        c :: replaceWordAux fuel w rep (some c) cs

def replaceWord (w rep l : Str) : Str := replaceWordAux (l.length + 1) w rep none l

/-- `\s*=` right after a capture: skip whitespace, then a literal `=`.
Returns the suffix after the `=`. -/
def eatSpacesEq (l : Str) : Option Str :=
  match l.dropWhile Char.isWhitespace with
  | '=' :: r => some r
  | _ => none

/-- Lazy `\S+?` followed by a tail pattern: the shortest nonempty
whitespace-free prefix whose remainder matches `tailTest`.  Returns the
prefix, the extra text consumed by the tail pattern that belongs to the
capture, and the suffix after the whole match. -/
def lazyScan (tailTest : Str → Option (Str × Str)) : Str → Option (Str × Str × Str)
  | [] => none
  | c :: cs =>
    if c.isWhitespace then none
    else
      match tailTest cs with
      | some pr => some ([c], pr.1, pr.2)
      | none => (lazyScan tailTest cs).map (fun pr => (c :: pr.1, pr.2.1, pr.2.2))

/-- Tail of the `attr`/`tag` alternatives: nothing more belongs to the
capture, the match just needs `\s*=` to follow. -/
def tailEq (l : Str) : Option (Str × Str) := (eatSpacesEq l).map (fun r => ([], r))

/-- Tail of the `func` alternative: `\s*\(\s*\)` (kept in the capture)
followed by `\s*=`. -/
def tailFunc (l : Str) : Option (Str × Str) :=
  let sp1 := l.takeWhile Char.isWhitespace
  match l.drop sp1.length with
  | '(' :: r2 =>
    let sp2 := r2.takeWhile Char.isWhitespace
    match r2.drop sp2.length with
    | ')' :: r4 =>
      (eatSpacesEq r4).map (fun r5 => (sp1 ++ '(' :: (sp2 ++ [')']), r5))
    | _ => none
  | _ => none

/-- The `attr` alternative `@\S+?` (capture includes the `@`). -/
def matchAttr (s : Str) : Option (Str × Str) :=
  match s with
  | '@' :: cs => (lazyScan tailEq cs).map (fun pr => ('@' :: pr.1, pr.2.2))
  | _ => none

/-- The `func` alternative `\S+?\s*\(\s*\)`. -/
def matchFunc (s : Str) : Option (Str × Str) :=
  (lazyScan tailFunc s).map (fun pr => (pr.1 ++ pr.2.1, pr.2.2))

/-- The `tag` alternative `\S+?`. -/
def matchTag (s : Str) : Option (Str × Str) :=
  (lazyScan tailEq s).map (fun pr => (pr.1, pr.2.2))

/-- `captures_iter` for
`((?P<attr>@\S+?)|(?P<func>\S+?\s*\(\s*\))|(?P<tag>\S+?))\s*=`:
non-overlapping leftmost matches, alternatives tried in order at each
start position.  Yields `(kind, capture)` with kind 0/1/2 for
attr/func/tag. -/
def capturesAux : Nat → Str → List (Nat × Str)
  | 0, _ => []
  | fuel+1, s =>
    match s with
    | [] => []
    | _ :: cs =>
      match matchAttr s with
      | some pr => (0, pr.1) :: capturesAux fuel pr.2
      | none =>
        match matchFunc s with
        | some pr => (1, pr.1) :: capturesAux fuel pr.2
        | none =>
          match matchTag s with
          | some pr => (2, pr.1) :: capturesAux fuel pr.2
          | none => capturesAux fuel cs

def captures (s : Str) : List (Nat × Str) := capturesAux (s.length + 1) s

/-- `if !params.contains(&x) { params.push(x); }` -/
def dedupAdd (l : List Str) (x : Str) : List Str := if x ∈ l then l else l ++ [x]

/-- Split the captures into the attr/func/tag parameter lists, each
deduplicated in first-seen order. -/
def splitParams (cs : List (Nat × Str)) : List Str × List Str × List Str :=
  cs.foldl (fun acc kc =>
    if kc.1 = 0 then (dedupAdd acc.1 kc.2, acc.2.1, acc.2.2)
    else if kc.1 = 1 then (acc.1, dedupAdd acc.2.1 kc.2, acc.2.2)
    else (acc.1, acc.2.1, dedupAdd acc.2.2 kc.2)) ([], [], [])

/-- First index `i` of `[` usable by the lazy `^(.+?)(?:\[(.+?)\])?$`
decomposition: the tag before it is nonempty (`1 ≤ i`) and the predicate
between it and the final `]` is nonempty (`i + 3 ≤ len`). -/
def brIdxAux (len : Nat) : Str → Nat → Option Nat
  | [], _ => none
  | c :: cs, i =>
    if c = '[' && decide (1 ≤ i) && decide (i + 3 ≤ len) then some i
    else brIdxAux len cs (i + 1)

/-- The regex `^(.+?)(?:\[(.+?)\])?$` on the tag part: when the text ends
in `]` and a usable `[` exists, the lazy group splits at the first such
`[`; otherwise the whole text is the tag and there is no predicate. -/
def splitTagPred (m2 : Str) : Str × Option Str :=
  if m2.getLast? = some ']' then
    match brIdxAux m2.length m2 0 with
    | some i => (m2.take i, some ((m2.drop (i + 1)).take (m2.length - 1 - (i + 1))))
    | none => (m2, none)
  else (m2, none)

/-- Cartesian product of the per-tag child candidate lists, rightmost
index varying fastest, as the odometer loop enumerates them. -/
def cartProd : List (List Nat) → List (List Nat)
  | [] => [[]]
  | l :: ls => (l.map (fun x => (cartProd ls).map (fun ys => x :: ys))).flatten

/-- Modelled from the spec: values produced by the external `eval` crate
for rewritten predicates — booleans, quoted strings and non-negative
integers. -/
inductive EV where
  | vBool (b : Bool)
  | vStr (s : Str)
  | vNum (n : Nat)
deriving DecidableEq, Repr

/-- Modelled from the spec: token stream of the predicate evaluator.
Anything outside quoted strings, integers, comparison and logical
operators and parentheses — in particular a leftover identifier or
function call such as `last()` — makes evaluation fail. -/
inductive ETok where
  | str (s : Str)
  | num (n : Nat)
  | andop
  | orop
  | eqop
  | neop
  | ltop
  | gtop
  | leop
  | geop
  | lparen
  | rparen
deriving DecidableEq, Repr

/-- Modelled from the spec: tokenizer of the predicate evaluator. -/
def tokenizeAux : Nat → Str → Option (List ETok)
  | 0, _ => none
  | _+1, [] => some []
  | fuel+1, c :: cs =>
    if c.isWhitespace then tokenizeAux fuel cs
    else if c = quoteC then
      let sp := cs.takeWhile (fun x => x ≠ quoteC)
      match cs.drop sp.length with
      | q :: r => if q = quoteC then (tokenizeAux fuel r).map (ETok.str sp :: ·) else none
      | [] => none
    else if c.isDigit then
      let ds := (c :: cs).takeWhile Char.isDigit
      (tokenizeAux fuel ((c :: cs).drop ds.length)).map (ETok.num (charsVal ds) :: ·)
    else if c = '&' then
      match cs with
      | '&' :: r => (tokenizeAux fuel r).map (ETok.andop :: ·)
      | _ => none
    else if c = '|' then
      match cs with
      | '|' :: r => (tokenizeAux fuel r).map (ETok.orop :: ·)
      | _ => none
    else if c = '=' then
      match cs with
      | '=' :: r => (tokenizeAux fuel r).map (ETok.eqop :: ·)
      | _ => none
    else if c = '!' then
      match cs with
      | '=' :: r => (tokenizeAux fuel r).map (ETok.neop :: ·)
      | _ => none
    else if c = '<' then
      match cs with
      | '=' :: r => (tokenizeAux fuel r).map (ETok.leop :: ·)
      | _ => (tokenizeAux fuel cs).map (ETok.ltop :: ·)
    else if c = '>' then
      match cs with
      | '=' :: r => (tokenizeAux fuel r).map (ETok.geop :: ·)
      | _ => (tokenizeAux fuel cs).map (ETok.gtop :: ·)
    else if c = '(' then (tokenizeAux fuel cs).map (ETok.lparen :: ·)
    else if c = ')' then (tokenizeAux fuel cs).map (ETok.rparen :: ·)
    else none

def tokenize (s : Str) : Option (List ETok) := tokenizeAux (s.length + 1) s

def isCmpOp (t : ETok) : Bool :=
  t = ETok.eqop || t = ETok.neop || t = ETok.ltop || t = ETok.gtop
    || t = ETok.leop || t = ETok.geop

/-- Modelled from the spec: comparisons — equality on any two values of
the same shape, order only on integers. -/
def applyCmp (op : ETok) (a b : EV) : Option EV :=
  match op with
  | ETok.eqop => some (EV.vBool (a = b))
  | ETok.neop => some (EV.vBool (a ≠ b))
  | ETok.ltop =>
    match a, b with
    | EV.vNum x, EV.vNum y => some (EV.vBool (x < y))
    | _, _ => none
  | ETok.gtop =>
    match a, b with
    | EV.vNum x, EV.vNum y => some (EV.vBool (y < x))
    | _, _ => none
  | ETok.leop =>
    match a, b with
    | EV.vNum x, EV.vNum y => some (EV.vBool (x ≤ y))
    | _, _ => none
  | ETok.geop =>
    match a, b with
    | EV.vNum x, EV.vNum y => some (EV.vBool (y ≤ x))
    | _, _ => none
  | _ => none

def applyBool (f : Bool → Bool → Bool) (a b : EV) : Option EV :=
  match a, b with
  | EV.vBool x, EV.vBool y => some (EV.vBool (f x y))
  | _, _ => none

/-- Modelled from the spec: recursive-descent evaluation with `or` below
`and` below comparisons below atoms; level 0 is `||`, 1 is `&&`, 2 a
single optional comparison, 3 an atom or a parenthesized expression. -/
def pExpr : Nat → Nat → List ETok → Option (EV × List ETok)
  | 0, _, _ => none
  | fuel+1, lvl, toks =>
    if lvl ≥ 3 then
      match toks with
      | ETok.str s :: r => some (EV.vStr s, r)
      | ETok.num n :: r => some (EV.vNum n, r)
      | ETok.lparen :: r =>
        match pExpr fuel 0 r with
        | some (v, ETok.rparen :: r2) => some (v, r2)
        | _ => none
      | _ => none
    else if lvl = 2 then
      match pExpr fuel 3 toks with
      | some (v1, op :: r2) =>
        if isCmpOp op then
          match pExpr fuel 3 r2 with
          | some (v2, r3) => (applyCmp op v1 v2).map (fun v => (v, r3))
          | none => none
        else some (v1, op :: r2)
      | other => other
    else if lvl = 1 then
      match pExpr fuel 2 toks with
      | some (v1, ETok.andop :: r2) =>
        match pExpr fuel 1 r2 with
        | some (v2, r3) => (applyBool and v1 v2).map (fun v => (v, r3))
        | none => none
      | other => other
    else
      match pExpr fuel 1 toks with
      | some (v1, ETok.orop :: r2) =>
        match pExpr fuel 0 r2 with
        | some (v2, r3) => (applyBool or v1 v2).map (fun v => (v, r3))
        | none => none
      | other => other

/-- Modelled from the spec: `eval::eval` on a rewritten predicate; the
whole token stream must be consumed. -/
def evalExpr (s : Str) : Option EV :=
  match tokenize s with
  | none => none
  | some toks =>
    match pExpr (4 * toks.length + 8) 0 toks with
    | some (v, []) => some v
    | _ => none

/-- `format!("'{}'", v)` -/
def quoteWrap (s : Str) : Str := quoteC :: (s ++ [quoteC])

/-- `get_text().unwrap_or("".to_string())` -/
def textOrEmpty (t : ETree) (q : Nat) : Str := ((t.nodeAt q).text).getD []

/-- The attribute-substitution loop of `_find`: replace each `@name`
parameter by the quoted attribute value, failing as soon as one is
missing (the `found = false; break` path). -/
def attrSubst (t : ETree) (q : Nat) : List Str → Str → Option Str
  | [], e => some e
  | p :: rest, e =>
    match (t.nodeAt q).get_attr (p.drop 1) with
    | some v => attrSubst t q rest (replaceSub p (quoteWrap v) e)
    | none => none

/-- The function-substitution loop of `_find`: `text…` becomes the quoted
node text, `position…` the 1-based candidate index, `last…` the candidate
count; other captures are left alone. -/
def funcSubst (t : ETree) (q ipos clen : Nat) : List Str → Str → Str
  | [], e => e
  | p :: rest, e =>
    let e2 :=
      if ("text".toList).isPrefixOf p then replaceSub p (quoteWrap (textOrEmpty t q)) e
      else if ("position".toList).isPrefixOf p then replaceSub p (natChars ipos) e
      else if ("last".toList).isPrefixOf p then replaceSub p (natChars clen) e
      else e
    funcSubst t q ipos clen rest e2

/-- Substitute one combination of child choices for the child-tag
parameters (every occurrence of each tag string is replaced). -/
def tagSubstOne (t : ETree) (ptags : List Str) (comb : List Nat) (e : Str) : Str :=
  (ptags.zip comb).foldl (fun acc pr => replaceSub pr.1 (quoteWrap (textOrEmpty t pr.2)) acc) e

/-- The child-tag predicate block of `_find`: collect same-named children
per referenced tag, require one match for every tag, and accept when any
combination evaluates to true. -/
def tagCase (t : ETree) (q : Nat) (ptags : List Str) (e : Str) : Bool :=
  let subfound := ptags.map (fun tg => (t.children q).filter (fun s => (t.nodeAt s).get_name = tg))
  if subfound.all (fun l => decide (0 < l.length)) then
    (cartProd subfound).any
      (fun comb => decide (evalExpr (tagSubstOne t ptags comb e) = some (EV.vBool true)))
  else false

/-- The candidate loop of `_find` over the tag-filtered container: `i` is
the 0-based index, `clen` the container length; a missing attribute
aborts the whole loop (`break`), keeping only the matches found so far. -/
def loopCands (t : ETree) (e : Str) (pattrs pfuncs ptags : List Str) (clen : Nat) :
    Nat → List Nat → List Nat
  | _, [] => []
  | i, q :: rest =>
    match attrSubst t q pattrs e with
    | none => []
    | some e1 =>
      let e2 := funcSubst t q (i + 1) clen pfuncs e1
      let hit :=
        if ptags.isEmpty then decide (evalExpr e2 = some (EV.vBool true))
        else tagCase t q ptags e2
      (if hit then [q] else []) ++ loopCands t e pattrs pfuncs ptags clen (i + 1) rest

/-- The predicate rewriting of `_find`: word-bounded `and`/`or` become
`&&`/`||`, then `=` is doubled and the damaged `!==`/`>==`/`<==` are
repaired. -/
def buildExpr (pred : Str) : Str :=
  replaceSub ['<', '=', '='] ['<', '=']
    (replaceSub ['>', '=', '='] ['>', '=']
      (replaceSub ['!', '=', '='] ['!', '=']
        (replaceSub ['='] ['=', '=']
          (replaceWord ['o', 'r'] ['|', '|']
            (replaceWord ['a', 'n', 'd'] ['&', '&'] pred)))))

/-- `XPathIterator::_find`. -/
def findOne (t : ETree) (path : Str) (pos : Nat) : List Nat :=
  if path = ['/', '.'] then [pos]
  else if path = ['/', '.', '.'] then
    match t.parent pos with
    | some p => [p]
    | none => []
  else
    let m1 := path.takeWhile (fun c => c = '/')
    let m2 := path.dropWhile (fun c => c = '/')
    if m1 = [] || m2 = [] || m2.contains nlC then []
    else
      let container := if m1 = ['/', '/'] then t.descendant pos else t.children pos
      match m2 with
      | '@' :: attr =>
        if attr = ['*'] then container.filter (fun q => decide (0 < (t.nodeAt q).attr.length))
        else container.filter (fun q => ((t.nodeAt q).get_attr attr).isSome)
      | _ =>
        match splitTagPred m2 with
        | (tag, none) => container.filter (fun q => (t.nodeAt q).get_name = tag)
        | (tag, some pred) =>
          let cands := container.filter (fun q => (t.nodeAt q).get_name = tag)
          let e := buildExpr pred
          let ps := splitParams (captures e)
          loopCands t e ps.1 ps.2.1 ps.2.2 cands.length 0 cands

/-- State of the path-splitting scan in `XPathIterator::new`: the escape
flag, the quote stack, the bracket stack and the collected split
positions (most recent first). -/
structure SplitSt where
  escaped : Bool
  stack1 : List Char
  stack2 : List Char
  splits : List Nat
deriving DecidableEq, Repr

/-- One character of the splitting scan; indexing an empty bracket stack
on a stray `]` panics. -/
def splitStep (st : SplitSt) (ic : Nat × Char) : Except String SplitSt :=
  if st.escaped then Except.ok { st with escaped := false }
  else if ic.2 = '\\' then Except.ok { st with escaped := true }
  else if ic.2 = quoteC || ic.2 = '"' then
    match st.stack1 with
    | [] => Except.ok { st with stack1 := [ic.2] }
    | topc :: restq =>
      if topc = ic.2 then Except.ok { st with stack1 := restq }
      else Except.ok { st with stack1 := ic.2 :: topc :: restq }
  else if st.stack1 = [] then
    if ic.2 = '[' then Except.ok { st with stack2 := '[' :: st.stack2 }
    else if ic.2 = ']' then
      match st.stack2 with
      | [] => Except.error "panic"
      | topb :: restb =>
        if topb = '[' then Except.ok { st with stack2 := restb }
        else Except.ok { st with stack2 := ']' :: topb :: restb }
    else if ic.2 = '/' && st.stack2.isEmpty then
      match st.splits with
      | [] => Except.ok { st with splits := [ic.1] }
      | lastp :: restp =>
        if lastp + 1 < ic.1 then Except.ok { st with splits := ic.1 :: lastp :: restp }
        else Except.ok st
    else Except.ok st
  else Except.ok st

def splitFold : List (Nat × Char) → SplitSt → Except String SplitSt
  | [], st => Except.ok st
  | ic :: rest, st =>
    match splitStep st ic with
    | Except.error e => Except.error e
    | Except.ok st2 => splitFold rest st2

/-- Cut the path at the recorded split positions (`pos1` starts at 0). -/
def mkSegs (p : Str) : Nat → List Nat → List Str
  | pos1, [] => [p.drop pos1]
  | pos1, s :: rest => (p.drop pos1).take (s - pos1) :: mkSegs p s rest

/-- The head normalization of `XPathIterator::new`: a leading empty or
`.` segment is dropped, `/` kept, `..` becomes `/..`, and a bare element
name becomes `//name`. -/
def normHead : List Str → List Str
  | [] => []
  | h :: rest =>
    if h = [] || h = ['.'] then rest
    else if h = ['/'] then h :: rest
    else if h = ['.', '.'] then ['/', '.', '.'] :: rest
    else ('/' :: '/' :: h) :: rest

/-- The path preparation of `XPathIterator::new`: scan (with the two
end-of-scan asserts), split, normalize the head. -/
def xpathSplit (path : Str) : Except String (List Str) :=
  match splitFold path.enum { escaped := false, stack1 := [], stack2 := [], splits := [] } with
  | Except.error e => Except.error e
  | Except.ok st =>
    if st.stack1.isEmpty && st.stack2.isEmpty then
      Except.ok (normHead (mkSegs path 0 st.splits.reverse))
    else Except.error "panic"

/-- The forward iterator (`direction = true`) drained to a list: pop a
todo item, yield it when every path part is done, otherwise expand it
through `_find` and push the results so the first is processed next. -/
def drainAux (t : ETree) (paths : List Str) : Nat → List (Nat × Nat) → List Nat
  | 0, _ => []
  | _+1, [] => []
  | fuel+1, (p, step) :: rest =>
    if paths.length ≤ step then p :: drainAux t paths fuel rest
    else
      let res := findOne t ((paths.get? step).getD []) p
      drainAux t paths fuel (res.map (fun q => (q, step + 1)) ++ rest)

/-- `find_at_iter(path, pos)` collected into a list (the fuel far exceeds
any todo-list the trees in this development can produce). -/
def xfindAt (t : ETree) (path : Str) (pos : Nat) : Except String (List Nat) :=
  match xpathSplit path with
  | Except.error e => Except.error e
  | Except.ok paths => Except.ok (drainAux t paths 10000 [(pos, 0)])

/-- `find_iter(path)`: the search starts at the root node. -/
def xfindRoot (t : ETree) (path : Str) : Except String (List Nat) :=
  xfindAt t path t.root

/-- `<a><b/><b/></a>` -/
def docABB : List XEv :=
  [XEv.start none ['a'] [], XEv.empty none ['b'] [], XEv.empty none ['b'] [],
   XEv.endTag ['a']]

/-- `<r><b/><b x='2'/></r>` -/
def docRBBX : List XEv :=
  [XEv.start none ['r'] [], XEv.empty none ['b'] [],
   XEv.empty none ['b'] [(['x'], ['2'])], XEv.endTag ['r']]

/-- `<r><b x='2'/><b/></r>` -/
def docRBXB : List XEv :=
  [XEv.start none ['r'] [], XEv.empty none ['b'] [(['x'], ['2'])],
   XEv.empty none ['b'] [], XEv.endTag ['r']]

/-- `<r><a><c>1</c><d>2</d></a></r>` -/
def docRACD : List XEv :=
  [XEv.start none ['r'] [], XEv.start none ['a'] [],
   XEv.start none ['c'] [], XEv.text ['1'], XEv.endTag ['c'],
   XEv.start none ['d'] [], XEv.text ['2'], XEv.endTag ['d'],
   XEv.endTag ['a'], XEv.endTag ['r']]

def tABB : ETree := okT (parseEvents [nlC] docABB)

def tRBBX : ETree := okT (parseEvents [nlC] docRBBX)

def tRBXB : ETree := okT (parseEvents [nlC] docRBXB)

def tRACD : ETree := okT (parseEvents [nlC] docRACD)

def tCC : ETree := okT (parseEvents [nlC] docCC)

/-- `//b[2]` -/
def qB2 : Str := ['/', '/', 'b', '[', '2', ']']

/-- `//b[position()=last()]` -/
def qBPL : Str := "//b[position()=last()]".toList

/-- `//b` -/
def qBonly : Str := ['/', '/', 'b']

/-- `//b[@x='2']` -/
def qBX : Str := ['/', '/', 'b', '[', '@', 'x', '='] ++ [quoteC, '2', quoteC, ']']

/-- `//a[c='1' and c='2']` -/
def qCC : Str := ['/', '/', 'a', '[', 'c', '='] ++ [quoteC, '1', quoteC]
  ++ [' ', 'a', 'n', 'd', ' ', 'c', '='] ++ [quoteC, '2', quoteC, ']']

/-- `//a[c='1' and d='2']` -/
def qACD : Str := ['/', '/', 'a', '[', 'c', '='] ++ [quoteC, '1', quoteC]
  ++ [' ', 'a', 'n', 'd', ' ', 'd', '='] ++ [quoteC, '2', quoteC, ']']

/-- Counterexample to C6 as stated: on the document
`<a><c>1</c><c>2</c></a>` the address `//a[c='1' and c='2']` evaluated
from the root returns nothing at all — `//` never matches the start node
itself, and the predicate keys combinations on the single distinct tag
`c`, substituting the same child text for both references. -/
theorem c6_counterexample :
    xfindRoot tCC qCC = Except.ok [] ∧ (tCC.nodeAt 0).get_name = ['a']
      ∧ (tCC.nodeAt 1).text = some ['1'] ∧ (tCC.nodeAt 2).text = some ['2'] := by
  constructor
  · decide
  · exact ⟨by decide, by decide, by decide⟩

/-- C6 (amended): on `<r><a><c>1</c><d>2</d></a></r>` the address
`//a[c='1' and d='2']` from the root yields exactly the position of `a`:
child-tag predicates enumerate one matching child per distinct referenced
tag and accept the node when some combination satisfies the predicate. -/
theorem c6_child_tag_query :
    xfindRoot tRACD qACD = Except.ok [1] ∧ (tRACD.nodeAt 1).get_name = ['a']
      ∧ tRACD.children 1 = [2, 3]
      ∧ (tRACD.nodeAt 2).get_name = ['c'] ∧ (tRACD.nodeAt 2).text = some ['1']
      ∧ (tRACD.nodeAt 3).get_name = ['d'] ∧ (tRACD.nodeAt 3).text = some ['2'] := by
  refine ⟨?_, by decide, by decide, by decide, by decide, by decide, by decide⟩
  decide

/-- C7 is false in the code: over `<a><b/><b/></a>` both
`//b[position()=last()]` and `//b[2]` return nothing, although `//b`
finds both `b` nodes.  A bare `[2]` is evaluated as the integer 2 (never
the boolean true), and in `position()=last()` only `position()` is
captured for substitution — the resulting `1==last()` / `2==last()`
cannot be evaluated. -/
theorem c7_positional_shorthand :
    xfindRoot tABB qBPL = Except.ok [] ∧ xfindRoot tABB qB2 = Except.ok []
      ∧ xfindRoot tABB qBonly = Except.ok [1, 2] := by
  refine ⟨?_, ?_, ?_⟩ <;> decide

/-- C8 (amended): a predicate referencing an attribute missing on the
candidate at slot `j` makes the candidate loop break: the result is
computed from the first `j` candidates alone, so no later candidate is
ever examined or returned (no error is raised — the function still
returns a plain list). -/
theorem c8_missing_attr (t : ETree) (e : Str) (pattrs pfuncs ptags : List Str)
    (clen : Nat) (i : Nat) (cands : List Nat) (j q : Nat)
    (hq : cands.get? j = some q) (hmiss : attrSubst t q pattrs e = none) :
    loopCands t e pattrs pfuncs ptags clen i cands
      = loopCands t e pattrs pfuncs ptags clen i (cands.take j) := by
  induction cands generalizing i j with
  | nil => simp at hq
  | cons c rest ih =>
    cases j with
    | zero =>
      injection hq with hq
      subst hq
      show (match attrSubst t c pattrs e with
        | none => []
        | some e1 =>
          (if (if ptags.isEmpty then decide (evalExpr (funcSubst t c (i + 1) clen pfuncs e1)
                = some (EV.vBool true))
              else tagCase t c ptags (funcSubst t c (i + 1) clen pfuncs e1)) then [c] else [])
            ++ loopCands t e pattrs pfuncs ptags clen (i + 1) rest) = _
      rw [hmiss]
      rfl
    | succ m =>
      have hq2 : rest.get? m = some q := hq
      show (match attrSubst t c pattrs e with
        | none => []
        | some e1 =>
          (if (if ptags.isEmpty then decide (evalExpr (funcSubst t c (i + 1) clen pfuncs e1)
                = some (EV.vBool true))
              else tagCase t c ptags (funcSubst t c (i + 1) clen pfuncs e1)) then [c] else [])
            ++ loopCands t e pattrs pfuncs ptags clen (i + 1) rest) = _
      cases hx : attrSubst t c pattrs e with
      | none =>
        show [] = loopCands t e pattrs pfuncs ptags clen i (c :: rest.take m)
        show [] = (match attrSubst t c pattrs e with
          | none => []
          | some e1 =>
            (if (if ptags.isEmpty then decide (evalExpr (funcSubst t c (i + 1) clen pfuncs e1)
                  = some (EV.vBool true))
                else tagCase t c ptags (funcSubst t c (i + 1) clen pfuncs e1)) then [c] else [])
              ++ loopCands t e pattrs pfuncs ptags clen (i + 1) (rest.take m))
        rw [hx]
      | some e1 =>
        rw [ih (i + 1) m hq2]
        show _ = (match attrSubst t c pattrs e with
          | none => []
          | some e1 =>
            (if (if ptags.isEmpty then decide (evalExpr (funcSubst t c (i + 1) clen pfuncs e1)
                  = some (EV.vBool true))
                else tagCase t c ptags (funcSubst t c (i + 1) clen pfuncs e1)) then [c] else [])
              ++ loopCands t e pattrs pfuncs ptags clen (i + 1) (rest.take m))
        rw [hx]

theorem c8_missing_attr_witness :
    loopCands tRBXB (['@', 'x', '=', '='] ++ [quoteC, '2', quoteC])
        [['@', 'x']] [] [] 2 0 [1, 2]
      = loopCands tRBXB (['@', 'x', '=', '='] ++ [quoteC, '2', quoteC])
        [['@', 'x']] [] [] 2 0 ([1, 2].take 1) :=
  c8_missing_attr tRBXB (['@', 'x', '=', '='] ++ [quoteC, '2', quoteC])
    [['@', 'x']] [] [] 2 0 [1, 2] 1 2 (by decide) (by decide)

/-! ## Serialization (ETree::write) and the round trip (C1)

`write` is modelled at the same event level as `read`: the byte writer
and re-tokenization (escaping, namespace resolution) are collapsed, so
the produced `Start`/`Empty` events carry no namespace and attribute
values round-trip verbatim. -/

/-- Route stacks are kept innermost-first; their textual form is the
route label of `ETree::read`/`write`. -/
def mkRouteR (s : List Nat) : Str := mkRoute s.reverse

/-- The `idxmap` of `ETree::write`: identity rendered in decimal maps to
the position; a `HashMap` keeps the last insertion for a duplicated key,
hence the backward search. -/
def idxmapLookup (t : ETree) (s : Str) : Option Nat :=
  ((List.range t.data.length).reverse).find? (fun j => decide (natChars (t.idxAt j) = s))

/-- The close-tag loops of `ETree::write`: repeatedly split the route,
look the closed node up by identity, emit its end tag (unless synthetic)
and its tail, and stop once the parent route reaches `stopRoute` (or the
route has no further segment).  The fuel always exceeds the route length,
and every split shortens the route, so it never runs out. -/
def closeLoop (t : ETree) (stopRoute : Str) : Nat → Str → Except String (List XEv)
  | 0, _ => Except.ok []
  | fuel+1, route =>
    match splitRouteLast route with
    | none => Except.ok []
    | some pr =>
      match idxmapLookup t pr.2 with
      | none => Except.error "panic"
      | some j =>
        let es := (if syntheticName (t.nodeAt j).local_name then []
            else [XEv.endTag (t.nodeAt j).get_name])
          ++ [XEv.text (t.nodeAt j).tail]
        if pr.1 = stopRoute then Except.ok es
        else
          match closeLoop t stopRoute fuel pr.1 with
          | Except.error e => Except.error e
          | Except.ok rest => Except.ok (es ++ rest)

/-- The `idx > 0` block at the top of the write loop: depending on how
the previous node's route relates to the current one, finish the previous
node (sibling), do nothing (first child), or close the levels in between;
incomparable routes panic. -/
def preClose (t : ETree) (i : Nat) : Except String (List XEv) :=
  let p := t.nodeAt (i - 1)
  let c := t.nodeAt i
  let first := if p.text.isSome then
      (if syntheticName p.local_name then [] else [XEv.endTag p.get_name]) ++ [XEv.text p.tail]
    else []
  if p.route = c.route then Except.ok first
  else if p.route.isPrefixOf c.route then Except.ok []
  else if c.route.isPrefixOf p.route then
    match closeLoop t c.route (p.route.length + 1) p.route with
    | Except.error e => Except.error e
    | Except.ok rest => Except.ok (first ++ rest)
  else Except.error "panic"

/-- The per-node output of the write loop: synthetic nodes become their
event (their stored text is unwrapped — absence panics), elements with
text open a start tag followed by the text, elements without text are
written empty, immediately followed by their tail. -/
def ownEvents (t : ETree) (i : Nat) : Except String (List XEv) :=
  let n := t.nodeAt i
  if n.local_name = cmtName then
    match n.text with
    | some s => Except.ok [XEv.comment s]
    | none => Except.error "panic"
  else if n.local_name = cdName then
    match n.text with
    | some s => Except.ok [XEv.cdata s]
    | none => Except.error "panic"
  else if n.local_name = piName then
    match n.text with
    | some s => Except.ok [XEv.pi s]
    | none => Except.error "panic"
  else if n.local_name = dtName then
    match n.text with
    | some s => Except.ok [XEv.doctype s]
    | none => Except.error "panic"
  else
    match n.text with
    | some s => Except.ok [XEv.start none n.get_name n.attr, XEv.text s]
    | none => Except.ok [XEv.empty none n.get_name n.attr, XEv.text n.tail]

/-- The main write loop over all positions. -/
def writeBodyAux (t : ETree) : Nat → Nat → Except String (List XEv)
  | 0, _ => Except.ok []
  | k+1, i =>
    match (if i = 0 then Except.ok [] else preClose t i) with
    | Except.error e => Except.error e
    | Except.ok es1 =>
      match ownEvents t i with
      | Except.error e => Except.error e
      | Except.ok es2 =>
        match writeBodyAux t k (i + 1) with
        | Except.error e => Except.error e
        | Except.ok rest => Except.ok (es1 ++ es2 ++ rest)

/-- `ETree::write` at the event level: the declaration, the newline
convention (a text chunk, absent when empty), the node loop, then the
closing block for the last node and all still-open ancestors.  An empty
tree panics on `data[len-1]`. -/
def writeEvents (t : ETree) : Except String (List XEv) :=
  match t.data with
  | [] => Except.error "panic"
  | _ =>
    match writeBodyAux t t.data.length 0 with
    | Except.error e => Except.error e
    | Except.ok body =>
      let last := t.nodeAt (t.data.length - 1)
      let first := if last.text.isSome then
          (if syntheticName last.local_name then [] else [XEv.endTag last.get_name])
            ++ [XEv.text last.tail]
        else []
      match closeLoop t [hashC] (last.route.length + 1) last.route with
      | Except.error e => Except.error e
      | Except.ok closes =>
        Except.ok ([XEv.decl t.version t.encoding t.standalone]
          ++ (if t.crlf.isEmpty then [] else [XEv.text t.crlf])
          ++ body ++ first ++ closes)

/-- Pop a route stack until its textual form equals `r`. -/
def popTo : List Nat → Str → Option (List Nat)
  | [], r => if mkRouteR [] = r then some [] else none
  | x :: rest, r => if mkRouteR (x :: rest) = r then some (x :: rest) else popTo rest r

/-- A node is pushed onto the open stack exactly when it was opened by a
start tag: it has a text slot and is not synthetic. -/
def pushKind (n : ETreeNode) : Bool := n.text.isSome && !syntheticName n.local_name

/-- Per-node side conditions of a tree produced by `ETree::read` from
well-formed input, as `write` needs them: the identity equals the
position, the full name splits back into the stored prefix and local
name, attribute keys are pairwise distinct, and a synthetic node is one
of the four kinds, carries text, and has no attributes or prefix. -/
def nodeCondB (n : ETreeNode) (i : Nat) : Bool :=
  decide (n.idx = i)
    && decide (splitName n.get_name = (n.ns_abbrev, n.local_name))
    && decide ((n.attr.map Prod.fst).Nodup)
    && (!syntheticName n.local_name
      || (n.text.isSome && n.attr.isEmpty && n.ns_abbrev.isEmpty
        && (n.local_name = cmtName || n.local_name = cdName
          || n.local_name = piName || n.local_name = dtName)))

/-- Run the route-stack discipline over a node list starting at absolute
position `i` with open stack `S`: each node's route must be reachable by
popping, the node conditions must hold, and opened nodes are pushed. -/
def chainRunL : List ETreeNode → Nat → List Nat → Option (List Nat)
  | [], _, S => some S
  | n :: rest, i, S =>
    match popTo S n.route with
    | none => none
    | some S2 =>
      if nodeCondB n i then chainRunL rest (i + 1) (if pushKind n then i :: S2 else S2)
      else none

/-- The full parsed-tree invariant used by the round-trip theorem. -/
def chainOk (t : ETree) : Bool := (chainRunL t.data 0 []).isSome

/-- Tag names acceptable to the round trip: produced by a real XML
tokenizer they never start with a colon nor contain angle brackets. -/
def goodTag (name : Str) : Bool :=
  name.head? ≠ some ':' && !name.contains '<' && !name.contains '>'

/-- Well-formedness of a tokenizer event stream for C1. -/
def wfEv : XEv → Bool
  | XEv.start _ name _ => goodTag name
  | XEv.empty _ name _ => goodTag name
  | _ => true

/-- The node `read` rebuilds from the serialized form of `n`: identical
except that no namespace is resolved, and the tail is still empty while
the node is open. -/
def expNode (n : ETreeNode) (opened : Bool) : ETreeNode :=
  { n with ns := [], tail := if opened then [] else n.tail }

/-- The route segments contributed by a stack fragment. -/
def routeSegs (v : List Nat) : Str := (v.map (fun a => natChars a ++ [hashC])).flatten

theorem mkRoute_app2 (u v : List Nat) : mkRoute (u ++ v) = mkRoute u ++ routeSegs v := by
  simp [mkRoute, routeSegs]

theorem routeSegs_ne_nil (x : Nat) (v : List Nat) : routeSegs (x :: v) ≠ [] := by
  simp [routeSegs]

theorem mkRouteR_cons (x : Nat) (S : List Nat) :
    mkRouteR (x :: S) = mkRouteR S ++ (natChars x ++ [hashC]) := by
  unfold mkRouteR
  rw [List.reverse_cons, mkRoute_append, List.append_assoc]

theorem mkRouteR_decomp (D S : List Nat) :
    mkRouteR (D ++ S) = mkRouteR S ++ routeSegs D.reverse := by
  unfold mkRouteR
  rw [List.reverse_append, mkRoute_app2]

theorem mkRouteR_ne_of_ext (D S : List Nat) (hD : D ≠ []) :
    mkRouteR (D ++ S) ≠ mkRouteR S := by
  intro h
  rw [mkRouteR_decomp] at h
  have := congrArg List.length h
  rw [List.length_append] at this
  obtain ⟨x, D2, hx⟩ := List.exists_cons_of_ne_nil hD
  have h2 : routeSegs D.reverse ≠ [] := by
    rw [hx]
    cases hD2 : D2.reverse with
    | nil =>
      simp [List.reverse_cons, hD2, routeSegs]
    | cons y ys =>
      rw [List.reverse_cons, hD2]
      exact routeSegs_ne_nil y (ys ++ [x])
  have h3 : 0 < (routeSegs D.reverse).length := List.length_pos.mpr h2
  omega

theorem splitRouteLast_mkRouteR (x : Nat) (S : List Nat) :
    splitRouteLast (mkRouteR (x :: S)) = some (mkRouteR S, natChars x) := by
  unfold mkRouteR
  rw [List.reverse_cons]
  exact splitRouteLast_mkRoute S.reverse x

theorem popTo_self (S : List Nat) : popTo S (mkRouteR S) = some S := by
  cases S <;> simp [popTo]

theorem popTo_suffix (D S : List Nat) : popTo (D ++ S) (mkRouteR S) = some S := by
  induction D with
  | nil => exact popTo_self S
  | cons x D2 ih =>
    show popTo (x :: (D2 ++ S)) (mkRouteR S) = some S
    unfold popTo
    rw [if_neg]
    · exact ih
    · exact mkRouteR_ne_of_ext (x :: D2) S (by simp)

theorem popTo_sound (S : List Nat) (r : Str) : ∀ S2, popTo S r = some S2 →
    mkRouteR S2 = r ∧ ∃ D, S = D ++ S2 := by
  induction S with
  | nil =>
    intro S2 h
    unfold popTo at h
    split at h
    · injection h with h
      rename_i hr
      exact ⟨h ▸ hr, [], by rw [← h]; rfl⟩
    · exact absurd h (by simp)
  | cons x rest ih =>
    intro S2 h
    unfold popTo at h
    split at h
    · injection h with h
      rename_i hr
      exact ⟨h ▸ hr, [], by rw [← h]; rfl⟩
    · obtain ⟨h1, D, h2⟩ := ih S2 h
      exact ⟨h1, x :: D, by rw [h2]; rfl⟩

theorem find_last_eq (j : Nat) (p : Nat → Bool) : ∀ (l : List Nat),
    j ∈ l → p j = true → (∀ x ∈ l, p x = true → x = j) → l.find? p = some j := by
  intro l
  induction l with
  | nil => intro h; simp at h
  | cons x rest ih =>
    intro hmem hpj huniq
    by_cases hx : p x = true
    · have : x = j := huniq x (List.mem_cons_self _ _) hx
      rw [List.find?_cons_of_pos _ hx, this]
    · have hxj : x ≠ j := fun he => hx (he ▸ hpj)
      have hmem2 : j ∈ rest := by
        rcases List.mem_cons.1 hmem with he | hm
        · exact absurd he.symm hxj
        · exact hm
      rw [List.find?_cons_of_neg _ hx]
      exact ih hmem2 hpj (fun y hy => huniq y (List.mem_cons_of_mem _ hy))

theorem idxmapLookup_natChars (t : ETree) (j : Nat)
    (hglob : ∀ q, q < t.data.length → t.idxAt q = q) (hj : j < t.data.length) :
    idxmapLookup t (natChars j) = some j := by
  unfold idxmapLookup
  refine find_last_eq j _ _ ?_ ?_ ?_
  · rw [List.mem_reverse, List.mem_range]
    exact hj
  · simp [hglob j hj]
  · intro x hx hpx
    rw [List.mem_reverse, List.mem_range] at hx
    rw [decide_eq_true_iff, hglob x hx] at hpx
    exact natChars_injective hpx

theorem chainRunL_idx : ∀ (d : List ETreeNode) (i : Nat) (S F : List Nat),
    chainRunL d i S = some F → ∀ k nd, d.get? k = some nd → nd.idx = i + k := by
  intro d
  induction d with
  | nil => intro i S F h k nd hk; simp at hk
  | cons n rest ih =>
    intro i S F h k nd hk
    unfold chainRunL at h
    split at h
    · exact absurd h (by simp)
    · rename_i S2 hpop
      split at h
      · rename_i hcond
        cases k with
        | zero =>
          injection hk with hk
          subst hk
          have h1 : n.idx = i := by
            have := hcond
            unfold nodeCondB at this
            simp only [Bool.and_eq_true, decide_eq_true_iff] at this
            exact this.1.1.1
          omega
        | succ m =>
          have := ih (i + 1) _ F h m nd hk
          omega
      · exact absurd h (by simp)

theorem chainRunL_cond : ∀ (d : List ETreeNode) (i : Nat) (S F : List Nat),
    chainRunL d i S = some F → ∀ k nd, d.get? k = some nd → nodeCondB nd (i + k) = true := by
  intro d
  induction d with
  | nil => intro i S F h k nd hk; simp at hk
  | cons n rest ih =>
    intro i S F h k nd hk
    unfold chainRunL at h
    split at h
    · exact absurd h (by simp)
    · rename_i S2 hpop
      split at h
      · rename_i hcond
        cases k with
        | zero =>
          injection hk with hk
          subst hk
          simpa using hcond
        | succ m =>
          have := ih (i + 1) _ F h m nd hk
          simpa [Nat.add_comm, Nat.add_assoc, Nat.add_left_comm] using this
      · exact absurd h (by simp)

theorem chainOk_glob (t : ETree) (h : chainOk t = true) :
    ∀ q, q < t.data.length → t.idxAt q = q := by
  intro q hq
  unfold chainOk at h
  rw [Option.isSome_iff_exists] at h
  obtain ⟨F, hF⟩ := h
  have hget : ∃ nd, t.data.get? q = some nd := by
    cases hx : t.data.get? q with
    | none => rw [List.get?_eq_none] at hx; omega
    | some nd => exact ⟨nd, rfl⟩
  obtain ⟨nd, hnd⟩ := hget
  have := chainRunL_idx t.data 0 [] F hF q nd hnd
  unfold ETree.idxAt ETree.nodeAt
  rw [hnd]
  simpa using this

theorem findAttrAux_of_not_mem (l : List (Str × Str)) (key : Str)
    (h : ∀ kv ∈ l, kv.1 ≠ key) : ∀ s, findAttrAux l key s = none := by
  induction l with
  | nil => intro s; rfl
  | cons kv rest ih =>
    intro s
    unfold findAttrAux
    rw [if_neg (h kv (List.mem_cons_self _ _))]
    exact ih (fun x hx => h x (List.mem_cons_of_mem _ hx)) (s + 1)

theorem setAttrFold_build : ∀ (l : List (Str × Str)) (n : ETreeNode),
    ((n.attr ++ l).map Prod.fst).Nodup →
    setAttrFold n l = { n with attr := n.attr ++ l } := by
  intro l
  induction l with
  | nil => intro n _; show n = _; simp
  | cons kv rest ih =>
    intro n hnd
    have hkey : ∀ p ∈ n.attr, p.1 ≠ kv.1 := by
      intro p hp he
      rw [List.map_append, List.nodup_append] at hnd
      have hm2 : p.1 ∈ (kv :: rest).map Prod.fst := by
        rw [he]
        exact List.mem_map_of_mem _ (List.mem_cons_self _ _)
      exact hnd.2.2 (List.mem_map_of_mem _ hp) hm2
    have hfind : n.find_attr kv.1 = none :=
      findAttrAux_of_not_mem n.attr kv.1 hkey 0
    show setAttrFold ((n.set_attr kv.1 kv.2).1) rest = _
    have hfind2 : n.find_attr kv.1 = none := hfind
    have hset : (n.set_attr kv.1 kv.2).1 = { n with attr := n.attr ++ [kv] } := by
      unfold ETreeNode.set_attr
      rw [hfind2]
    rw [hset]
    have hnd2 : ((({ n with attr := n.attr ++ [kv] } : ETreeNode).attr ++ rest).map
        Prod.fst).Nodup := by
      show (((n.attr ++ [kv]) ++ rest).map Prod.fst).Nodup
      rw [List.append_assoc]
      exact hnd
    rw [ih _ hnd2]
    show ({ n with attr := (n.attr ++ [kv]) ++ rest } : ETreeNode) = _
    rw [List.append_assoc]
    rfl

/-- The first `i` nodes as `read` has rebuilt them at a boundary where
the nodes listed in `O` are still awaiting their tail. -/
def expData (t : ETree) (i : Nat) (O : List Nat) : List ETreeNode :=
  (List.range i).map (fun j => expNode (t.nodeAt j) (O.contains j))

/-- The whole reader state tree at such a boundary. -/
def expTree (t : ETree) (crlf2 : Str) (i : Nat) (O : List Nat) : ETree :=
  { indent := [], count := i, version := t.version, encoding := t.encoding,
    standalone := t.standalone, data := expData t i O, crlf := crlf2,
    enable_index := false, index := [] }

theorem expData_succ (t : ETree) (i : Nat) (O : List Nat) :
    expData t (i + 1) O = expData t i O ++ [expNode (t.nodeAt i) (O.contains i)] := by
  unfold expData
  rw [List.range_succ, List.map_append]
  rfl

theorem expData_congr (t : ETree) (i : Nat) (O O2 : List Nat)
    (h : ∀ j, j < i → O.contains j = O2.contains j) :
    expData t i O = expData t i O2 := by
  unfold expData
  refine List.map_congr_left ?_
  intro j hj
  rw [List.mem_range] at hj
  rw [h j hj]

theorem expData_get? (t : ETree) (i : Nat) (O : List Nat) (j : Nat) :
    (expData t i O).get? j
      = if j < i then some (expNode (t.nodeAt j) (O.contains j)) else none := by
  unfold expData
  rw [List.get?_map]
  by_cases hj : j < i
  · rw [if_pos hj, List.get?_range hj]
    rfl
  · rw [if_neg hj, List.get?_eq_none.2 (by simpa using Nat.le_of_not_lt hj)]
    rfl

theorem expData_length (t : ETree) (i : Nat) (O : List Nat) :
    (expData t i O).length = i := by
  unfold expData
  rw [List.length_map, List.length_range]

theorem expData_close (t : ETree) (i : Nat) (O O2 : List Nat) (x : Nat) (hx : x < i)
    (hofx : O.contains x = true) (ho2x : O2.contains x = false)
    (hsame : ∀ j, j < i → j ≠ x → O.contains j = O2.contains j) :
    (expData t i O).modifyNth (fun n => { n with tail := (t.nodeAt x).tail }) x
      = expData t i O2 := by
  refine List.ext_get? ?_
  intro j
  rw [modifyNth_get?, expData_get?, expData_get?]
  by_cases hjx : x = j
  · subst hjx
    rw [if_pos rfl, if_pos hx, if_pos hx, hofx, ho2x]
    rfl
  · rw [if_neg hjx]
    by_cases hj : j < i
    · rw [if_pos hj, if_pos hj, hsame j hj (fun he => hjx he.symm)]
    · rw [if_neg hj, if_neg hj]

theorem expTree_setTail (t : ETree) (crlf2 : Str) (i : Nat) (O O2 : List Nat) (x : Nat)
    (hx : x < i) (hofx : O.contains x = true) (ho2x : O2.contains x = false)
    (hsame : ∀ j, j < i → j ≠ x → O.contains j = O2.contains j) :
    (expTree t crlf2 i O).setTailAt x ((t.nodeAt x).tail) = expTree t crlf2 i O2 := by
  unfold ETree.setTailAt
  have hd := expData_close t i O O2 x hx hofx ho2x hsame
  rw [show (expTree t crlf2 i O).data = expData t i O from rfl, hd]
  rfl

theorem read_end_text (t : ETree) (crlf2 : Str) (i : Nat) (O O2 R : List Nat) (x : Nat)
    (nm : Str) (st : PSt)
    (htree : st.tree = expTree t crlf2 i O) (hroute : st.route = mkRouteR (x :: R))
    (hx : x < i) (hofx : O.contains x = true) (ho2x : O2.contains x = false)
    (hsame : ∀ j, j < i → j ≠ x → O.contains j = O2.contains j) :
    readEvents [XEv.endTag nm, XEv.text (t.nodeAt x).tail] st
      = { tree := expTree t crlf2 i O2, status := 2, route := mkRouteR R, closeidx := x } := by
  have h1 : readStep st (XEv.endTag nm)
      = { st with status := 2, route := mkRouteR R, closeidx := x } := by
    show (match splitRouteLast st.route with
      | some p => { st with status := 2, route := p.1, closeidx := charsVal p.2 }
      | none => { st with status := 2 }) = _
    rw [hroute, splitRouteLast_mkRouteR]
    show ({ st with status := 2, route := mkRouteR R, closeidx := charsVal (natChars x) } : PSt) = _
    rw [charsVal_natChars]
  show readStep (readStep st (XEv.endTag nm)) (XEv.text ((t.nodeAt x).tail)) = _
  rw [h1]
  show ({ tree := st.tree.setTailAt x ((t.nodeAt x).tail), status := 2
          , route := mkRouteR R, closeidx := x } : PSt) = _
  rw [htree, expTree_setTail t crlf2 i O O2 x hx hofx ho2x hsame]

theorem read_text_close (t : ETree) (crlf2 : Str) (i : Nat) (O O2 : List Nat) (x : Nat)
    (st : PSt)
    (htree : st.tree = expTree t crlf2 i O) (hstatus : st.status = 2) (hclose : st.closeidx = x)
    (hx : x < i) (hofx : O.contains x = true) (ho2x : O2.contains x = false)
    (hsame : ∀ j, j < i → j ≠ x → O.contains j = O2.contains j) :
    readEvents [XEv.text (t.nodeAt x).tail] st
      = { st with tree := expTree t crlf2 i O2 } := by
  show readStep st (XEv.text ((t.nodeAt x).tail)) = _
  show (if st.status = 1 then { st with tree := st.tree.setTextAt (st.tree.count - 1) ((t.nodeAt x).tail) }
    else if st.status = 2 then { st with tree := st.tree.setTailAt st.closeidx ((t.nodeAt x).tail) }
    else st) = _
  rw [hstatus, if_neg (by decide), if_pos rfl, hclose, htree,
    expTree_setTail t crlf2 i O O2 x hx hofx ho2x hsame]

theorem contains_cons_self (a : Nat) (l : List Nat) : (a :: l).contains a = true := by
  simp [List.contains_cons]

theorem contains_cons_ne (a b : Nat) (l : List Nat) (h : b ≠ a) :
    (a :: l).contains b = l.contains b := by
  simp [List.contains_cons, h]

theorem modifyNth_append_last {α : Type} (f : α → α) (l : List α) (y : α) :
    (l ++ [y]).modifyNth f l.length = l ++ [f y] := by
  induction l with
  | nil => rfl
  | cons x xs ih =>
    show x :: (xs ++ [y]).modifyNth f xs.length = x :: (xs ++ [f y])
    rw [ih]

theorem read_start_text (t : ETree) (crlf2 : Str) (i : Nat) (O SF : List Nat) (st : PSt)
    (s : Str)
    (htree : st.tree = expTree t crlf2 i O) (hroute : st.route = mkRouteR SF)
    (hname : splitName (t.nodeAt i).get_name = ((t.nodeAt i).ns_abbrev, (t.nodeAt i).local_name))
    (hattr : (((t.nodeAt i).attr).map Prod.fst).Nodup)
    (hidx : (t.nodeAt i).idx = i)
    (hrouten : (t.nodeAt i).route = mkRouteR SF)
    (htext : (t.nodeAt i).text = some s) :
    readEvents [XEv.start none (t.nodeAt i).get_name (t.nodeAt i).attr, XEv.text s] st
      = { tree := expTree t crlf2 (i + 1) (i :: O), status := 1
          , route := mkRouteR (i :: SF), closeidx := st.closeidx } := by
  have hbuild : setAttrFold { ETreeNode.new (splitName (t.nodeAt i).get_name).2 with
      idx := st.tree.count, ns := [], ns_abbrev := (splitName (t.nodeAt i).get_name).1,
      text := some [], route := st.route } (t.nodeAt i).attr
      = { expNode (t.nodeAt i) true with text := some [] } := by
    rw [setAttrFold_build _ _ (by simpa using hattr)]
    have hab : (splitName (t.nodeAt i).get_name).1 = (t.nodeAt i).ns_abbrev := by rw [hname]
    have hloc : (splitName (t.nodeAt i).get_name).2 = (t.nodeAt i).local_name := by rw [hname]
    have hcount : st.tree.count = i := by rw [htree]; rfl
    have hr : ({ expNode (t.nodeAt i) true with text := some [] } : ETreeNode)
        = ⟨(t.nodeAt i).idx, [], (t.nodeAt i).ns_abbrev, (t.nodeAt i).local_name,
           (t.nodeAt i).attr, some [], [], (t.nodeAt i).route⟩ := rfl
    rw [hr]
    show (⟨st.tree.count, [], (splitName (t.nodeAt i).get_name).1,
        (splitName (t.nodeAt i).get_name).2, [] ++ (t.nodeAt i).attr,
        some [], [], st.route⟩ : ETreeNode) = _
    rw [hab, hloc, hcount, hroute, List.nil_append, hidx, hrouten]
  have h1 : readStep st (XEv.start none (t.nodeAt i).get_name (t.nodeAt i).attr)
      = { tree := { st.tree with
            data := st.tree.data ++ [{ expNode (t.nodeAt i) true with text := some [] }],
            count := st.tree.count + 1 }
          , status := 1, route := st.route ++ natChars st.tree.count ++ [hashC]
          , closeidx := st.closeidx } := by
    show ({ st with
        tree := { st.tree with
          data := st.tree.data ++ [setAttrFold { ETreeNode.new (splitName (t.nodeAt i).get_name).2 with
            idx := st.tree.count, ns := [], ns_abbrev := (splitName (t.nodeAt i).get_name).1,
            text := some [], route := st.route } (t.nodeAt i).attr],
          count := st.tree.count + 1 },
        route := st.route ++ natChars st.tree.count ++ [hashC], status := 1 } : PSt) = _
    rw [hbuild]
  show readStep (readStep st (XEv.start none (t.nodeAt i).get_name (t.nodeAt i).attr))
      (XEv.text s) = _
  rw [h1]
  show ({ tree := ({ st.tree with
        data := st.tree.data ++ [{ expNode (t.nodeAt i) true with text := some [] }],
        count := st.tree.count + 1 } : ETree).setTextAt (st.tree.count + 1 - 1) s
        , status := 1, route := st.route ++ natChars st.tree.count ++ [hashC]
        , closeidx := st.closeidx } : PSt) = _
  have hcnt2 : st.tree.count = i := by rw [htree]; rfl
  have htr : ({ expTree t crlf2 i O with
      data := expData t i O ++ [{ expNode (t.nodeAt i) true with text := some [] }],
      count := i + 1 } : ETree).setTextAt (i + 1 - 1) s
      = expTree t crlf2 (i + 1) (i :: O) := by
    unfold ETree.setTextAt
    show ({ expTree t crlf2 i O with
        data := (expData t i O ++ [{ expNode (t.nodeAt i) true with text := some [] }]).modifyNth
          (fun n => { n with text := some s }) (i + 1 - 1),
        count := i + 1 } : ETree) = _
    have hlen : i + 1 - 1 = (expData t i O).length := by rw [expData_length]; omega
    rw [hlen, modifyNth_append_last]
    have hnode : ({ { expNode (t.nodeAt i) true with text := some [] } with
        text := some s } : ETreeNode) = expNode (t.nodeAt i) true := by
      show ({ expNode (t.nodeAt i) true with text := some s } : ETreeNode) = _
      rw [← htext]
      rfl
    rw [hnode]
    have hexp : expData t i O ++ [expNode (t.nodeAt i) true]
        = expData t (i + 1) (i :: O) := by
      rw [expData_succ, contains_cons_self]
      congr 1
      exact expData_congr t i O (i :: O)
        (fun j hj => (contains_cons_ne i j O (by omega)).symm)
    rw [hexp]
    rfl
  have hA : ({ st.tree with
      data := st.tree.data ++ [{ expNode (t.nodeAt i) true with text := some [] }],
      count := st.tree.count + 1 } : ETree).setTextAt (st.tree.count + 1 - 1) s
      = expTree t crlf2 (i + 1) (i :: O) := by
    rw [hcnt2, htree]
    exact htr
  have hB : st.route ++ natChars st.tree.count ++ [hashC] = mkRouteR (i :: SF) := by
    rw [hroute, hcnt2, mkRouteR_cons, List.append_assoc]
  rw [hA, hB]

theorem expData_snoc_open (t : ETree) (crlf2 : Str) (i : Nat) (O : List Nat)
    (y : ETreeNode) (hy : y = expNode (t.nodeAt i) true) :
    expData t i O ++ [y] = expData t (i + 1) (i :: O) := by
  rw [expData_succ, contains_cons_self, hy]
  congr 1
  exact expData_congr t i O (i :: O)
    (fun j hj => (contains_cons_ne i j O (by omega)).symm)

theorem read_empty_text (t : ETree) (crlf2 : Str) (i : Nat) (O SF : List Nat) (st : PSt)
    (htree : st.tree = expTree t crlf2 i O) (hroute : st.route = mkRouteR SF)
    (hname : splitName (t.nodeAt i).get_name = ((t.nodeAt i).ns_abbrev, (t.nodeAt i).local_name))
    (hattr : (((t.nodeAt i).attr).map Prod.fst).Nodup)
    (hidx : (t.nodeAt i).idx = i)
    (hrouten : (t.nodeAt i).route = mkRouteR SF)
    (htext : (t.nodeAt i).text = none)
    (hOi : O.contains i = false) :
    readEvents [XEv.empty none (t.nodeAt i).get_name (t.nodeAt i).attr,
        XEv.text (t.nodeAt i).tail] st
      = { tree := expTree t crlf2 (i + 1) O, status := 2
          , route := mkRouteR SF, closeidx := i } := by
  have hcnt2 : st.tree.count = i := by rw [htree]; rfl
  have hbuild : setAttrFold { ETreeNode.new (splitName (t.nodeAt i).get_name).2 with
      idx := st.tree.count, ns := [], ns_abbrev := (splitName (t.nodeAt i).get_name).1,
      route := st.route } (t.nodeAt i).attr
      = expNode (t.nodeAt i) true := by
    rw [setAttrFold_build _ _ (by simpa using hattr)]
    have hab : (splitName (t.nodeAt i).get_name).1 = (t.nodeAt i).ns_abbrev := by rw [hname]
    have hloc : (splitName (t.nodeAt i).get_name).2 = (t.nodeAt i).local_name := by rw [hname]
    have hr : expNode (t.nodeAt i) true
        = ⟨(t.nodeAt i).idx, [], (t.nodeAt i).ns_abbrev, (t.nodeAt i).local_name,
           (t.nodeAt i).attr, (t.nodeAt i).text, [], (t.nodeAt i).route⟩ := rfl
    rw [hr]
    show (⟨st.tree.count, [], (splitName (t.nodeAt i).get_name).1,
        (splitName (t.nodeAt i).get_name).2, [] ++ (t.nodeAt i).attr,
        none, [], st.route⟩ : ETreeNode) = _
    rw [hab, hloc, hcnt2, hroute, List.nil_append, hidx, hrouten, htext]
  have h1 : readStep st (XEv.empty none (t.nodeAt i).get_name (t.nodeAt i).attr)
      = { tree := { st.tree with
            data := st.tree.data ++ [expNode (t.nodeAt i) true],
            count := st.tree.count + 1 }
          , status := 2, route := st.route, closeidx := st.tree.count } := by
    show ({ st with
        tree := { st.tree with
          data := st.tree.data ++ [setAttrFold { ETreeNode.new (splitName (t.nodeAt i).get_name).2 with
            idx := st.tree.count, ns := [], ns_abbrev := (splitName (t.nodeAt i).get_name).1,
            route := st.route } (t.nodeAt i).attr],
          count := st.tree.count + 1 },
        closeidx := st.tree.count, status := 2 } : PSt) = _
    rw [hbuild]
  show readStep (readStep st (XEv.empty none (t.nodeAt i).get_name (t.nodeAt i).attr))
      (XEv.text ((t.nodeAt i).tail)) = _
  rw [h1]
  show ({ tree := ({ st.tree with
        data := st.tree.data ++ [expNode (t.nodeAt i) true],
        count := st.tree.count + 1 } : ETree).setTailAt st.tree.count ((t.nodeAt i).tail)
        , status := 2, route := st.route, closeidx := st.tree.count } : PSt) = _
  have hmid : ({ st.tree with
      data := st.tree.data ++ [expNode (t.nodeAt i) true],
      count := i + 1 } : ETree) = expTree t crlf2 (i + 1) (i :: O) := by
    rw [htree]
    show ({ expTree t crlf2 i O with
        data := (expTree t crlf2 i O).data ++ [expNode (t.nodeAt i) true],
        count := i + 1 } : ETree) = _
    rw [show (expTree t crlf2 i O).data = expData t i O from rfl]
    rw [expData_snoc_open t crlf2 i O _ rfl]
    rfl
  rw [hcnt2, hmid, hroute]
  rw [expTree_setTail t crlf2 (i + 1) (i :: O) O i (by omega) (contains_cons_self i O) hOi
    (fun j hj hne => contains_cons_ne i j O hne)]

theorem read_pushSyn (t : ETree) (crlf2 : Str) (i : Nat) (O SF : List Nat) (st : PSt)
    (nm s : Str)
    (htree : st.tree = expTree t crlf2 i O) (hroute : st.route = mkRouteR SF)
    (hidx : (t.nodeAt i).idx = i) (hrouten : (t.nodeAt i).route = mkRouteR SF)
    (hlocal : (t.nodeAt i).local_name = nm)
    (habbrev : (t.nodeAt i).ns_abbrev = [])
    (hattr : (t.nodeAt i).attr = [])
    (htext : (t.nodeAt i).text = some s) :
    pushSyn st nm s
      = { tree := expTree t crlf2 (i + 1) (i :: O), status := 2
          , route := mkRouteR SF, closeidx := i } := by
  have hcnt2 : st.tree.count = i := by rw [htree]; rfl
  have hnode : ({ ETreeNode.new nm with
      idx := st.tree.count, text := some s, route := st.route } : ETreeNode)
      = expNode (t.nodeAt i) true := by
    have hr : expNode (t.nodeAt i) true
        = ⟨(t.nodeAt i).idx, [], (t.nodeAt i).ns_abbrev, (t.nodeAt i).local_name,
           (t.nodeAt i).attr, (t.nodeAt i).text, [], (t.nodeAt i).route⟩ := rfl
    rw [hr]
    show (⟨st.tree.count, [], [], nm, [], some s, [], st.route⟩ : ETreeNode) = _
    rw [hcnt2, hroute, hidx, hrouten, hlocal, habbrev, hattr, htext]
  show ({ st with
      tree := { st.tree with
        data := st.tree.data ++ [{ ETreeNode.new nm with
          idx := st.tree.count, text := some s, route := st.route }],
        count := st.tree.count + 1 },
      closeidx := st.tree.count, status := 2 } : PSt) = _
  rw [hnode, hcnt2, htree]
  show ({ tree := { expTree t crlf2 i O with
      data := (expTree t crlf2 i O).data ++ [expNode (t.nodeAt i) true],
      count := i + 1 }, status := 2, route := st.route, closeidx := i } : PSt) = _
  rw [show (expTree t crlf2 i O).data = expData t i O from rfl]
  rw [expData_snoc_open t crlf2 i O _ rfl, hroute]
  rfl

/-- The events the close loop emits for a popped stack fragment. -/
def closeEvs (t : ETree) (D : List Nat) : List XEv :=
  (D.map (fun x => [XEv.endTag (t.nodeAt x).get_name, XEv.text (t.nodeAt x).tail])).flatten

theorem contains_eq_false_of_not_mem (x : Nat) (l : List Nat) (h : x ∉ l) :
    l.contains x = false := by
  cases hc : l.contains x with
  | false => rfl
  | true => exact absurd (List.mem_of_elem_eq_true hc) h

theorem contains_false_of_lt (i : Nat) (O : List Nat) (h : ∀ x ∈ O, x < i) :
    O.contains i = false :=
  contains_eq_false_of_not_mem i O (fun hm => lt_irrefl i (h i hm))

theorem isPrefixOf_false_of_longer (l1 l2 : Str) (h : l2.length < l1.length) :
    l1.isPrefixOf l2 = false := by
  cases hc : l1.isPrefixOf l2 with
  | false => rfl
  | true =>
    have := List.isPrefixOf_iff_prefix.1 hc
    have := this.length_le
    omega

theorem drop_cons_nodeAt (t : ETree) (i : Nat) (h : i < t.data.length) :
    t.data.drop i = t.nodeAt i :: t.data.drop (i + 1) := by
  rw [List.drop_eq_get_cons h]
  congr 1
  unfold ETree.nodeAt
  rw [List.get?_eq_get h]
  rfl

theorem closeLoop_nil (t : ETree) (stop : Str) (fuel : Nat) :
    closeLoop t stop fuel (mkRouteR []) = Except.ok [] := by
  cases fuel with
  | zero => rfl
  | succ f =>
    unfold closeLoop
    have : splitRouteLast (mkRouteR []) = none := splitRouteLast_root
    rw [this]

theorem mkRouteR_cons_length (x : Nat) (S : List Nat) :
    (mkRouteR S).length + 2 ≤ (mkRouteR (x :: S)).length := by
  rw [mkRouteR_cons, List.length_append, List.length_append, List.length_singleton]
  have := List.length_pos.mpr (natChars_ne_nil x)
  omega

theorem mkRouteR_length_pos (S : List Nat) : 0 < (mkRouteR S).length := by
  simp [mkRouteR, mkRoute]

theorem closeLoop_succ (t : ETree) (stop : Str) (f : Nat) (route : Str) :
    closeLoop t stop (f + 1) route
      = match splitRouteLast route with
        | none => Except.ok []
        | some pr =>
          match idxmapLookup t pr.2 with
          | none => Except.error "panic"
          | some j =>
            let es := (if syntheticName (t.nodeAt j).local_name then []
                else [XEv.endTag (t.nodeAt j).get_name])
              ++ [XEv.text (t.nodeAt j).tail]
            if pr.1 = stop then Except.ok es
            else
              match closeLoop t stop f pr.1 with
              | Except.error e => Except.error e
              | Except.ok rest => Except.ok (es ++ rest) := rfl

theorem closeLoop_step (t : ETree) (stop : Str) (f : Nat) (x : Nat) (V : List Nat)
    (hx : x < t.data.length)
    (hglob : ∀ q, q < t.data.length → t.idxAt q = q)
    (hsyn : syntheticName (t.nodeAt x).local_name = false) :
    closeLoop t stop (f + 1) (mkRouteR (x :: V))
      = if mkRouteR V = stop
        then Except.ok [XEv.endTag (t.nodeAt x).get_name, XEv.text (t.nodeAt x).tail]
        else match closeLoop t stop f (mkRouteR V) with
          | Except.error e => Except.error e
          | Except.ok rest => Except.ok (XEv.endTag (t.nodeAt x).get_name
              :: XEv.text (t.nodeAt x).tail :: rest) := by
  have h1 : closeLoop t stop (f + 1) (mkRouteR (x :: V))
      = match idxmapLookup t (natChars x) with
        | none => Except.error "panic"
        | some j =>
          let es := (if syntheticName (t.nodeAt j).local_name then []
              else [XEv.endTag (t.nodeAt j).get_name])
            ++ [XEv.text (t.nodeAt j).tail]
          if mkRouteR V = stop then Except.ok es
          else match closeLoop t stop f (mkRouteR V) with
            | Except.error e => Except.error e
            | Except.ok rest => Except.ok (es ++ rest) := by
    rw [closeLoop_succ, splitRouteLast_mkRouteR]
  rw [h1, idxmapLookup_natChars t x hglob hx]
  have hes : (if syntheticName (t.nodeAt x).local_name then ([] : List XEv)
      else [XEv.endTag (t.nodeAt x).get_name]) = [XEv.endTag (t.nodeAt x).get_name] := by
    rw [hsyn]
    rfl
  show (if mkRouteR V = stop
      then Except.ok ((if syntheticName (t.nodeAt x).local_name then ([] : List XEv)
        else [XEv.endTag (t.nodeAt x).get_name]) ++ [XEv.text (t.nodeAt x).tail])
      else match closeLoop t stop f (mkRouteR V) with
        | Except.error e => Except.error e
        | Except.ok rest => Except.ok (((if syntheticName (t.nodeAt x).local_name
            then ([] : List XEv) else [XEv.endTag (t.nodeAt x).get_name])
          ++ [XEv.text (t.nodeAt x).tail]) ++ rest)) = _
  rw [hes]
  simp only [List.cons_append, List.nil_append]

theorem closeLoop_spec (t : ETree)
    (hglob : ∀ q, q < t.data.length → t.idxAt q = q) :
    ∀ (D : List Nat) (S2 : List Nat) (fuel : Nat),
    D ≠ [] →
    (mkRouteR (D ++ S2)).length ≤ fuel →
    (∀ x ∈ D, x < t.data.length ∧ syntheticName (t.nodeAt x).local_name = false) →
    closeLoop t (mkRouteR S2) fuel (mkRouteR (D ++ S2)) = Except.ok (closeEvs t D) := by
  intro D
  induction D with
  | nil => intro S2 fuel hne; exact absurd rfl hne
  | cons x D2 ih =>
    intro S2 fuel hne hfuel hD
    have hx := hD x (List.mem_cons_self _ _)
    have hpos : fuel ≠ 0 := by
      have h0 := mkRouteR_length_pos ((x :: D2) ++ S2)
      omega
    obtain ⟨f, rfl⟩ := Nat.exists_eq_succ_of_ne_zero hpos
    rw [List.cons_append] at hfuel ⊢
    rw [closeLoop_step t (mkRouteR S2) f x (D2 ++ S2) hx.1 hglob hx.2]
    cases D2 with
    | nil =>
      have hcond : mkRouteR ([] ++ S2) = mkRouteR S2 := rfl
      rw [if_pos hcond]
      rfl
    | cons y D3 =>
      rw [if_neg (mkRouteR_ne_of_ext (y :: D3) S2 (by simp))]
      have hrec := ih S2 f (by simp)
        (by
          have h2 := mkRouteR_cons_length x ((y :: D3) ++ S2)
          omega)
        (fun q hq => hD q (List.mem_cons_of_mem _ hq))
      rw [hrec]
      rfl

theorem read_closes (t : ETree) (crlf2 : Str) (i : Nat) :
    ∀ (D O2 : List Nat) (st : PSt),
    st.tree = expTree t crlf2 i (D ++ O2) →
    st.route = mkRouteR (D ++ O2) →
    (∀ x ∈ D, x < i) →
    (D ++ O2).Nodup →
    (readEvents (closeEvs t D) st).tree = expTree t crlf2 i O2 ∧
    (readEvents (closeEvs t D) st).route = mkRouteR O2 := by
  intro D
  induction D with
  | nil =>
    intro O2 st htree hroute _ _
    exact ⟨htree, hroute⟩
  | cons x D2 ih =>
    intro O2 st htree hroute hlt hnd
    have hsplit : closeEvs t (x :: D2)
        = [XEv.endTag (t.nodeAt x).get_name, XEv.text (t.nodeAt x).tail] ++ closeEvs t D2 := by
      rw [closeEvs, closeEvs]
      simp
    rw [hsplit]
    rw [show readEvents ([XEv.endTag (t.nodeAt x).get_name, XEv.text (t.nodeAt x).tail]
        ++ closeEvs t D2) st
      = readEvents (closeEvs t D2)
          (readEvents [XEv.endTag (t.nodeAt x).get_name, XEv.text (t.nodeAt x).tail] st)
      from List.foldl_append _ _ _ _]
    have hx : x ∉ D2 ++ O2 := (List.nodup_cons.1 hnd).1
    have hstep := read_end_text t crlf2 i (x :: (D2 ++ O2)) (D2 ++ O2) (D2 ++ O2) x
      ((t.nodeAt x).get_name) st htree hroute (hlt x (List.mem_cons_self _ _))
      (contains_cons_self x _) (contains_eq_false_of_not_mem x _ hx)
      (fun j hj hne => contains_cons_ne x j _ hne)
    rw [hstep]
    exact ih O2 _ rfl rfl (fun q hq => hlt q (List.mem_cons_of_mem _ hq))
      (List.nodup_cons.1 hnd).2

/-- The closing block after the write loop: the last node is finished and
every still-open ancestor is closed down to the root route. -/
def finalsE (t : ETree) : Except String (List XEv) :=
  let last := t.nodeAt (t.data.length - 1)
  let first := if last.text.isSome then
      (if syntheticName last.local_name then [] else [XEv.endTag last.get_name])
        ++ [XEv.text last.tail]
    else []
  match closeLoop t [hashC] (last.route.length + 1) last.route with
  | Except.error e => Except.error e
  | Except.ok closes => Except.ok (first ++ closes)

/-- The write loop regrouped at node boundaries: the events from node `i`
on, with the pre-close block of each node attached to the preceding node
instead (`writeRest t k i` assumes node `i`'s pre-close block was already
emitted), ending in the closing block. -/
def writeRest (t : ETree) : Nat → Nat → Except String (List XEv)
  | 0, _ => finalsE t
  | k+1, i =>
    match ownEvents t i with
    | Except.error e => Except.error e
    | Except.ok es1 =>
      match (if k = 0 then Except.ok [] else preClose t (i + 1)) with
      | Except.error e => Except.error e
      | Except.ok es2 =>
        match writeRest t k (i + 1) with
        | Except.error e => Except.error e
        | Except.ok rest => Except.ok (es1 ++ es2 ++ rest)

theorem writeRest_succ (t : ETree) (k i : Nat) :
    writeRest t (k + 1) i
      = match ownEvents t i with
        | Except.error e => Except.error e
        | Except.ok es1 =>
          match (if k = 0 then Except.ok [] else preClose t (i + 1)) with
          | Except.error e => Except.error e
          | Except.ok es2 =>
            match writeRest t k (i + 1) with
            | Except.error e => Except.error e
            | Except.ok rest => Except.ok (es1 ++ es2 ++ rest) := rfl

theorem writeBodyAux_succ (t : ETree) (k i : Nat) :
    writeBodyAux t (k + 1) i
      = match (if i = 0 then Except.ok [] else preClose t i) with
        | Except.error e => Except.error e
        | Except.ok es1 =>
          match ownEvents t i with
          | Except.error e => Except.error e
          | Except.ok es2 =>
            match writeBodyAux t k (i + 1) with
            | Except.error e => Except.error e
            | Except.ok rest => Except.ok (es1 ++ es2 ++ rest) := rfl

theorem writeRest_split (t : ETree) : ∀ (k i : Nat) (r p : List XEv),
    0 < k →
    writeRest t k i = Except.ok r →
    (if i = 0 then Except.ok [] else preClose t i) = Except.ok p →
    ∃ b fs, writeBodyAux t k i = Except.ok b ∧ finalsE t = Except.ok fs ∧
      b ++ fs = p ++ r := by
  intro k
  induction k with
  | zero => intro i r p h0; exact absurd h0 (lt_irrefl 0)
  | succ k ih =>
    intro i r p hpos h hp
    rw [writeRest_succ] at h
    cases ho : ownEvents t i with
    | error e => rw [ho] at h; simp at h
    | ok o =>
      rw [ho] at h
      cases k with
      | zero =>
        rw [show (if 0 = 0 then (Except.ok [] : Except String (List XEv))
            else preClose t (i + 1)) = Except.ok [] from rfl] at h
        rw [show writeRest t 0 (i + 1) = finalsE t from rfl] at h
        cases hf : finalsE t with
        | error e => rw [hf] at h; simp at h
        | ok fs =>
          rw [hf] at h
          simp at h
          refine ⟨p ++ (o ++ []), fs, ?_, rfl, ?_⟩
          · rw [writeBodyAux_succ, hp, ho,
              show writeBodyAux t 0 (i + 1) = Except.ok [] from rfl]
            simp
          · rw [← h]
            simp
      | succ k2 =>
        rw [show (if k2 + 1 = 0 then (Except.ok [] : Except String (List XEv))
            else preClose t (i + 1)) = preClose t (i + 1) from rfl] at h
        cases hp2 : preClose t (i + 1) with
        | error e => rw [hp2] at h; simp at h
        | ok p2 =>
          rw [hp2] at h
          cases hw : writeRest t (k2 + 1) (i + 1) with
          | error e => rw [hw] at h; simp at h
          | ok r2 =>
            rw [hw] at h
            simp at h
            obtain ⟨b2, fs, hb2, hf, hbfs⟩ := ih (i + 1) r2 p2 (Nat.succ_pos _) hw (by
              rw [if_neg (by omega : ¬(i + 1 = 0))]
              exact hp2)
            refine ⟨p ++ (o ++ b2), fs, ?_, hf, ?_⟩
            · rw [writeBodyAux_succ, hp, ho, hb2]
              simp
            · rw [← h, List.append_assoc, List.append_assoc, hbfs]

theorem writeEvents_ne (t : ETree) (hne : t.data ≠ []) :
    writeEvents t
      = match writeBodyAux t t.data.length 0 with
        | Except.error e => Except.error e
        | Except.ok body =>
          match closeLoop t [hashC] ((t.nodeAt (t.data.length - 1)).route.length + 1)
              ((t.nodeAt (t.data.length - 1)).route) with
          | Except.error e => Except.error e
          | Except.ok closes =>
            Except.ok ([XEv.decl t.version t.encoding t.standalone]
              ++ (if t.crlf.isEmpty then [] else [XEv.text t.crlf])
              ++ body
              ++ (if (t.nodeAt (t.data.length - 1)).text.isSome then
                  (if syntheticName (t.nodeAt (t.data.length - 1)).local_name then []
                    else [XEv.endTag (t.nodeAt (t.data.length - 1)).get_name])
                    ++ [XEv.text (t.nodeAt (t.data.length - 1)).tail]
                else [])
              ++ closes) := by
  obtain ⟨n0, d0, hd⟩ := List.exists_cons_of_ne_nil hne
  show (match t.data with
    | [] => Except.error "panic"
    | _ => match writeBodyAux t t.data.length 0 with
      | Except.error e => Except.error e
      | Except.ok body =>
        match closeLoop t [hashC] ((t.nodeAt (t.data.length - 1)).route.length + 1)
            ((t.nodeAt (t.data.length - 1)).route) with
        | Except.error e => Except.error e
        | Except.ok closes =>
          Except.ok ([XEv.decl t.version t.encoding t.standalone]
            ++ (if t.crlf.isEmpty then [] else [XEv.text t.crlf])
            ++ body
            ++ (if (t.nodeAt (t.data.length - 1)).text.isSome then
                (if syntheticName (t.nodeAt (t.data.length - 1)).local_name then []
                  else [XEv.endTag (t.nodeAt (t.data.length - 1)).get_name])
                  ++ [XEv.text (t.nodeAt (t.data.length - 1)).tail]
              else [])
            ++ closes)) = _
  rw [hd]

theorem finalsE_eq (t : ETree) :
    finalsE t
      = match closeLoop t [hashC] ((t.nodeAt (t.data.length - 1)).route.length + 1)
          ((t.nodeAt (t.data.length - 1)).route) with
        | Except.error e => Except.error e
        | Except.ok closes =>
          Except.ok ((if (t.nodeAt (t.data.length - 1)).text.isSome then
              (if syntheticName (t.nodeAt (t.data.length - 1)).local_name then []
                else [XEv.endTag (t.nodeAt (t.data.length - 1)).get_name])
                ++ [XEv.text (t.nodeAt (t.data.length - 1)).tail]
            else [])
            ++ closes) := rfl

theorem writeEvents_of (t : ETree) (hne : t.data ≠ []) (r : List XEv)
    (h : writeRest t t.data.length 0 = Except.ok r) :
    writeEvents t = Except.ok ([XEv.decl t.version t.encoding t.standalone]
      ++ (if t.crlf.isEmpty then [] else [XEv.text t.crlf]) ++ r) := by
  have hpos : 0 < t.data.length := List.length_pos.mpr hne
  obtain ⟨b, fs, hb, hf, hbfs⟩ := writeRest_split t t.data.length 0 r []
    hpos h (by rw [if_pos rfl])
  rw [finalsE_eq] at hf
  rw [writeEvents_ne t hne, hb]
  cases hcl : closeLoop t [hashC] ((t.nodeAt (t.data.length - 1)).route.length + 1)
      ((t.nodeAt (t.data.length - 1)).route) with
  | error e => rw [hcl] at hf; simp at hf
  | ok closes =>
    rw [hcl] at hf
    simp at hf
    rw [List.nil_append] at hbfs
    rw [← hbfs, ← hf]
    simp [List.append_assoc]

theorem readEvents_append (a b : List XEv) (st : PSt) :
    readEvents (a ++ b) st = readEvents b (readEvents a st) :=
  List.foldl_append _ _ _ _

theorem pushKind_syn (n : ETreeNode) (h : pushKind n = true) :
    syntheticName n.local_name = false := by
  unfold pushKind at h
  rw [Bool.and_eq_true] at h
  cases hs : syntheticName n.local_name with
  | false => rfl
  | true => rw [hs] at h; exact absurd h.2 (by decide)

theorem pushKind_text (n : ETreeNode) (h : pushKind n = true) :
    n.text.isSome = true := by
  unfold pushKind at h
  rw [Bool.and_eq_true] at h
  exact h.1

theorem nodeCondB_facts (n : ETreeNode) (i : Nat) (h : nodeCondB n i = true) :
    n.idx = i ∧ splitName n.get_name = (n.ns_abbrev, n.local_name) ∧
    (n.attr.map Prod.fst).Nodup ∧
    (syntheticName n.local_name = true →
      n.text.isSome = true ∧ n.attr = [] ∧ n.ns_abbrev = [] ∧
      (n.local_name = cmtName ∨ n.local_name = cdName
        ∨ n.local_name = piName ∨ n.local_name = dtName)) := by
  unfold nodeCondB at h
  simp only [Bool.and_eq_true, Bool.or_eq_true, decide_eq_true_eq] at h
  obtain ⟨⟨⟨h1, h2⟩, h3⟩, h4⟩ := h
  refine ⟨h1, h2, h3, fun hsyn => ?_⟩
  rcases h4 with h4 | h4
  · rw [Bool.not_eq_true' ] at h4
    rw [h4] at hsyn
    exact absurd hsyn (by decide)
  · obtain ⟨⟨⟨ht, ha⟩, hb⟩, hn⟩ := h4
    refine ⟨ht, ?_, ?_, ?_⟩
    · exact List.isEmpty_iff.mp ha
    · exact List.isEmpty_iff.mp hb
    · rcases hn with ((hn | hn) | hn) | hn
      · exact Or.inl hn
      · exact Or.inr (Or.inl hn)
      · exact Or.inr (Or.inr (Or.inl hn))
      · exact Or.inr (Or.inr (Or.inr hn))

theorem chainRunL_pop (n : ETreeNode) (d : List ETreeNode) (i : Nat) (S : List Nat)
    (h : (chainRunL (n :: d) i S).isSome = true) :
    ∃ S2, popTo S n.route = some S2 ∧ nodeCondB n i = true ∧
      (chainRunL d (i + 1) (if pushKind n then i :: S2 else S2)).isSome = true := by
  have he : chainRunL (n :: d) i S
      = match popTo S n.route with
        | none => none
        | some S2 =>
          if nodeCondB n i then chainRunL d (i + 1) (if pushKind n then i :: S2 else S2)
          else none := rfl
  cases hp : popTo S n.route with
  | none =>
    have heq : chainRunL (n :: d) i S = none := by rw [he, hp]
    rw [heq] at h
    exact absurd h (by decide)
  | some S2 =>
    by_cases hc : nodeCondB n i = true
    · have heq : chainRunL (n :: d) i S
          = chainRunL d (i + 1) (if pushKind n then i :: S2 else S2) := by
        rw [he, hp]
        show (if nodeCondB n i
            then chainRunL d (i + 1) (if pushKind n then i :: S2 else S2)
            else none) = _
        rw [if_pos hc]
      rw [heq] at h
      exact ⟨S2, rfl, hc, h⟩
    · have heq : chainRunL (n :: d) i S = none := by
        rw [he, hp]
        show (if nodeCondB n i
            then chainRunL d (i + 1) (if pushKind n then i :: S2 else S2)
            else none) = none
        rw [if_neg hc]
      rw [heq] at h
      exact absurd h (by decide)

theorem chainRunL_entry (c : ETreeNode) (rest : List ETreeNode) (j : Nat) (Sb S2 : List Nat)
    (hpop : popTo Sb c.route = some S2) :
    chainRunL (c :: rest) j Sb = chainRunL (c :: rest) j S2 := by
  have hr : mkRouteR S2 = c.route := (popTo_sound Sb c.route S2 hpop).1
  have h1 : chainRunL (c :: rest) j Sb
      = match popTo Sb c.route with
        | none => none
        | some S3 =>
          if nodeCondB c j then chainRunL rest (j + 1) (if pushKind c then j :: S3 else S3)
          else none := rfl
  have h2 : chainRunL (c :: rest) j S2
      = match popTo S2 c.route with
        | none => none
        | some S3 =>
          if nodeCondB c j then chainRunL rest (j + 1) (if pushKind c then j :: S3 else S3)
          else none := rfl
  rw [h1, h2, hpop, ← hr, popTo_self]

theorem ownEvents_eq (t : ETree) (i : Nat) :
    ownEvents t i
      = if (t.nodeAt i).local_name = cmtName then
          (match (t.nodeAt i).text with
           | some s => Except.ok [XEv.comment s]
           | none => Except.error "panic")
        else if (t.nodeAt i).local_name = cdName then
          (match (t.nodeAt i).text with
           | some s => Except.ok [XEv.cdata s]
           | none => Except.error "panic")
        else if (t.nodeAt i).local_name = piName then
          (match (t.nodeAt i).text with
           | some s => Except.ok [XEv.pi s]
           | none => Except.error "panic")
        else if (t.nodeAt i).local_name = dtName then
          (match (t.nodeAt i).text with
           | some s => Except.ok [XEv.doctype s]
           | none => Except.error "panic")
        else match (t.nodeAt i).text with
          | some s => Except.ok [XEv.start none (t.nodeAt i).get_name (t.nodeAt i).attr,
              XEv.text s]
          | none => Except.ok [XEv.empty none (t.nodeAt i).get_name (t.nodeAt i).attr,
              XEv.text (t.nodeAt i).tail] := rfl

/-- The finish-the-previous-node block shared by `preClose` and the final
write stage. -/
def firstOf (t : ETree) (i : Nat) : List XEv :=
  if (t.nodeAt i).text.isSome then
    (if syntheticName (t.nodeAt i).local_name then [] else [XEv.endTag (t.nodeAt i).get_name])
      ++ [XEv.text (t.nodeAt i).tail]
  else []

theorem preClose_eq (t : ETree) (i : Nat) :
    preClose t (i + 1)
      = if (t.nodeAt i).route = (t.nodeAt (i + 1)).route then Except.ok (firstOf t i)
        else if (t.nodeAt i).route.isPrefixOf (t.nodeAt (i + 1)).route then Except.ok []
        else if (t.nodeAt (i + 1)).route.isPrefixOf (t.nodeAt i).route then
          match closeLoop t ((t.nodeAt (i + 1)).route) ((t.nodeAt i).route.length + 1)
              ((t.nodeAt i).route) with
          | Except.error e => Except.error e
          | Except.ok rest => Except.ok (firstOf t i ++ rest)
        else Except.error "panic" := rfl

theorem own_syn_sim (t : ETree) (crlf2 : Str) (i : Nat) (O SF : List Nat) (st : PSt)
    (hsyn : syntheticName (t.nodeAt i).local_name = true)
    (hcond : nodeCondB (t.nodeAt i) i = true)
    (htree : st.tree = expTree t crlf2 i O) (hroute : st.route = mkRouteR SF)
    (hrouten : (t.nodeAt i).route = mkRouteR SF) :
    ∃ o, ownEvents t i = Except.ok o ∧
      readEvents o st
        = { tree := expTree t crlf2 (i + 1) (i :: O), status := 2
            , route := mkRouteR SF, closeidx := i } := by
  obtain ⟨hidx, hname, hattr, hsf⟩ := nodeCondB_facts _ _ hcond
  obtain ⟨htext, hatr, hab, hln⟩ := hsf hsyn
  obtain ⟨s, hs⟩ := Option.isSome_iff_exists.mp htext
  rcases hln with hl | hl | hl | hl
  · refine ⟨[XEv.comment s], ?_, ?_⟩
    · rw [ownEvents_eq, if_pos hl, hs]
    · show pushSyn st cmtName s = _
      exact read_pushSyn t crlf2 i O SF st cmtName s htree hroute hidx hrouten hl hab hatr hs
  · refine ⟨[XEv.cdata s], ?_, ?_⟩
    · rw [ownEvents_eq,
        if_neg (fun he => absurd (hl.symm.trans he) (by decide)), if_pos hl, hs]
    · show pushSyn st cdName s = _
      exact read_pushSyn t crlf2 i O SF st cdName s htree hroute hidx hrouten hl hab hatr hs
  · refine ⟨[XEv.pi s], ?_, ?_⟩
    · rw [ownEvents_eq,
        if_neg (fun he => absurd (hl.symm.trans he) (by decide)),
        if_neg (fun he => absurd (hl.symm.trans he) (by decide)), if_pos hl, hs]
    · show pushSyn st piName s = _
      exact read_pushSyn t crlf2 i O SF st piName s htree hroute hidx hrouten hl hab hatr hs
  · refine ⟨[XEv.doctype s], ?_, ?_⟩
    · rw [ownEvents_eq,
        if_neg (fun he => absurd (hl.symm.trans he) (by decide)),
        if_neg (fun he => absurd (hl.symm.trans he) (by decide)),
        if_neg (fun he => absurd (hl.symm.trans he) (by decide)), if_pos hl, hs]
    · show pushSyn st dtName s = _
      exact read_pushSyn t crlf2 i O SF st dtName s htree hroute hidx hrouten hl hab hatr hs

theorem own_start_sim (t : ETree) (crlf2 : Str) (i : Nat) (O SF : List Nat) (st : PSt) (s : Str)
    (hpk : pushKind (t.nodeAt i) = true)
    (hcond : nodeCondB (t.nodeAt i) i = true)
    (hs : (t.nodeAt i).text = some s)
    (htree : st.tree = expTree t crlf2 i O) (hroute : st.route = mkRouteR SF)
    (hrouten : (t.nodeAt i).route = mkRouteR SF) :
    ownEvents t i = Except.ok [XEv.start none (t.nodeAt i).get_name (t.nodeAt i).attr,
        XEv.text s] ∧
      readEvents [XEv.start none (t.nodeAt i).get_name (t.nodeAt i).attr, XEv.text s] st
        = { tree := expTree t crlf2 (i + 1) (i :: O), status := 1
            , route := mkRouteR (i :: SF), closeidx := st.closeidx } := by
  obtain ⟨hidx, hname, hattr, _⟩ := nodeCondB_facts _ _ hcond
  have hsyn := pushKind_syn _ hpk
  have hne : ∀ nm : Str, syntheticName nm = true → ¬((t.nodeAt i).local_name = nm) :=
    fun nm hsynnm he => by rw [he, hsynnm] at hsyn; exact absurd hsyn (by decide)
  constructor
  · rw [ownEvents_eq, if_neg (hne cmtName (by decide)), if_neg (hne cdName (by decide)),
      if_neg (hne piName (by decide)), if_neg (hne dtName (by decide)), hs]
  · exact read_start_text t crlf2 i O SF st s htree hroute hname hattr hidx hrouten hs

theorem own_empty_sim (t : ETree) (crlf2 : Str) (i : Nat) (O SF : List Nat) (st : PSt)
    (hsyn : syntheticName (t.nodeAt i).local_name = false)
    (hcond : nodeCondB (t.nodeAt i) i = true)
    (hs : (t.nodeAt i).text = none)
    (htree : st.tree = expTree t crlf2 i O) (hroute : st.route = mkRouteR SF)
    (hrouten : (t.nodeAt i).route = mkRouteR SF)
    (hOi : O.contains i = false) :
    ownEvents t i = Except.ok [XEv.empty none (t.nodeAt i).get_name (t.nodeAt i).attr,
        XEv.text (t.nodeAt i).tail] ∧
      readEvents [XEv.empty none (t.nodeAt i).get_name (t.nodeAt i).attr,
          XEv.text (t.nodeAt i).tail] st
        = { tree := expTree t crlf2 (i + 1) O, status := 2
            , route := mkRouteR SF, closeidx := i } := by
  obtain ⟨hidx, hname, hattr, _⟩ := nodeCondB_facts _ _ hcond
  have hne : ∀ nm : Str, syntheticName nm = true → ¬((t.nodeAt i).local_name = nm) :=
    fun nm hsynnm he => by rw [he, hsynnm] at hsyn; exact absurd hsyn (by decide)
  constructor
  · rw [ownEvents_eq, if_neg (hne cmtName (by decide)), if_neg (hne cdName (by decide)),
      if_neg (hne piName (by decide)), if_neg (hne dtName (by decide)), hs]
  · exact read_empty_text t crlf2 i O SF st htree hroute hname hattr hidx hrouten hs hOi

theorem own_first_sim (t : ETree) (crlf2 : Str) (i : Nat) (SF : List Nat) (st : PSt)
    (hcond : nodeCondB (t.nodeAt i) i = true)
    (htree : st.tree = expTree t crlf2 i SF) (hroute : st.route = mkRouteR SF)
    (hrouten : (t.nodeAt i).route = mkRouteR SF)
    (hSFi : SF.contains i = false) :
    ∃ o, ownEvents t i = Except.ok o ∧
      readEvents (o ++ firstOf t i) st
        = { tree := expTree t crlf2 (i + 1) SF, status := 2
            , route := mkRouteR SF, closeidx := i } := by
  by_cases hsyn : syntheticName (t.nodeAt i).local_name = true
  · obtain ⟨o, ho, hr1⟩ := own_syn_sim t crlf2 i SF SF st hsyn hcond htree hroute hrouten
    obtain ⟨_, _, _, hsf⟩ := nodeCondB_facts _ _ hcond
    obtain ⟨htx, _, _, _⟩ := hsf hsyn
    obtain ⟨s, hs⟩ := Option.isSome_iff_exists.mp htx
    have hfo : firstOf t i = [XEv.text ((t.nodeAt i).tail)] := by
      unfold firstOf
      rw [hs, hsyn]
      rfl
    refine ⟨o, ho, ?_⟩
    rw [readEvents_append, hr1, hfo]
    exact read_text_close t crlf2 (i + 1) (i :: SF) SF i _ rfl rfl rfl
      (Nat.lt_succ_self i) (contains_cons_self i SF) hSFi
      (fun j _ hne => contains_cons_ne i j SF hne)
  · have hsynf : syntheticName (t.nodeAt i).local_name = false := by
      cases hb : syntheticName (t.nodeAt i).local_name with
      | false => rfl
      | true => exact absurd hb hsyn
    cases htx : (t.nodeAt i).text with
    | some s =>
      have hpk : pushKind (t.nodeAt i) = true := by
        unfold pushKind
        rw [htx, hsynf]
        rfl
      obtain ⟨ho, hr1⟩ := own_start_sim t crlf2 i SF SF st s hpk hcond htx htree hroute hrouten
      have hfo : firstOf t i
          = [XEv.endTag ((t.nodeAt i).get_name), XEv.text ((t.nodeAt i).tail)] := by
        unfold firstOf
        rw [htx, hsynf]
        rfl
      refine ⟨_, ho, ?_⟩
      rw [readEvents_append, hr1, hfo]
      exact read_end_text t crlf2 (i + 1) (i :: SF) SF SF i ((t.nodeAt i).get_name) _ rfl rfl
        (Nat.lt_succ_self i) (contains_cons_self i SF) hSFi
        (fun j _ hne => contains_cons_ne i j SF hne)
    | none =>
      obtain ⟨ho, hr1⟩ := own_empty_sim t crlf2 i SF SF st hsynf hcond htx htree hroute
        hrouten hSFi
      have hfo : firstOf t i = [] := by
        unfold firstOf
        rw [htx]
        rfl
      refine ⟨_, ho, ?_⟩
      rw [readEvents_append, hr1, hfo]
      rfl

theorem mkRouteR_length_le (D S : List Nat) :
    (mkRouteR S).length ≤ (mkRouteR (D ++ S)).length := by
  induction D with
  | nil => exact le_refl _
  | cons x D2 ih =>
    rw [List.cons_append]
    have := mkRouteR_cons_length x (D2 ++ S)
    omega

theorem mkRouteR_length_lt (x : Nat) (D S : List Nat) :
    (mkRouteR S).length < (mkRouteR ((x :: D) ++ S)).length := by
  rw [List.cons_append]
  have h1 := mkRouteR_cons_length x (D ++ S)
  have h2 := mkRouteR_length_le D S
  omega

theorem preClose_child (t : ETree) (i : Nat) (SF : List Nat)
    (hrouten : (t.nodeAt i).route = mkRouteR SF)
    (hroutec : (t.nodeAt (i + 1)).route = mkRouteR (i :: SF)) :
    preClose t (i + 1) = Except.ok [] := by
  rw [preClose_eq, hrouten, hroutec]
  have hne1 : ¬(mkRouteR SF = mkRouteR (i :: SF)) :=
    fun he => mkRouteR_ne_of_ext [i] SF (by simp) he.symm
  rw [if_neg hne1]
  rw [if_pos (List.isPrefixOf_iff_prefix.mpr ⟨natChars i ++ [hashC], (mkRouteR_cons i SF).symm⟩)]

theorem preClose_value (t : ETree) (i : Nat) (SF Dc S2 : List Nat)
    (hglob : ∀ q, q < t.data.length → t.idxAt q = q)
    (hSFdec : SF = Dc ++ S2)
    (hrouten : (t.nodeAt i).route = mkRouteR SF)
    (hroutec : (t.nodeAt (i + 1)).route = mkRouteR S2)
    (hD : ∀ x ∈ Dc, x < t.data.length ∧ syntheticName (t.nodeAt x).local_name = false) :
    preClose t (i + 1) = Except.ok (firstOf t i ++ closeEvs t Dc) := by
  rw [preClose_eq, hrouten, hroutec, hSFdec]
  cases Dc with
  | nil =>
    have hcc : mkRouteR ([] ++ S2) = mkRouteR S2 := rfl
    rw [if_pos hcc]
    rw [show closeEvs t [] = [] from rfl, List.append_nil]
  | cons d1 D3 =>
    rw [if_neg (mkRouteR_ne_of_ext (d1 :: D3) S2 (by simp))]
    have h2 : ¬((mkRouteR ((d1 :: D3) ++ S2)).isPrefixOf (mkRouteR S2) = true) := by
      rw [isPrefixOf_false_of_longer _ _ (mkRouteR_length_lt d1 D3 S2)]
      decide
    rw [if_neg h2]
    have h3 : (mkRouteR S2).isPrefixOf (mkRouteR ((d1 :: D3) ++ S2)) = true :=
      List.isPrefixOf_iff_prefix.mpr
        ⟨routeSegs (d1 :: D3).reverse, (mkRouteR_decomp (d1 :: D3) S2).symm⟩
    rw [if_pos h3]
    rw [closeLoop_spec t hglob (d1 :: D3) S2 ((mkRouteR ((d1 :: D3) ++ S2)).length + 1)
      (by simp) (by omega) hD]

theorem finalsE_value (t : ETree) (i : Nat) (SF : List Nat)
    (hglob : ∀ q, q < t.data.length → t.idxAt q = q)
    (hlast : t.data.length - 1 = i)
    (hrouten : (t.nodeAt i).route = mkRouteR SF)
    (hD : ∀ x ∈ SF, x < t.data.length ∧ syntheticName (t.nodeAt x).local_name = false) :
    finalsE t = Except.ok (firstOf t i ++ closeEvs t SF) := by
  rw [finalsE_eq, hlast, hrouten]
  cases SF with
  | nil =>
    rw [closeLoop_nil]
    rfl
  | cons x SF2 =>
    rw [show ([hashC] : Str) = mkRouteR [] from rfl]
    have hcl := closeLoop_spec t hglob (x :: SF2) [] ((mkRouteR (x :: SF2)).length + 1)
      (by simp)
      (by rw [List.append_nil]; omega)
      hD
    rw [List.append_nil] at hcl
    rw [hcl]
    rfl

theorem close_step (t : ETree) (crlf2 : Str)
    (hglob : ∀ q, q < t.data.length → t.idxAt q = q)
    (k2 i : Nat) (SF Dc S2 : List Nat) (st : PSt)
    (hcond : nodeCondB (t.nodeAt i) i = true)
    (hSFdec : SF = Dc ++ S2)
    (hrouten : (t.nodeAt i).route = mkRouteR SF)
    (hroutec : (t.nodeAt (i + 1)).route = mkRouteR S2)
    (htree : st.tree = expTree t crlf2 i SF)
    (hroute : st.route = mkRouteR SF)
    (hSFi : SF.contains i = false)
    (hnd : SF.Nodup)
    (hSFlt : ∀ x ∈ SF, x < i)
    (hDcond : ∀ x ∈ SF, x < t.data.length ∧ syntheticName (t.nodeAt x).local_name = false)
    (ihf : ∀ (st2 : PSt),
      st2.tree = expTree t crlf2 (i + 1) S2 → st2.route = mkRouteR S2 →
      ∃ es, writeRest t (k2 + 1) (i + 1) = Except.ok es ∧
        (readEvents es st2).tree = expTree t crlf2 t.data.length []) :
    ∃ es, writeRest t (k2 + 1 + 1) i = Except.ok es ∧
      (readEvents es st).tree = expTree t crlf2 t.data.length [] := by
  have hpre := preClose_value t i SF Dc S2 hglob hSFdec hrouten hroutec
    (fun x hx => hDcond x (by rw [hSFdec]; exact List.mem_append_left _ hx))
  obtain ⟨o, ho, hof⟩ := own_first_sim t crlf2 i SF st hcond htree hroute hrouten hSFi
  have hrc := read_closes t crlf2 (i + 1) Dc S2
    ({ tree := expTree t crlf2 (i + 1) SF, status := 2
       , route := mkRouteR SF, closeidx := i })
    (by rw [← hSFdec])
    (by rw [← hSFdec])
    (fun x hx => lt_trans
      (hSFlt x (by rw [hSFdec]; exact List.mem_append_left _ hx)) (Nat.lt_succ_self i))
    (by rw [← hSFdec]; exact hnd)
  obtain ⟨rest, hrest, hfin⟩ := ihf
    (readEvents (closeEvs t Dc)
      ({ tree := expTree t crlf2 (i + 1) SF, status := 2
         , route := mkRouteR SF, closeidx := i }))
    hrc.1 hrc.2
  refine ⟨(o ++ firstOf t i) ++ (closeEvs t Dc ++ rest), ?_, ?_⟩
  · rw [writeRest_succ, ho,
      show (if k2 + 1 = 0 then (Except.ok [] : Except String (List XEv))
        else preClose t (i + 1)) = preClose t (i + 1) from rfl,
      hpre, hrest]
    simp [List.append_assoc]
  · rw [readEvents_append, hof, readEvents_append]
    exact hfin

theorem sim_rest (t : ETree) (crlf2 : Str)
    (hglob : ∀ q, q < t.data.length → t.idxAt q = q) :
    ∀ (k : Nat), ∀ (i : Nat) (SF : List Nat) (st : PSt),
    0 < k → i + k = t.data.length →
    (chainRunL (t.data.drop i) i SF).isSome = true →
    (∀ x ∈ SF, x < i ∧ pushKind (t.nodeAt x) = true) →
    SF.Nodup →
    (t.nodeAt i).route = mkRouteR SF →
    st.tree = expTree t crlf2 i SF →
    st.route = mkRouteR SF →
    ∃ es, writeRest t k i = Except.ok es ∧
      (readEvents es st).tree = expTree t crlf2 t.data.length [] := by
  intro k
  induction k with
  | zero => intro i SF st h0 _ _ _ _ _ _ _; exact absurd h0 (lt_irrefl 0)
  | succ k ih =>
    intro i SF st hpos hlen hch hSF hnd hrouten htree hroute
    have hi : i < t.data.length := by omega
    rw [drop_cons_nodeAt t i hi] at hch
    obtain ⟨S2, hpop, hcond, hch2⟩ := chainRunL_pop _ _ _ _ hch
    rw [hrouten, popTo_self] at hpop
    injection hpop with hS2
    subst hS2
    have hSFi : SF.contains i = false := contains_false_of_lt i SF (fun x hx => (hSF x hx).1)
    have hDcond : ∀ x ∈ SF, x < t.data.length
        ∧ syntheticName (t.nodeAt x).local_name = false :=
      fun x hx => ⟨lt_trans (hSF x hx).1 hi, pushKind_syn _ (hSF x hx).2⟩
    cases k with
    | zero =>
      have hlast : t.data.length - 1 = i := by omega
      have hlen2 : i + 1 = t.data.length := by omega
      obtain ⟨o, ho, hof⟩ := own_first_sim t crlf2 i SF st hcond htree hroute hrouten hSFi
      have hfin := finalsE_value t i SF hglob hlast hrouten hDcond
      refine ⟨(o ++ firstOf t i) ++ closeEvs t SF, ?_, ?_⟩
      · rw [writeRest_succ, ho,
          show (if 0 = 0 then (Except.ok [] : Except String (List XEv))
            else preClose t (i + 1)) = Except.ok [] from rfl,
          show writeRest t 0 (i + 1) = finalsE t from rfl, hfin]
        simp [List.append_assoc]
      · rw [readEvents_append, hof]
        have hrc := read_closes t crlf2 (i + 1) SF []
          ({ tree := expTree t crlf2 (i + 1) SF, status := 2
             , route := mkRouteR SF, closeidx := i })
          (by rw [List.append_nil])
          (by rw [List.append_nil])
          (fun x hx => lt_trans (hSF x hx).1 (Nat.lt_succ_self i))
          (by rw [List.append_nil]; exact hnd)
        rw [hrc.1, hlen2]
    | succ k2 =>
      have hi1 : i + 1 < t.data.length := by omega
      by_cases hpk : pushKind (t.nodeAt i) = true
      · rw [if_pos hpk] at hch2
        rw [drop_cons_nodeAt t (i + 1) hi1] at hch2
        obtain ⟨S', hpop2, hcond2, hch3⟩ := chainRunL_pop _ _ _ _ hch2
        have hch4 : (chainRunL (t.data.drop (i + 1)) (i + 1) S').isSome = true := by
          rw [drop_cons_nodeAt t (i + 1) hi1, ← chainRunL_entry _ _ _ _ _ hpop2]
          exact hch2
        obtain ⟨hroute2, D, hD⟩ := popTo_sound _ _ _ hpop2
        cases D with
        | nil =>
          have hS' : S' = i :: SF := hD.symm
          subst hS'
          obtain ⟨s, hstext⟩ := Option.isSome_iff_exists.mp (pushKind_text _ hpk)
          have hpre := preClose_child t i SF hrouten hroute2.symm
          obtain ⟨ho, hr1⟩ := own_start_sim t crlf2 i SF SF st s hpk hcond hstext
            htree hroute hrouten
          obtain ⟨rest, hrest, hfin⟩ := ih (i + 1) (i :: SF)
            ({ tree := expTree t crlf2 (i + 1) (i :: SF), status := 1
               , route := mkRouteR (i :: SF), closeidx := st.closeidx })
            (Nat.succ_pos _) (by omega) hch4
            (fun x hx => by
              rcases List.mem_cons.mp hx with he | hm
              · rw [he]; exact ⟨Nat.lt_succ_self i, hpk⟩
              · exact ⟨lt_trans (hSF x hm).1 (Nat.lt_succ_self i), (hSF x hm).2⟩)
            (List.nodup_cons.mpr ⟨fun hmem => lt_irrefl i (hSF i hmem).1, hnd⟩)
            hroute2.symm rfl rfl
          refine ⟨[XEv.start none ((t.nodeAt i).get_name) ((t.nodeAt i).attr), XEv.text s]
              ++ ([] ++ rest), ?_, ?_⟩
          · rw [writeRest_succ, ho,
              show (if k2 + 1 = 0 then (Except.ok [] : Except String (List XEv))
                else preClose t (i + 1)) = preClose t (i + 1) from rfl,
              hpre, hrest]
            simp
          · rw [readEvents_append, hr1, List.nil_append]
            exact hfin
        | cons d0 D2 =>
          injection hD with hd0 hSFdec
          have hSFdec2 : SF = D2 ++ S' := hSFdec
          refine close_step t crlf2 hglob k2 i SF D2 S' st hcond hSFdec2 hrouten
            hroute2.symm htree hroute hSFi hnd (fun x hx => (hSF x hx).1) hDcond
            (fun st2 ht2 hr2 => ih (i + 1) S' st2 (Nat.succ_pos _) (by omega) hch4
              (fun x hx => ⟨lt_trans
                  (hSF x (by rw [hSFdec2]; exact List.mem_append_right _ hx)).1
                  (Nat.lt_succ_self i),
                (hSF x (by rw [hSFdec2]; exact List.mem_append_right _ hx)).2⟩)
              (List.Nodup.sublist (List.suffix_append D2 S').sublist
                (by rw [← hSFdec2]; exact hnd))
              hroute2.symm ht2 hr2)
      · rw [if_neg hpk] at hch2
        rw [drop_cons_nodeAt t (i + 1) hi1] at hch2
        obtain ⟨S', hpop2, hcond2, hch3⟩ := chainRunL_pop _ _ _ _ hch2
        have hch4 : (chainRunL (t.data.drop (i + 1)) (i + 1) S').isSome = true := by
          rw [drop_cons_nodeAt t (i + 1) hi1, ← chainRunL_entry _ _ _ _ _ hpop2]
          exact hch2
        obtain ⟨hroute2, D, hD⟩ := popTo_sound _ _ _ hpop2
        refine close_step t crlf2 hglob k2 i SF D S' st hcond hD hrouten
          hroute2.symm htree hroute hSFi hnd (fun x hx => (hSF x hx).1) hDcond
          (fun st2 ht2 hr2 => ih (i + 1) S' st2 (Nat.succ_pos _) (by omega) hch4
            (fun x hx => ⟨lt_trans
                (hSF x (by rw [hD]; exact List.mem_append_right _ hx)).1
                (Nat.lt_succ_self i),
              (hSF x (by rw [hD]; exact List.mem_append_right _ hx)).2⟩)
            (List.Nodup.sublist (List.suffix_append D S').sublist
              (by rw [← hD]; exact hnd))
            hroute2.symm ht2 hr2)

theorem detectIndent_shape2 (t t2 : ETree) (h : detectIndent t = Except.ok t2) :
    ∃ ind, t2 = { t with indent := ind } := by
  unfold detectIndent at h
  simp only [] at h
  split at h
  · split at h
    · injection h with h
      exact ⟨_, h.symm⟩
    · injection h with h
      exact ⟨t.indent, h.symm⟩
  · split at h
    · split at h
      · split at h
        · injection h with h
          exact ⟨_, h.symm⟩
        · injection h with h
          exact ⟨t.indent, h.symm⟩
      · exact absurd h (by simp)
    · injection h with h
      exact ⟨t.indent, h.symm⟩

theorem splitNameAux_some : ∀ (s p l : Str), splitNameAux s = some (p, l) →
    s = p ++ ':' :: l ∧ (':' ∈ p → False) := by
  intro s
  induction s with
  | nil => intro p l h; exact absurd h (by simp [splitNameAux])
  | cons c cs ih =>
    intro p l h
    unfold splitNameAux at h
    by_cases hc : c = ':'
    · rw [if_pos hc] at h
      injection h with h2
      cases h2
      exact ⟨by rw [hc]; rfl, by simp⟩
    · rw [if_neg hc] at h
      cases hsp : splitNameAux cs with
      | none => rw [hsp] at h; exact absurd h (by simp)
      | some pr =>
        rw [hsp] at h
        rw [show Option.map (fun p => (c :: p.1, p.2)) (some pr)
            = some (c :: pr.1, pr.2) from rfl] at h
        injection h with h2
        obtain ⟨hd1, hd2⟩ := ih pr.1 pr.2 (by rw [hsp])
        have h1 : c :: pr.1 = p := congrArg Prod.fst h2
        have h3 : pr.2 = l := congrArg Prod.snd h2
        constructor
        · rw [← h1, ← h3, hd1]
          rfl
        · intro hm
          rw [← h1] at hm
          rcases List.mem_cons.mp hm with he | hm2
          · exact hc he.symm
          · exact hd2 hm2

theorem rebuild_splitName (name : Str) (hhead : name.head? ≠ some ':') :
    (if (splitName name).1 = [] then (splitName name).2
     else (splitName name).1 ++ ':' :: (splitName name).2) = name := by
  unfold splitName
  cases h : splitNameAux name with
  | none =>
    rfl
  | some pr =>
    obtain ⟨hs, hnp⟩ := splitNameAux_some name pr.1 pr.2 (by rw [h])
    show (if pr.1 = [] then pr.2 else pr.1 ++ ':' :: pr.2) = name
    have hp : pr.1 ≠ [] := by
      intro hpe
      rw [hpe] at hs
      rw [hs] at hhead
      exact hhead rfl
    rw [if_neg hp, hs]

theorem goodTag_facts (name : Str) (hg : goodTag name = true) :
    name.head? ≠ some ':' ∧ (('<') ∈ name → False) ∧ (('>') ∈ name → False) := by
  unfold goodTag at hg
  simp only [Bool.and_eq_true, decide_eq_true_eq, Bool.not_eq_true'] at hg
  obtain ⟨⟨h1, h2⟩, h3⟩ := hg
  refine ⟨h1, ?_, ?_⟩
  · intro hm
    have hc : name.contains '<' = true := List.elem_eq_true_of_mem hm
    rw [h2] at hc
    exact absurd hc (by decide)
  · intro hm
    have hc : name.contains '>' = true := List.elem_eq_true_of_mem hm
    rw [h3] at hc
    exact absurd hc (by decide)

theorem splitName_sub (name : Str) : ∀ c, c ∈ (splitName name).2 → c ∈ name := by
  unfold splitName
  cases h : splitNameAux name with
  | none =>
    exact fun c hc => hc
  | some pr =>
    obtain ⟨hs, _⟩ := splitNameAux_some name pr.1 pr.2 (by rw [h])
    show ∀ c, c ∈ pr.2 → c ∈ name
    intro c hc
    rw [hs]
    exact List.mem_append_right _ (List.mem_cons_of_mem _ hc)

theorem goodTag_nonsyn (name : Str) (hg : goodTag name = true) :
    syntheticName (splitName name).2 = false := by
  obtain ⟨_, h2, _⟩ := goodTag_facts name hg
  cases hl : (splitName name).2 with
  | nil => rfl
  | cons c0 rest =>
    have hc0 : c0 ∈ name := splitName_sub name c0 (by rw [hl]; exact List.mem_cons_self _ _)
    have hne : ¬(c0 = '<') := fun he => h2 (he ▸ hc0)
    simp [syntheticName, hne]

theorem set_attr_shape (n : ETreeNode) (k v : Str) :
    ∃ a, (n.set_attr k v).1 = { n with attr := a } := by
  unfold ETreeNode.set_attr
  cases h : n.find_attr k with
  | some j => exact ⟨_, rfl⟩
  | none => exact ⟨_, rfl⟩

theorem setAttrFold_shape : ∀ (l : List (Str × Str)) (n : ETreeNode),
    ∃ a, setAttrFold n l = { n with attr := a } := by
  intro l
  induction l with
  | nil => intro n; exact ⟨n.attr, rfl⟩
  | cons kv rest ih =>
    intro n
    obtain ⟨a1, h1⟩ := set_attr_shape n kv.1 kv.2
    obtain ⟨a2, h2⟩ := ih ((n.set_attr kv.1 kv.2).1)
    refine ⟨a2, ?_⟩
    show setAttrFold ((n.set_attr kv.1 kv.2).1) rest = _
    rw [h2, h1]

theorem map_fst_set : ∀ (l : List (Str × Str)) (j : Nat) (v : Str),
    ((l.set j (((l.get? j).getD ([], [])).1, v)).map Prod.fst) = l.map Prod.fst := by
  intro l
  induction l with
  | nil => intro j v; rfl
  | cons x xs ih =>
    intro j v
    cases j with
    | zero => rfl
    | succ m =>
      show x.1 :: ((xs.set m (((xs.get? m).getD ([], [])).1, v)).map Prod.fst)
          = x.1 :: xs.map Prod.fst
      rw [ih m v]

theorem findAttrAux_none_keys : ∀ (l : List (Str × Str)) (key : Str) (s : Nat),
    findAttrAux l key s = none → key ∉ l.map Prod.fst := by
  intro l
  induction l with
  | nil => intro key s _ hm; simp at hm
  | cons kv rest ih =>
    intro key s h hm
    unfold findAttrAux at h
    by_cases hk : kv.1 = key
    · rw [if_pos hk] at h; exact absurd h (by simp)
    · rw [if_neg hk] at h
      rcases List.mem_cons.mp hm with he | hm2
      · exact hk he.symm
      · exact ih key (s + 1) h hm2

theorem set_attr_nodup (n : ETreeNode) (k v : Str)
    (h : (n.attr.map Prod.fst).Nodup) : (((n.set_attr k v).1).attr.map Prod.fst).Nodup := by
  unfold ETreeNode.set_attr
  cases hf : n.find_attr k with
  | some j =>
    show ((n.attr.set j (((n.attr.get? j).getD ([], [])).1, v)).map Prod.fst).Nodup
    rw [map_fst_set n.attr j v]
    exact h
  | none =>
    show ((n.attr ++ [(k, v)]).map Prod.fst).Nodup
    rw [List.map_append, List.nodup_append]
    refine ⟨h, by simp, ?_⟩
    intro x hx hx2
    simp at hx2
    rw [hx2] at hx
    exact findAttrAux_none_keys n.attr k 0 hf hx

theorem setAttrFold_nodup : ∀ (l : List (Str × Str)) (n : ETreeNode),
    (n.attr.map Prod.fst).Nodup → ((setAttrFold n l).attr.map Prod.fst).Nodup := by
  intro l
  induction l with
  | nil => intro n h; exact h
  | cons kv rest ih =>
    intro n h
    show ((setAttrFold ((n.set_attr kv.1 kv.2).1) rest).attr.map Prod.fst).Nodup
    exact ih _ (set_attr_nodup n kv.1 kv.2 h)

theorem chainRunL_cons_eq (n : ETreeNode) (d : List ETreeNode) (i : Nat) (S : List Nat) :
    chainRunL (n :: d) i S
      = match popTo S n.route with
        | none => none
        | some S2 =>
          if nodeCondB n i then chainRunL d (i + 1) (if pushKind n then i :: S2 else S2)
          else none := rfl

theorem chainRunL_snoc : ∀ (d : List ETreeNode) (n : ETreeNode) (i : Nat) (S : List Nat),
    chainRunL (d ++ [n]) i S
      = match chainRunL d i S with
        | none => none
        | some S1 =>
          match popTo S1 n.route with
          | none => none
          | some S2 =>
            if nodeCondB n (i + d.length)
            then some (if pushKind n then (i + d.length) :: S2 else S2)
            else none := by
  intro d
  induction d with
  | nil =>
    intro n i S
    rfl
  | cons m d2 ih =>
    intro n i S
    show (match popTo S m.route with
      | none => none
      | some S2 =>
        if nodeCondB m i
        then chainRunL (d2 ++ [n]) (i + 1) (if pushKind m then i :: S2 else S2)
        else none) = _
    rw [chainRunL_cons_eq m d2 i S]
    cases hp : popTo S m.route with
    | none => rfl
    | some S2 =>
      show (if nodeCondB m i
          then chainRunL (d2 ++ [n]) (i + 1) (if pushKind m then i :: S2 else S2)
          else none)
        = (match (if nodeCondB m i
            then chainRunL d2 (i + 1) (if pushKind m then i :: S2 else S2)
            else none) with
          | none => none
          | some S1 =>
            match popTo S1 n.route with
            | none => none
            | some S3 =>
              if nodeCondB n (i + (m :: d2).length)
              then some (if pushKind n then (i + (m :: d2).length) :: S3 else S3)
              else none)
      by_cases hc : nodeCondB m i = true
      · rw [if_pos hc, if_pos hc, ih n (i + 1) (if pushKind m then i :: S2 else S2)]
        rw [show i + 1 + d2.length = i + (m :: d2).length from by
          rw [List.length_cons]; omega]
      · rw [if_neg hc, if_neg hc]

theorem length_modifyNth {α : Type} (f : α → α) : ∀ (j : Nat) (l : List α),
    (l.modifyNth f j).length = l.length := by
  intro j l
  induction l generalizing j with
  | nil => cases j <;> rfl
  | cons x xs ih =>
    cases j with
    | zero => rfl
    | succ m =>
      show (x :: xs.modifyNth f m).length = (x :: xs).length
      simp [ih]

theorem get?_modifyNth_self {α : Type} (f : α → α) : ∀ (l : List α) (j : Nat),
    (l.modifyNth f j).get? j = (l.get? j).map f := by
  intro l
  induction l with
  | nil => intro j; cases j <;> rfl
  | cons x xs ih =>
    intro j
    cases j with
    | zero => rfl
    | succ m =>
      show (xs.modifyNth f m).get? m = (xs.get? m).map f
      exact ih m

theorem chainRunL_modify_tail :
    ∀ (d : List ETreeNode) (i : Nat) (S : List Nat) (j : Nat) (s : Str),
    chainRunL (d.modifyNth (fun n => { n with tail := s }) j) i S = chainRunL d i S := by
  intro d
  induction d with
  | nil => intro i S j s; cases j <;> rfl
  | cons n d2 ih =>
    intro i S j s
    cases j with
    | zero =>
      show (match popTo S n.route with
        | none => none
        | some S2 =>
          if nodeCondB { n with tail := s } i
          then chainRunL d2 (i + 1) (if pushKind { n with tail := s } then i :: S2 else S2)
          else none)
        = (match popTo S n.route with
        | none => none
        | some S2 =>
          if nodeCondB n i
          then chainRunL d2 (i + 1) (if pushKind n then i :: S2 else S2)
          else none)
      rfl
    | succ m =>
      show chainRunL (n :: d2.modifyNth (fun nd => { nd with tail := s }) m) i S
          = chainRunL (n :: d2) i S
      rw [chainRunL_cons_eq, chainRunL_cons_eq]
      cases hp : popTo S n.route with
      | none => rfl
      | some S2 =>
        show (if nodeCondB n i
            then chainRunL (d2.modifyNth (fun nd => { nd with tail := s }) m) (i + 1)
              (if pushKind n then i :: S2 else S2)
            else none)
          = (if nodeCondB n i
            then chainRunL d2 (i + 1) (if pushKind n then i :: S2 else S2)
            else none)
        by_cases hc : nodeCondB n i = true
        · rw [if_pos hc, if_pos hc]
          exact ih (i + 1) (if pushKind n then i :: S2 else S2) m s
        · rw [if_neg hc, if_neg hc]

theorem nodeCondB_text_congr (n : ETreeNode) (i : Nat) (s : Str)
    (ht : n.text.isSome = true) :
    nodeCondB { n with text := some s } i = nodeCondB n i := by
  unfold nodeCondB ETreeNode.get_name
  simp [ht]

theorem pushKind_text_congr (n : ETreeNode) (s : Str) (ht : n.text.isSome = true) :
    pushKind { n with text := some s } = pushKind n := by
  unfold pushKind
  simp [ht]

theorem chainRunL_modify_text :
    ∀ (d : List ETreeNode) (i : Nat) (S : List Nat) (j : Nat) (s : Str),
    (∀ nd, d.get? j = some nd → nd.text.isSome = true) →
    chainRunL (d.modifyNth (fun n => { n with text := some s }) j) i S = chainRunL d i S := by
  intro d
  induction d with
  | nil => intro i S j s _; cases j <;> rfl
  | cons n d2 ih =>
    intro i S j s hj
    cases j with
    | zero =>
      have ht : n.text.isSome = true := hj n rfl
      show (match popTo S n.route with
        | none => none
        | some S2 =>
          if nodeCondB { n with text := some s } i
          then chainRunL d2 (i + 1) (if pushKind { n with text := some s } then i :: S2 else S2)
          else none)
        = (match popTo S n.route with
        | none => none
        | some S2 =>
          if nodeCondB n i
          then chainRunL d2 (i + 1) (if pushKind n then i :: S2 else S2)
          else none)
      rw [nodeCondB_text_congr n i s ht, pushKind_text_congr n s ht]
    | succ m =>
      show chainRunL (n :: d2.modifyNth (fun nd => { nd with text := some s }) m) i S
          = chainRunL (n :: d2) i S
      rw [chainRunL_cons_eq, chainRunL_cons_eq]
      cases hp : popTo S n.route with
      | none => rfl
      | some S2 =>
        show (if nodeCondB n i
            then chainRunL (d2.modifyNth (fun nd => { nd with text := some s }) m) (i + 1)
              (if pushKind n then i :: S2 else S2)
            else none)
          = (if nodeCondB n i
            then chainRunL d2 (i + 1) (if pushKind n then i :: S2 else S2)
            else none)
        by_cases hc : nodeCondB n i = true
        · rw [if_pos hc, if_pos hc]
          exact ih (i + 1) (if pushKind n then i :: S2 else S2) m s
            (fun nd hnd => hj nd hnd)
        · rw [if_neg hc, if_neg hc]

/-- The invariant `ETree::read` maintains over well-formed event streams:
the counter tracks the vector length, the current route is the textual
form of a stack whose extension by the already-closed levels is accepted
by the route-stack discipline over the whole vector, and in
just-opened-state the last entry has a text slot. -/
def AInv (st : PSt) : Prop :=
  st.tree.count = st.tree.data.length ∧
  ∃ S D : List Nat, st.route = mkRouteR S
    ∧ chainRunL st.tree.data 0 [] = some (D ++ S)
    ∧ (st.status = 1 → 0 < st.tree.data.length ∧
        ∀ nd, st.tree.data.get? (st.tree.data.length - 1) = some nd → nd.text.isSome = true)

theorem chain_snoc_here (st : PSt) (node : ETreeNode) (S D : List Nat)
    (hroute : st.route = mkRouteR S)
    (hchain : chainRunL st.tree.data 0 [] = some (D ++ S))
    (hnr : node.route = st.route)
    (hcond : nodeCondB node st.tree.data.length = true) :
    chainRunL (st.tree.data ++ [node]) 0 []
      = some (if pushKind node then st.tree.data.length :: S else S) := by
  have hsn := chainRunL_snoc st.tree.data node 0 []
  rw [Nat.zero_add] at hsn
  rw [hsn, hchain]
  show (match popTo (D ++ S) node.route with
    | none => none
    | some S2 => if nodeCondB node st.tree.data.length
        then some (if pushKind node then st.tree.data.length :: S2 else S2)
        else none) = _
  rw [hnr, hroute, popTo_suffix]
  show (if nodeCondB node st.tree.data.length
      then some (if pushKind node then st.tree.data.length :: S else S)
      else none) = _
  rw [if_pos hcond]

theorem pushSyn_AInv (st : PSt) (nm s : Str)
    (hsplit : splitName nm = ([], nm))
    (hsyn : syntheticName nm = true)
    (hns : nm = cmtName ∨ nm = cdName ∨ nm = piName ∨ nm = dtName)
    (h : AInv st) : AInv (pushSyn st nm s) := by
  obtain ⟨hcnt, S, D, hroute, hchain, _⟩ := h
  have hcond : nodeCondB { ETreeNode.new nm with
      idx := st.tree.count, text := some s, route := st.route } st.tree.data.length
      = true := by
    unfold nodeCondB ETreeNode.get_name
    rcases hns with h4 | h4 | h4 | h4 <;>
      simp [ETreeNode.new, hcnt, hsplit, hsyn, h4] <;> decide
  have hpushf : pushKind { ETreeNode.new nm with
      idx := st.tree.count, text := some s, route := st.route } = false := by
    unfold pushKind
    simp [ETreeNode.new, hsyn]
  have hch2 := chain_snoc_here st
    { ETreeNode.new nm with idx := st.tree.count, text := some s, route := st.route }
    S D hroute hchain rfl hcond
  rw [hpushf] at hch2
  exact ⟨by simp [pushSyn, hcnt], S, [], hroute, hch2,
    fun hs => absurd (show (2 : Nat) = 1 from hs) (by decide)⟩

theorem get?_snoc_length {α : Type} : ∀ (l : List α) (a : α),
    (l ++ [a]).get? l.length = some a := by
  intro l
  induction l with
  | nil => intro a; rfl
  | cons x xs ih => intro a; exact ih a

theorem start_AInv (st : PSt) (nsv : Str) (name : Str) (attrs : List (Str × Str))
    (hg : goodTag name = true) (h : AInv st) :
    AInv { st with
      tree := { st.tree with
        data := st.tree.data ++ [setAttrFold { ETreeNode.new (splitName name).2 with
          idx := st.tree.count,
          ns := nsv,
          ns_abbrev := (splitName name).1,
          text := some [],
          route := st.route } attrs],
        count := st.tree.count + 1 },
      route := st.route ++ natChars st.tree.count ++ [hashC],
      status := 1 } := by
  obtain ⟨hcnt, S, D, hroute, hchain, hst1⟩ := h
  have hhead := (goodTag_facts name hg).1
  have hsynf := goodTag_nonsyn name hg
  have hrb := rebuild_splitName name hhead
  obtain ⟨a, hsh⟩ := setAttrFold_shape attrs { ETreeNode.new (splitName name).2 with
    idx := st.tree.count,
    ns := nsv,
    ns_abbrev := (splitName name).1,
    text := some [],
    route := st.route }
  have hnodup := setAttrFold_nodup attrs { ETreeNode.new (splitName name).2 with
    idx := st.tree.count,
    ns := nsv,
    ns_abbrev := (splitName name).1,
    text := some [],
    route := st.route } (by simp [ETreeNode.new])
  rw [hsh] at hnodup
  have hcond : nodeCondB (setAttrFold { ETreeNode.new (splitName name).2 with
      idx := st.tree.count,
      ns := nsv,
      ns_abbrev := (splitName name).1,
      text := some [],
      route := st.route } attrs) st.tree.data.length = true := by
    rw [hsh]
    unfold nodeCondB ETreeNode.get_name
    simp [ETreeNode.new, hcnt, hsynf, hnodup, hrb]
  have hpush : pushKind (setAttrFold { ETreeNode.new (splitName name).2 with
      idx := st.tree.count,
      ns := nsv,
      ns_abbrev := (splitName name).1,
      text := some [],
      route := st.route } attrs) = true := by
    rw [hsh]
    unfold pushKind
    simp [ETreeNode.new, hsynf]
  have hch2 := chain_snoc_here st (setAttrFold { ETreeNode.new (splitName name).2 with
      idx := st.tree.count,
      ns := nsv,
      ns_abbrev := (splitName name).1,
      text := some [],
      route := st.route } attrs) S D hroute hchain (by rw [hsh]) hcond
  rw [hpush] at hch2
  have hrt : st.route ++ natChars st.tree.count ++ [hashC]
      = mkRouteR (st.tree.data.length :: S) := by
    rw [hroute, hcnt, mkRouteR_cons, List.append_assoc]
  refine ⟨by simp [hcnt], st.tree.data.length :: S, [], hrt, hch2, fun _ => ⟨by simp, ?_⟩⟩
  intro nd hnd
  have hidx2 : ∀ (node : ETreeNode),
      (st.tree.data ++ [node]).length - 1 = st.tree.data.length := by
    intro node; simp
  rw [hidx2, get?_snoc_length] at hnd
  injection hnd with he
  rw [← he, hsh]
  rfl

theorem empty_AInv (st : PSt) (nsv : Str) (name : Str) (attrs : List (Str × Str))
    (hg : goodTag name = true) (h : AInv st) :
    AInv { st with
      tree := { st.tree with
        data := st.tree.data ++ [setAttrFold { ETreeNode.new (splitName name).2 with
          idx := st.tree.count,
          ns := nsv,
          ns_abbrev := (splitName name).1,
          route := st.route } attrs],
        count := st.tree.count + 1 },
      closeidx := st.tree.count, status := 2 } := by
  obtain ⟨hcnt, S, D, hroute, hchain, hst1⟩ := h
  have hhead := (goodTag_facts name hg).1
  have hsynf := goodTag_nonsyn name hg
  have hrb := rebuild_splitName name hhead
  obtain ⟨a, hsh⟩ := setAttrFold_shape attrs { ETreeNode.new (splitName name).2 with
    idx := st.tree.count,
    ns := nsv,
    ns_abbrev := (splitName name).1,
    route := st.route }
  have hnodup := setAttrFold_nodup attrs { ETreeNode.new (splitName name).2 with
    idx := st.tree.count,
    ns := nsv,
    ns_abbrev := (splitName name).1,
    route := st.route } (by simp [ETreeNode.new])
  rw [hsh] at hnodup
  have hcond : nodeCondB (setAttrFold { ETreeNode.new (splitName name).2 with
      idx := st.tree.count,
      ns := nsv,
      ns_abbrev := (splitName name).1,
      route := st.route } attrs) st.tree.data.length = true := by
    rw [hsh]
    unfold nodeCondB ETreeNode.get_name
    simp [ETreeNode.new, hcnt, hsynf, hnodup, hrb]
  have hpushf : pushKind (setAttrFold { ETreeNode.new (splitName name).2 with
      idx := st.tree.count,
      ns := nsv,
      ns_abbrev := (splitName name).1,
      route := st.route } attrs) = false := by
    rw [hsh]
    unfold pushKind
    simp [ETreeNode.new]
  have hch2 := chain_snoc_here st (setAttrFold { ETreeNode.new (splitName name).2 with
      idx := st.tree.count,
      ns := nsv,
      ns_abbrev := (splitName name).1,
      route := st.route } attrs) S D hroute hchain (by rw [hsh]) hcond
  rw [hpushf] at hch2
  exact ⟨by simp [hcnt], S, [], hroute, hch2,
    fun hs => absurd (show (2 : Nat) = 1 from hs) (by decide)⟩

theorem readStep_AInv (st : PSt) (ev : XEv) (hwf : wfEv ev = true) (h : AInv st) :
    AInv (readStep st ev) := by
  obtain ⟨hcnt, S, D, hroute, hchain, hst1⟩ := h
  cases ev with
  | start ns name attrs =>
    have hg : goodTag name = true := hwf
    clear hwf
    cases ns with
    | none => exact start_AInv st [] name attrs hg ⟨hcnt, S, D, hroute, hchain, hst1⟩
    | some x => exact start_AInv st x name attrs hg ⟨hcnt, S, D, hroute, hchain, hst1⟩
  | empty ns name attrs =>
    have hg : goodTag name = true := hwf
    clear hwf
    cases ns with
    | none => exact empty_AInv st [] name attrs hg ⟨hcnt, S, D, hroute, hchain, hst1⟩
    | some x => exact empty_AInv st x name attrs hg ⟨hcnt, S, D, hroute, hchain, hst1⟩
  | endTag nm =>
    show AInv (match splitRouteLast st.route with
      | some p => { st with status := 2, route := p.1, closeidx := charsVal p.2 }
      | none => { st with status := 2 })
    cases S with
    | nil =>
      have hsp : splitRouteLast st.route = none := by
        rw [hroute]
        exact splitRouteLast_root
      rw [hsp]
      exact ⟨hcnt, [], D, hroute, hchain,
        fun hs => absurd (show (2 : Nat) = 1 from hs) (by decide)⟩
    | cons x S2 =>
      have hsp : splitRouteLast st.route = some (mkRouteR S2, natChars x) := by
        rw [hroute]
        exact splitRouteLast_mkRouteR x S2
      rw [hsp]
      refine ⟨hcnt, S2, D ++ [x], rfl, ?_,
        fun hs => absurd (show (2 : Nat) = 1 from hs) (by decide)⟩
      rw [hchain, List.append_assoc]
      rfl
  | text s =>
    show AInv (if st.status = 1
      then { st with tree := st.tree.setTextAt (st.tree.count - 1) s }
      else if st.status = 2 then { st with tree := st.tree.setTailAt st.closeidx s }
      else st)
    by_cases h1 : st.status = 1
    · rw [if_pos h1]
      obtain ⟨hpos0, hlast⟩ := hst1 h1
      have hlast2 : ∀ nd, st.tree.data.get? (st.tree.count - 1) = some nd →
          nd.text.isSome = true := by
        rw [hcnt]
        exact hlast
      refine ⟨?_, S, D, hroute, ?_, fun _ => ⟨?_, ?_⟩⟩
      · show st.tree.count
            = (st.tree.data.modifyNth (fun n => { n with text := some s })
              (st.tree.count - 1)).length
        rw [length_modifyNth]
        exact hcnt
      · show chainRunL (st.tree.data.modifyNth (fun n => { n with text := some s })
            (st.tree.count - 1)) 0 [] = some (D ++ S)
        rw [chainRunL_modify_text st.tree.data 0 [] (st.tree.count - 1) s hlast2]
        exact hchain
      · show 0 < (st.tree.data.modifyNth (fun n => { n with text := some s })
            (st.tree.count - 1)).length
        rw [length_modifyNth]
        exact hpos0
      · intro nd hnd
        have hnd2 : (st.tree.data.modifyNth (fun n => { n with text := some s })
            (st.tree.count - 1)).get?
            ((st.tree.data.modifyNth (fun n => { n with text := some s })
              (st.tree.count - 1)).length - 1) = some nd := hnd
        rw [length_modifyNth, ← hcnt, get?_modifyNth_self] at hnd2
        cases hx : st.tree.data.get? (st.tree.count - 1) with
        | none => rw [hx] at hnd2; exact absurd hnd2 (by simp)
        | some nd0 =>
          rw [hx] at hnd2
          injection hnd2 with he
          rw [← he]
          rfl
    · rw [if_neg h1]
      by_cases h2 : st.status = 2
      · rw [if_pos h2]
        refine ⟨?_, S, D, hroute, ?_, fun hs => absurd hs h1⟩
        · show st.tree.count
              = (st.tree.data.modifyNth (fun n => { n with tail := s })
                st.closeidx).length
          rw [length_modifyNth]
          exact hcnt
        · show chainRunL (st.tree.data.modifyNth (fun n => { n with tail := s })
              st.closeidx) 0 [] = some (D ++ S)
          rw [chainRunL_modify_tail st.tree.data 0 [] st.closeidx s]
          exact hchain
      · rw [if_neg h2]
        exact ⟨hcnt, S, D, hroute, hchain, hst1⟩
  | comment s =>
    exact pushSyn_AInv st cmtName s (by decide) (by decide) (Or.inl rfl)
      ⟨hcnt, S, D, hroute, hchain, hst1⟩
  | cdata s =>
    exact pushSyn_AInv st cdName s (by decide) (by decide) (Or.inr (Or.inl rfl))
      ⟨hcnt, S, D, hroute, hchain, hst1⟩
  | pi s =>
    exact pushSyn_AInv st piName s (by decide) (by decide)
      (Or.inr (Or.inr (Or.inl rfl))) ⟨hcnt, S, D, hroute, hchain, hst1⟩
  | doctype s =>
    exact pushSyn_AInv st dtName s (by decide) (by decide)
      (Or.inr (Or.inr (Or.inr rfl))) ⟨hcnt, S, D, hroute, hchain, hst1⟩
  | decl v e sa =>
    exact ⟨hcnt, S, D, hroute, hchain, hst1⟩

theorem readEvents_AInv : ∀ (evs : List XEv) (st : PSt),
    evs.all wfEv = true → AInv st → AInv (readEvents evs st) := by
  intro evs
  induction evs with
  | nil => intro st _ h; exact h
  | cons e rest ih =>
    intro st hwf h
    rw [List.all_cons, Bool.and_eq_true] at hwf
    show AInv (readEvents rest (readStep st e))
    exact ih _ hwf.2 (readStep_AInv st e hwf.1 h)

theorem pinit_AInv (crlf : Str) : AInv (pInit crlf) :=
  ⟨rfl, [], [], rfl, rfl, fun hs => absurd (show (0 : Nat) = 1 from hs) (by decide)⟩

theorem parsed_chainOk (crlf : Str) (evs : List XEv) (hwf : evs.all wfEv = true) :
    chainOk (readEvents evs (pInit crlf)).tree = true := by
  obtain ⟨_, S, D, _, hchain, _⟩ := readEvents_AInv evs (pInit crlf) hwf (pinit_AInv crlf)
  unfold chainOk
  rw [hchain]
  rfl

theorem popTo_nil_inv (r : Str) (S2 : List Nat) (h : popTo [] r = some S2) :
    r = mkRouteR [] ∧ S2 = [] := by
  unfold popTo at h
  by_cases hc : mkRouteR [] = r
  · rw [if_pos hc] at h
    injection h with h2
    exact ⟨hc.symm, h2.symm⟩
  · rw [if_neg hc] at h
    exact absurd h (by simp)

theorem chain_root (t : ETree) (hne : t.data ≠ []) (hck : chainOk t = true) :
    (t.nodeAt 0).route = mkRouteR [] ∧ (chainRunL (t.data.drop 0) 0 []).isSome = true := by
  have h0 : (chainRunL t.data 0 []).isSome = true := hck
  have hlen : 0 < t.data.length := List.length_pos.mpr hne
  constructor
  · have h1 : (chainRunL (t.nodeAt 0 :: t.data.drop 1) 0 []).isSome = true := by
      rw [← drop_cons_nodeAt t 0 hlen, List.drop_zero]
      exact h0
    obtain ⟨S2, hpop, _, _⟩ := chainRunL_pop _ _ _ _ h1
    exact (popTo_nil_inv _ _ hpop).1
  · rw [List.drop_zero]
    exact h0

theorem read_prefix (t : ETree) (crlf2 : Str) :
    readEvents ([XEv.decl t.version t.encoding t.standalone]
        ++ (if t.crlf.isEmpty then [] else [XEv.text t.crlf])) (pInit crlf2)
      = { tree := expTree t crlf2 0 [], status := 0
          , route := mkRouteR [], closeidx := 0 } := by
  rw [readEvents_append]
  have h1 : readEvents [XEv.decl t.version t.encoding t.standalone] (pInit crlf2)
      = { tree := expTree t crlf2 0 [], status := 0
          , route := mkRouteR [], closeidx := 0 } := by
    show ({ (pInit crlf2) with tree := { (pInit crlf2).tree with
        version := t.version,
        encoding := (match t.encoding with
          | some x => some x
          | none => (pInit crlf2).tree.encoding),
        standalone := (match t.standalone with
          | some x => some x
          | none => (pInit crlf2).tree.standalone) } } : PSt) = _
    unfold expTree
    cases t.encoding <;> cases t.standalone <;> rfl
  rw [h1]
  cases t.crlf.isEmpty <;> rfl

theorem expData_full (t : ETree) :
    expData t t.data.length [] = t.data.map (fun n => { n with ns := [] }) := by
  apply List.ext_get?
  intro j
  unfold expData
  rw [List.get?_map, List.get?_map]
  by_cases hj : j < t.data.length
  · rw [List.get?_range hj]
    cases hx : t.data.get? j with
    | none =>
      rw [List.get?_eq_get hj] at hx
      exact absurd hx (by simp)
    | some nd =>
      have hnode : t.nodeAt j = nd := by
        unfold ETree.nodeAt
        rw [hx]
        rfl
      show some (expNode (t.nodeAt j) (List.contains [] j)) = _
      rw [hnode]
      rfl
  · have h1 : (List.range t.data.length).get? j = none :=
      List.get?_eq_none.mpr (by rw [List.length_range]; omega)
    have h2 : t.data.get? j = none := List.get?_eq_none.mpr (by omega)
    rw [h1, h2]
    rfl

/-- **C1.** Round trip: for every tree `t` obtained by `parse_str` from a
well-formed tokenizer event stream (every start/empty tag name is free of
`<` and `>` and has no leading colon — what a real XML tokenizer emits),
serializing `t` with `write` succeeds, and re-reading the produced events
rebuilds exactly the same node sequence — same local names and prefixes,
same ordered attribute lists, same text options, same tails (and even the
same identities and path labels), with only the resolved-namespace field
cleared to its initial state — together with the same declaration fields
(version, encoding, standalone). -/
theorem c1_roundtrip (crlf crlf2 : Str) (evs : List XEv) (t : ETree)
    (hwf : evs.all wfEv = true)
    (hp : parseEvents crlf evs = Except.ok t)
    (hne : t.data ≠ []) :
    ∃ ws, writeEvents t = Except.ok ws ∧
      (readEvents ws (pInit crlf2)).tree.data
          = t.data.map (fun n => { n with ns := [] })
      ∧ (readEvents ws (pInit crlf2)).tree.version = t.version
      ∧ (readEvents ws (pInit crlf2)).tree.encoding = t.encoding
      ∧ (readEvents ws (pInit crlf2)).tree.standalone = t.standalone := by
  unfold parseEvents at hp
  obtain ⟨ind, hti⟩ := detectIndent_shape2 _ _ hp
  have hck : chainOk t = true := by
    rw [hti]
    exact parsed_chainOk crlf evs hwf
  have hglob := chainOk_glob t hck
  obtain ⟨hroot, hch0⟩ := chain_root t hne hck
  obtain ⟨es, hes, hread⟩ := sim_rest t crlf2 hglob t.data.length 0 []
    ({ tree := expTree t crlf2 0 [], status := 0, route := mkRouteR [], closeidx := 0 })
    (List.length_pos.mpr hne) (by omega) hch0
    (fun x hx => absurd hx (List.not_mem_nil x))
    List.nodup_nil hroot rfl rfl
  have hfull : (readEvents ([XEv.decl t.version t.encoding t.standalone]
      ++ (if t.crlf.isEmpty then [] else [XEv.text t.crlf]) ++ es) (pInit crlf2)).tree
      = expTree t crlf2 t.data.length [] := by
    rw [readEvents_append, read_prefix]
    exact hread
  refine ⟨[XEv.decl t.version t.encoding t.standalone]
      ++ (if t.crlf.isEmpty then [] else [XEv.text t.crlf]) ++ es,
    writeEvents_of t hne es hes, ?_, ?_, ?_, ?_⟩
  · rw [hfull]
    exact expData_full t
  · rw [hfull]
    rfl
  · rw [hfull]
    rfl
  · rw [hfull]
    rfl

/-- The tokenizer event stream of `<?xml version="1.0"?><a>x</a>`. -/
def c1E : List XEv :=
  [XEv.decl ('1' :: '.' :: ['0']) none none,
   XEv.start none ['a'] [],
   XEv.text ['x'],
   XEv.endTag ['a'],
   XEv.text []]

/-- The tree read from that stream. -/
def c1T : ETree := (readEvents c1E (pInit [])).tree

theorem c1_roundtrip_witness :
    ∃ ws, writeEvents c1T = Except.ok ws ∧
      (readEvents ws (pInit [])).tree.data
          = c1T.data.map (fun n => { n with ns := [] })
      ∧ (readEvents ws (pInit [])).tree.version = c1T.version
      ∧ (readEvents ws (pInit [])).tree.encoding = c1T.encoding
      ∧ (readEvents ws (pInit [])).tree.standalone = c1T.standalone :=
  c1_roundtrip [] [] c1E c1T rfl rfl (by decide)

/-- Counterexample to C8 as stated: on `<r><b/><b x='2'/></r>` the query
`//b[@x='2']` returns nothing — the first `b` lacks the attribute and the
loop breaks, so the second `b`, which does carry `x='2'`, is never
examined; on the mirrored `<r><b x='2'/><b/></r>` the same query returns
the first `b` and the trailing attribute-less candidate only stops the
scan. -/
theorem c8_counterexample :
    xfindRoot tRBBX qBX = Except.ok []
      ∧ (tRBBX.nodeAt 2).get_attr ['x'] = some ['2']
      ∧ (tRBBX.nodeAt 2).get_name = ['b']
      ∧ xfindRoot tRBXB qBX = Except.ok [1] := by
  refine ⟨?_, by decide, by decide, ?_⟩ <;> decide

end RustEtree
